import Mathlib

/-!
Verification of the `long_long_calculator` bignum core.

The C sources are shallowly embedded: `uint32_t` limb arrays become
`List Nat` with every entry below `2 ^ 32`, `uint16_t` half-limb arrays
become `List Nat` with every entry below `2 ^ 16`, and every C arithmetic
operation that can wrap is written with an explicit `% 2 ^ 16`, `% 2 ^ 32`
or `% 2 ^ 64`.  In-place array passes become explicit state passing; a pass
that touches only the window `u[j .. j+n]` is written as
`u.take j ++ newWindow ++ u.drop (j+n+1)`.

Bitwise `|` in the C code is only ever applied to operands with disjoint
bit ranges (`(hi << 16) | lo` with `lo < 2 ^ 16`), where it coincides with
`+`; the embedding writes `+` and the lemma `lor_eq_add_of_lt` records the
coincidence.
-/

namespace LLCalc

/-- Interpreted value of a little-endian `uint16_t` half-limb array. -/
def val16 (l : List Nat) : Nat := Nat.ofDigits 65536 l

/-- Interpreted value of a little-endian `uint32_t` limb array. -/
def val32 (l : List Nat) : Nat := Nat.ofDigits 4294967296 l

/-- The contents of a `uint16_t` array: every entry fits in 16 bits. -/
def wf16 (l : List Nat) : Prop := ∀ d ∈ l, d < 65536

/-- The contents of a `uint32_t` array: every entry fits in 32 bits. -/
def wf32 (l : List Nat) : Prop := ∀ d ∈ l, d < 4294967296

/-- `x | y` is `x + y` when the set bits of `x` live above those of `y`:
this justifies writing `+` for the C `(hi << 16) | lo` patterns. -/
theorem lor_eq_add_of_lt {k x y : Nat} (hy : y < 2 ^ k) :
    (2 ^ k * x) ||| y = 2 ^ k * x + y := by
  apply Nat.eq_of_testBit_eq
  intro i
  rw [Nat.testBit_lor, Nat.testBit_mul_pow_two_add x hy i, Nat.testBit_mul_pow_two]
  by_cases h : i < k
  · have : ¬ i ≥ k := by omega
    simp [h, this]
  · have hik : i ≥ k := by omega
    have hyi : y.testBit i = false :=
      Nat.testBit_lt_two_pow (lt_of_lt_of_le hy (Nat.pow_le_pow_right (by omega) hik))
    simp [h, hik, hyi]

/-! ## Basic facts about `val16` / `val32` -/

theorem val16_nil : val16 [] = 0 := Nat.ofDigits_nil

theorem val16_cons (d : Nat) (l : List Nat) : val16 (d :: l) = d + 65536 * val16 l :=
  Nat.ofDigits_cons

theorem val16_singleton (x : Nat) : val16 [x] = x := by
  rw [val16_cons, val16_nil]
  omega

theorem val16_append (l1 l2 : List Nat) :
    val16 (l1 ++ l2) = val16 l1 + 65536 ^ l1.length * val16 l2 :=
  Nat.ofDigits_append

theorem val16_lt (l : List Nat) (h : wf16 l) : val16 l < 65536 ^ l.length :=
  Nat.ofDigits_lt_base_pow_length (by omega) h

theorem val32_nil : val32 [] = 0 := Nat.ofDigits_nil

theorem val32_cons (d : Nat) (l : List Nat) :
    val32 (d :: l) = d + 4294967296 * val32 l :=
  Nat.ofDigits_cons

theorem val32_append (l1 l2 : List Nat) :
    val32 (l1 ++ l2) = val32 l1 + 4294967296 ^ l1.length * val32 l2 :=
  Nat.ofDigits_append

theorem val32_lt (l : List Nat) (h : wf32 l) : val32 l < 4294967296 ^ l.length :=
  Nat.ofDigits_lt_base_pow_length (by omega) h

theorem wf16_append {l1 l2 : List Nat} (h1 : wf16 l1) (h2 : wf16 l2) :
    wf16 (l1 ++ l2) := by
  intro d hd
  rcases List.mem_append.mp hd with h | h
  · exact h1 d h
  · exact h2 d h

theorem wf16_take {l : List Nat} (n : Nat) (h : wf16 l) : wf16 (l.take n) :=
  fun d hd => h d (List.mem_of_mem_take hd)

theorem wf16_drop {l : List Nat} (n : Nat) (h : wf16 l) : wf16 (l.drop n) :=
  fun d hd => h d (List.mem_of_mem_drop hd)

theorem wf16_reverse {l : List Nat} (h : wf16 l) : wf16 l.reverse :=
  fun d hd => h d (List.mem_reverse.mp hd)

theorem wf16_getD {l : List Nat} (h : wf16 l) (i : Nat) : l.getD i 0 < 65536 := by
  by_cases hi : i < l.length
  · rw [List.getD_eq_getElem l 0 hi]
    exact h _ (List.getElem_mem hi)
  · rw [List.getD_eq_default _ _ (by omega)]
    omega

/-- Splitting a list at `n` splits its value. -/
theorem val16_take_drop (l : List Nat) (n : Nat) :
    val16 l = val16 (l.take n) + 65536 ^ (l.take n).length * val16 (l.drop n) := by
  conv_lhs => rw [← List.take_append_drop n l]
  exact val16_append _ _

/-! ## `div_32_by_16` and `short_division` -/

/-- `div_32_by_16`: divide `(u_hi:u_lo)` by `v`, returning the quotient and
remainder as they are stored into the `uint16_t` outputs.  The C builds
`u = ((uint32_t)u_hi << 16) | u_lo`, which is `u_hi * 65536 + u_lo`. -/
def div_32_by_16 (u_hi u_lo v : Nat) : Nat × Nat :=
  let u := u_hi * 65536 + u_lo
  (u / v % 65536, u % v % 65536)

/-- The two assertions guarding `div_32_by_16`: a non-zero divisor and a
quotient that fits in 16 bits. -/
def div_32_by_16_ok (u_hi u_lo v : Nat) : Prop :=
  0 < v ∧ (u_hi * 65536 + u_lo) / v ≤ 65535

/-- The high-to-low sweep of `short_division` (the C loop runs `i = n - 1`
down to `0`), processing the digit list most significant first and
threading the running remainder `k`. -/
def sdGo (v : Nat) : List Nat → Nat → List Nat × Nat
  | [], k => ([], k)
  | d :: rest, k =>
    let qr := div_32_by_16 k d v
    let res := sdGo v rest qr.2
    (qr.1 :: res.1, res.2)

/-- `short_division(n, u, v, q, r)` with distinct `u` and `q` arrays:
quotient digits and the final remainder. -/
def short_division (u : List Nat) (v : Nat) : List Nat × Nat :=
  let res := sdGo v u.reverse 0
  (res.1.reverse, res.2)

/-- The sweep of `short_division` as it executes when the caller passes the
same array for `u` and `q` (as `to_string` does): index `i` is read and
then overwritten in place. -/
def sdInGo (v : Nat) : Nat → List Nat → Nat → List Nat × Nat
  | 0, a, k => (a, k)
  | i + 1, a, k =>
    let qr := div_32_by_16 k (a.getD i 0) v
    sdInGo v i (a.set i qr.1) qr.2

/-- In-place `short_division`, with the quotient overwriting the dividend. -/
def short_division_inplace (u : List Nat) (v : Nat) : List Nat × Nat :=
  sdInGo v u.length u 0

/-- All `div_32_by_16` assertions along a `short_division` sweep hold
(the digit list is most significant first, as the sweep consumes it). -/
def sdSafe (v : Nat) : List Nat → Nat → Bool
  | [], _ => true
  | d :: rest, k =>
    (decide (0 < v) && decide ((k * 65536 + d) / v ≤ 65535)) &&
      sdSafe v rest ((k * 65536 + d) % v % 65536)

/-- Specification of the `short_division` sweep: a Euclidean identity on the
most-significant-first digit list, with the remainder staying below `v`. -/
theorem sdGo_spec (v : Nat) (hv : 0 < v) (hv16 : v ≤ 65535) :
    ∀ (l : List Nat) (k : Nat), wf16 l → k < v →
      val16 (sdGo v l k).1.reverse * v + (sdGo v l k).2
          = k * 65536 ^ l.length + val16 l.reverse
        ∧ (sdGo v l k).2 < v ∧ wf16 (sdGo v l k).1
        ∧ (sdGo v l k).1.length = l.length := by
  intro l
  induction l with
  | nil =>
    intro k _ hk
    simp [sdGo, val16_nil]
    exact ⟨hk, fun d hd => by cases hd⟩
  | cons d rest ih =>
    intro k hwf hk
    have hd : d < 65536 := hwf d (by simp)
    have hrest : wf16 rest := fun x hx => hwf x (by simp [hx])
    have hA : k * 65536 + d < 65536 * v := by nlinarith
    have hq : (k * 65536 + d) / v < 65536 := (Nat.div_lt_iff_lt_mul hv).mpr hA
    have hr : (k * 65536 + d) % v < v := Nat.mod_lt _ hv
    have hqmod : (k * 65536 + d) / v % 65536 = (k * 65536 + d) / v :=
      Nat.mod_eq_of_lt hq
    have hrmod : (k * 65536 + d) % v % 65536 = (k * 65536 + d) % v :=
      Nat.mod_eq_of_lt (by omega)
    have hstep : sdGo v (d :: rest) k
        = ((k * 65536 + d) / v :: (sdGo v rest ((k * 65536 + d) % v)).1,
           (sdGo v rest ((k * 65536 + d) % v)).2) := by
      simp only [sdGo, div_32_by_16, hqmod, hrmod]
    obtain ⟨ihval, ihrem, ihwf, ihlen⟩ := ih ((k * 65536 + d) % v) hrest hr
    rw [hstep]
    refine ⟨?_, ihrem, ?_, by simp [ihlen]⟩
    · simp only [List.reverse_cons, val16_append, List.length_reverse, ihlen]
      simp only [val16_cons, val16_nil, List.length_cons]
      calc (val16 (sdGo v rest ((k * 65536 + d) % v)).1.reverse
              + 65536 ^ rest.length * ((k * 65536 + d) / v + 65536 * 0)) * v
            + (sdGo v rest ((k * 65536 + d) % v)).2
          = (val16 (sdGo v rest ((k * 65536 + d) % v)).1.reverse * v
              + (sdGo v rest ((k * 65536 + d) % v)).2)
            + 65536 ^ rest.length * ((k * 65536 + d) / v * v) := by ring
        _ = (k * 65536 + d) % v * 65536 ^ rest.length + val16 rest.reverse
            + 65536 ^ rest.length * ((k * 65536 + d) / v * v) := by rw [ihval]
        _ = 65536 ^ rest.length * ((k * 65536 + d) / v * v + (k * 65536 + d) % v)
            + val16 rest.reverse := by ring
        _ = 65536 ^ rest.length * (k * 65536 + d) + val16 rest.reverse := by
              rw [Nat.div_add_mod']
        _ = k * 65536 ^ (rest.length + 1) + (val16 rest.reverse
              + 65536 ^ rest.length * d) := by ring
    · intro x hx
      rcases List.mem_cons.mp hx with rfl | hx
      · exact hq
      · exact ihwf x hx

/-- A Euclidean identity with a small remainder pins down `/` and `%`. -/
theorem div_mod_eq_of_eq {q r N v : Nat} (h : q * v + r = N) (hr : r < v) :
    q = N / v ∧ r = N % v := by
  have hv : 0 < v := by omega
  subst h
  constructor
  · rw [Nat.add_comm, Nat.add_mul_div_right _ _ hv, Nat.div_eq_of_lt hr]
    omega
  · rw [Nat.mul_comm, Nat.mul_add_mod, Nat.mod_eq_of_lt hr]

/-- `short_division` computes the Euclidean quotient digits and remainder. -/
theorem short_division_spec (u : List Nat) (v : Nat) (hv : 0 < v)
    (hv16 : v ≤ 65535) (hu : wf16 u) :
    val16 (short_division u v).1 = val16 u / v
      ∧ (short_division u v).2 = val16 u % v
      ∧ wf16 (short_division u v).1
      ∧ (short_division u v).1.length = u.length := by
  obtain ⟨hval, hrem, hwf, hlen⟩ :=
    sdGo_spec v hv hv16 u.reverse 0 (wf16_reverse hu) hv
  rw [List.reverse_reverse] at hval
  have hid : val16 (sdGo v u.reverse 0).1.reverse * v + (sdGo v u.reverse 0).2
      = val16 u := by omega
  obtain ⟨hdiv, hmod⟩ := div_mod_eq_of_eq hid hrem
  refine ⟨hdiv, hmod, fun d hd => hwf d (List.mem_reverse.mp hd), ?_⟩
  show (sdGo v u.reverse 0).1.reverse.length = u.length
  rw [List.length_reverse, hlen, List.length_reverse]

/-- Reading a prefix one past `i` exposes element `i` at the head of the
reversed prefix. -/
theorem take_succ_reverse (a : List Nat) (i : Nat) (hi : i < a.length) :
    (a.take (i + 1)).reverse = a.getD i 0 :: (a.take i).reverse := by
  rw [List.take_succ, List.getElem?_eq_getElem hi, List.getD_eq_getElem a 0 hi]
  simp

/-- The in-place sweep agrees with the two-array sweep: position `i` is read
before it is overwritten, and each position is visited once. -/
theorem sdInGo_eq (v : Nat) :
    ∀ (i : Nat) (a : List Nat) (k : Nat), i ≤ a.length →
      sdInGo v i a k
        = ((sdGo v (a.take i).reverse k).1.reverse ++ a.drop i,
           (sdGo v (a.take i).reverse k).2) := by
  intro i
  induction i with
  | zero => intro a k _; simp [sdInGo, sdGo]
  | succ i ih =>
    intro a k h
    have hi : i < a.length := by omega
    have hset : (a.set i (div_32_by_16 k (a.getD i 0) v).1).take i = a.take i := by
      rw [List.set_take, List.set_eq_of_length_le (by simp [List.length_take])]
    have hdrop : (a.set i (div_32_by_16 k (a.getD i 0) v).1).drop i
        = (div_32_by_16 k (a.getD i 0) v).1 :: a.drop (i + 1) := by
      rw [List.drop_set, if_neg (by omega), Nat.sub_self,
        List.drop_eq_getElem_cons hi]
      rfl
    have hstep : sdInGo v (i + 1) a k
        = sdInGo v i (a.set i (div_32_by_16 k (a.getD i 0) v).1)
            (div_32_by_16 k (a.getD i 0) v).2 := rfl
    rw [hstep, ih _ _ (by simp [List.length_set]; omega), hset, hdrop,
      take_succ_reverse a i hi]
    simp only [sdGo]
    simp

/-- Aliasing `q` to `u` in `short_division` does not change its result. -/
theorem short_division_inplace_eq (u : List Nat) (v : Nat) :
    short_division_inplace u v = short_division u v := by
  rw [short_division_inplace, sdInGo_eq v u.length u 0 (le_refl _)]
  simp [short_division]

/-- The running remainder stays below the divisor, so every `div_32_by_16`
call made by `short_division` satisfies its assertions. -/
theorem sdSafe_of_lt (v : Nat) (hv16 : v ≤ 65535) :
    ∀ (l : List Nat) (k : Nat), wf16 l → k < v → sdSafe v l k = true := by
  intro l
  induction l with
  | nil => intro k _ _; rfl
  | cons d rest ih =>
    intro k hwf hk
    have hd : d < 65536 := hwf d (by simp)
    have hv : 0 < v := by omega
    have hA : k * 65536 + d < 65536 * v := by nlinarith
    have hq : (k * 65536 + d) / v < 65536 := (Nat.div_lt_iff_lt_mul hv).mpr hA
    have hr : (k * 65536 + d) % v < v := Nat.mod_lt _ hv
    have hrec := ih ((k * 65536 + d) % v % 65536)
      (fun x hx => hwf x (by simp [hx]))
      (by rw [Nat.mod_eq_of_lt (by omega)]; exact hr)
    simp only [sdSafe, hrec, Bool.and_true]
    simp
    omega

/-! ## `leading_zeros`, `shift_left`, `shift_right` -/

/-- The `while (x <= UINT16_MAX / 2) { x <<= 1; n++; }` loop of
`leading_zeros`; `x` is a `uint16_t`, so the doubling wraps at `2 ^ 16`.
For non-zero 16-bit input the loop runs at most 15 times, so 16 units of
fuel are never exhausted. -/
def clzGo : Nat → Nat → Nat
  | 0, _ => 0
  | f + 1, x => if x ≤ 32767 then clzGo f (x * 2 % 65536) + 1 else 0

/-- `leading_zeros(x)`: leading zero bits of a non-zero 16-bit value. -/
def leading_zeros (x : Nat) : Nat := clzGo 16 x

theorem clzGo_spec :
    ∀ (f x : Nat), 0 < x → x < 65536 → 32768 ≤ x * 2 ^ f →
      32768 ≤ x * 2 ^ clzGo f x ∧ x * 2 ^ clzGo f x ≤ 65535 := by
  intro f
  induction f with
  | zero =>
    intro x hx hx16 hf
    simp only [clzGo, pow_zero, Nat.mul_one] at *
    omega
  | succ f ih =>
    intro x hx hx16 hf
    by_cases hsmall : x ≤ 32767
    · have hx2 : x * 2 % 65536 = x * 2 := Nat.mod_eq_of_lt (by omega)
      have harr : x * 2 * 2 ^ f = x * 2 ^ (f + 1) := by rw [pow_succ]; ring
      have hrec := ih (x * 2) (by omega) (by omega) (by omega)
      simp only [clzGo, if_pos hsmall, hx2, pow_succ]
      have harr2 : x * (2 ^ clzGo f (x * 2) * 2) = x * 2 * 2 ^ clzGo f (x * 2) := by
        ring
      omega
    · simp only [clzGo, if_neg hsmall, pow_zero, Nat.mul_one]
      omega

/-- `leading_zeros` normalizes: shifting by it puts the top bit at
position 15. -/
theorem leading_zeros_spec (x : Nat) (h1 : 0 < x) (h2 : x < 65536) :
    32768 ≤ x * 2 ^ leading_zeros x ∧ x * 2 ^ leading_zeros x ≤ 65535
      ∧ leading_zeros x ≤ 15 := by
  have h := clzGo_spec 16 x h1 h2 (by nlinarith)
  simp only [leading_zeros]
  refine ⟨h.1, h.2, ?_⟩
  by_contra hgt
  have h16 : 16 ≤ clzGo 16 x := by omega
  have hle : (2 : Nat) ^ 16 ≤ 2 ^ clzGo 16 x := Nat.pow_le_pow_right (by omega) h16
  have hval : 1 * 2 ^ 16 ≤ x * 2 ^ clzGo 16 x := Nat.mul_le_mul h1 hle
  have h65536 : (2 : Nat) ^ 16 = 65536 := by norm_num
  omega

/-- The low-to-high pass of `shift_left`:
`t = u[i] >> (16 - m); u[i] = (u[i] << m) | k; k = t`. -/
def slGo (m : Nat) : List Nat → Nat → List Nat × Nat
  | [], k => ([], k)
  | x :: xs, k =>
    let t := x / 2 ^ (16 - m)
    let res := slGo m xs t
    ((x * 2 ^ m % 65536 + k) :: res.1, res.2)

/-- `shift_left(n, u, m)`; the carry out of the top is asserted to be zero
by the C code and is dropped. -/
def shift_left (u : List Nat) (m : Nat) : List Nat := (slGo m u 0).1

/-- The high-to-low pass of `shift_right`, on the reversed digit list:
`t = u[i] << (16 - m); u[i] = (u[i] >> m) | k; k = t`. -/
def srGo (m : Nat) : List Nat → Nat → List Nat × Nat
  | [], k => ([], k)
  | x :: xs, k =>
    let t := x * 2 ^ (16 - m) % 65536
    let res := srGo m xs t
    ((x / 2 ^ m + k) :: res.1, res.2)

/-- `shift_right(n, u, m)`; the bits shifted out at the bottom are asserted
to be zero by the C code and are dropped. -/
def shift_right (u : List Nat) (m : Nat) : List Nat := (srGo m u.reverse 0).1.reverse

theorem slGo_spec (m : Nat) (hm1 : 1 ≤ m) (hm2 : m ≤ 15) :
    ∀ (l : List Nat) (k : Nat), wf16 l → k < 2 ^ m →
      val16 (slGo m l k).1 + 65536 ^ l.length * (slGo m l k).2
          = val16 l * 2 ^ m + k
        ∧ (slGo m l k).2 < 2 ^ m ∧ wf16 (slGo m l k).1
        ∧ (slGo m l k).1.length = l.length := by
  intro l
  induction l with
  | nil =>
    intro k _ hk
    refine ⟨by simp [slGo, val16_nil], by simpa [slGo] using hk, ?_, rfl⟩
    intro d hd
    simp [slGo] at hd
  | cons x xs ih =>
    intro k hwf hk
    have hx : x < 65536 := hwf x (by simp)
    have hxs : wf16 xs := fun d hd => hwf d (by simp [hd])
    have hpow : 2 ^ (16 - m) * 2 ^ m = 65536 := by
      rw [← pow_add]
      have h16 : 16 - m + m = 16 := by omega
      rw [h16]
      norm_num
    have ht : x / 2 ^ (16 - m) < 2 ^ m := by
      apply Nat.div_lt_iff_lt_mul (by positivity) |>.mpr
      calc x < 65536 := hx
      _ ≤ 2 ^ m * 2 ^ (16 - m) := by rw [Nat.mul_comm, hpow]
    obtain ⟨ihval, ihk, ihwf, ihlen⟩ := ih (x / 2 ^ (16 - m)) hxs ht
    have hsplit : x * 2 ^ m = 65536 * (x / 2 ^ (16 - m)) + x * 2 ^ m % 65536 := by
      conv_lhs => rw [← Nat.div_add_mod (x * 2 ^ m) 65536]
      have hdd : x * 2 ^ m / 65536 = x / 2 ^ (16 - m) := by
        rw [← hpow, Nat.mul_comm (2 ^ (16 - m)) (2 ^ m), ← Nat.div_div_eq_div_mul,
          Nat.mul_div_cancel _ (by positivity)]
      rw [hdd]
    have hmodsmall : x * 2 ^ m % 65536 + k < 65536 := by
      have hdvd : 2 ^ m ∣ x * 2 ^ m % 65536 := by
        apply Nat.dvd_mod_iff ?_ |>.mpr ⟨x, Nat.mul_comm _ _⟩
        exact ⟨2 ^ (16 - m), by rw [Nat.mul_comm, hpow]⟩
      obtain ⟨c, hc⟩ := hdvd
      have hcb : x * 2 ^ m % 65536 < 65536 := Nat.mod_lt _ (by omega)
      have : c < 2 ^ (16 - m) := by
        by_contra hcge
        push_neg at hcge
        have : 2 ^ m * 2 ^ (16 - m) ≤ 2 ^ m * c := Nat.mul_le_mul_left _ hcge
        rw [Nat.mul_comm (2 ^ m) (2 ^ (16 - m)), hpow] at this
        omega
      have : 2 ^ m * c + 2 ^ m ≤ 2 ^ m * 2 ^ (16 - m) := by
        have := Nat.succ_le_of_lt this
        calc 2 ^ m * c + 2 ^ m = 2 ^ m * (c + 1) := by ring
        _ ≤ 2 ^ m * 2 ^ (16 - m) := Nat.mul_le_mul_left _ this
      rw [Nat.mul_comm (2 ^ m) (2 ^ (16 - m)), hpow] at this
      omega
    have hstep : slGo m (x :: xs) k
        = ((x * 2 ^ m % 65536 + k) :: (slGo m xs (x / 2 ^ (16 - m))).1,
           (slGo m xs (x / 2 ^ (16 - m))).2) := rfl
    rw [hstep]
    refine ⟨?_, ihk, ?_, by simp [ihlen]⟩
    · simp only [val16_cons, List.length_cons]
      calc x * 2 ^ m % 65536 + k + 65536 * val16 (slGo m xs (x / 2 ^ (16 - m))).1
            + 65536 ^ (xs.length + 1) * (slGo m xs (x / 2 ^ (16 - m))).2
          = x * 2 ^ m % 65536 + k
            + 65536 * (val16 (slGo m xs (x / 2 ^ (16 - m))).1
              + 65536 ^ xs.length * (slGo m xs (x / 2 ^ (16 - m))).2) := by ring
        _ = x * 2 ^ m % 65536 + k
            + 65536 * (val16 xs * 2 ^ m + x / 2 ^ (16 - m)) := by rw [ihval]
        _ = (x * 2 ^ m % 65536 + 65536 * (x / 2 ^ (16 - m)))
            + 65536 * val16 xs * 2 ^ m + k := by ring
        _ = x * 2 ^ m + 65536 * val16 xs * 2 ^ m + k := by omega
        _ = (x + 65536 * val16 xs) * 2 ^ m + k := by ring
    · intro d hd
      rcases List.mem_cons.mp hd with rfl | hd
      · exact hmodsmall
      · exact ihwf d hd

/-- `shift_left` without carry out multiplies the value by `2 ^ m`. -/
theorem shift_left_spec (u : List Nat) (m : Nat) (hm1 : 1 ≤ m) (hm2 : m ≤ 15)
    (hu : wf16 u) (hfit : val16 u * 2 ^ m < 65536 ^ u.length) :
    val16 (shift_left u m) = val16 u * 2 ^ m
      ∧ wf16 (shift_left u m) ∧ (shift_left u m).length = u.length := by
  obtain ⟨hval, hk, hwf, hlen⟩ := slGo_spec m hm1 hm2 u 0 hu (by positivity)
  have hk0 : (slGo m u 0).2 = 0 := by
    by_contra hne
    have h1 : 1 ≤ (slGo m u 0).2 := by omega
    have : 65536 ^ u.length ≤ 65536 ^ u.length * (slGo m u 0).2 := by
      calc 65536 ^ u.length = 65536 ^ u.length * 1 := by omega
      _ ≤ _ := Nat.mul_le_mul_left _ h1
    omega
  rw [hk0] at hval
  exact ⟨by rw [show shift_left u m = (slGo m u 0).1 from rfl]; omega, hwf, hlen⟩

theorem srGo_spec (m : Nat) (hm1 : 1 ≤ m) (hm2 : m ≤ 15) :
    ∀ (l : List Nat) (k : Nat), l ≠ [] → wf16 l → k < 65536 → 2 ^ (16 - m) ∣ k →
      val16 (srGo m l k).1.reverse
          = val16 l.reverse / 2 ^ m + k * 65536 ^ (l.length - 1)
        ∧ wf16 (srGo m l k).1 ∧ (srGo m l k).1.length = l.length := by
  intro l
  induction l with
  | nil => intro k h; cases h rfl
  | cons x xs ih =>
    intro k _ hwf hk hdvd
    have hx : x < 65536 := hwf x (by simp)
    have hxs : wf16 xs := fun d hd => hwf d (by simp [hd])
    have hpow : 2 ^ (16 - m) * 2 ^ m = 65536 := by
      rw [← pow_add]
      have h16 : 16 - m + m = 16 := by omega
      rw [h16]
      norm_num
    have hxdiv : x / 2 ^ m < 2 ^ (16 - m) := by
      apply Nat.div_lt_iff_lt_mul (by positivity) |>.mpr
      calc x < 65536 := hx
      _ ≤ 2 ^ (16 - m) * 2 ^ m := by rw [hpow]
    have hknew : x / 2 ^ m + k < 65536 := by
      obtain ⟨c, hc⟩ := hdvd
      have hc2 : c < 2 ^ m := by
        by_contra hcge
        push_neg at hcge
        have : 2 ^ (16 - m) * 2 ^ m ≤ 2 ^ (16 - m) * c := Nat.mul_le_mul_left _ hcge
        rw [hpow] at this
        omega
      have : 2 ^ (16 - m) * c + 2 ^ (16 - m) ≤ 2 ^ (16 - m) * 2 ^ m := by
        calc 2 ^ (16 - m) * c + 2 ^ (16 - m) = 2 ^ (16 - m) * (c + 1) := by ring
        _ ≤ _ := Nat.mul_le_mul_left _ (Nat.succ_le_of_lt hc2)
      rw [hpow] at this
      omega
    have htmod : x * 2 ^ (16 - m) % 65536 = x % 2 ^ m * 2 ^ (16 - m) := by
      have hx2 : x * 2 ^ (16 - m)
          = 65536 * (x / 2 ^ m) + x % 2 ^ m * 2 ^ (16 - m) := by
        conv_lhs => rw [← Nat.div_add_mod x (2 ^ m)]
        rw [← hpow]
        ring
      rw [hx2, Nat.mul_add_mod, Nat.mod_eq_of_lt]
      have hmlt : x % 2 ^ m < 2 ^ m := Nat.mod_lt _ (by positivity)
      calc x % 2 ^ m * 2 ^ (16 - m) < 2 ^ m * 2 ^ (16 - m) :=
            mul_lt_mul_of_pos_right hmlt (by positivity)
      _ = 65536 := by rw [Nat.mul_comm, hpow]
    have hstep : srGo m (x :: xs) k
        = ((x / 2 ^ m + k) :: (srGo m xs (x * 2 ^ (16 - m) % 65536)).1,
           (srGo m xs (x * 2 ^ (16 - m) % 65536)).2) := rfl
    rcases xs with _ | ⟨y, ys⟩
    · rw [hstep]
      refine ⟨?_, ?_, rfl⟩
      · simp [srGo, val16_cons, val16_nil]
      · intro d hd
        rcases List.mem_cons.mp hd with rfl | hd
        · exact hknew
        · simp [srGo] at hd
    · have hne : (y :: ys) ≠ [] := by simp
      obtain ⟨ihval, ihwf, ihlen⟩ := ih (x * 2 ^ (16 - m) % 65536) hne hxs
        (Nat.mod_lt _ (by omega)) (by rw [htmod]; exact ⟨x % 2 ^ m, Nat.mul_comm _ _⟩)
      simp only [List.length_cons, Nat.add_sub_cancel] at ihval
      rw [hstep]
      refine ⟨?_, ?_, by simp [ihlen]⟩
      · simp only [List.reverse_cons, val16_append, List.length_reverse, ihlen,
          val16_cons, val16_nil, List.length_cons, List.length_append,
          List.length_nil, Nat.mul_zero, Nat.add_zero, Nat.add_sub_cancel]
        rw [ihval]
        have hW : val16 (y :: ys).reverse
            = val16 ys.reverse + 65536 ^ ys.length * y := by
          rw [List.reverse_cons, val16_append, val16_cons, val16_nil]
          simp [List.length_reverse]
        have hX : 65536 ^ (ys.length + 1) * x
            = 2 ^ m * (65536 ^ (ys.length + 1) * (x / 2 ^ m)
              + x % 2 ^ m * 2 ^ (16 - m) * 65536 ^ ys.length) := by
          conv_lhs => rw [← Nat.div_add_mod x (2 ^ m)]
          rw [pow_succ, ← hpow]
          ring
        have hkey : (val16 (y :: ys).reverse + 65536 ^ (ys.length + 1) * x) / 2 ^ m
            = val16 (y :: ys).reverse / 2 ^ m
              + (65536 ^ (ys.length + 1) * (x / 2 ^ m)
                + x % 2 ^ m * 2 ^ (16 - m) * 65536 ^ ys.length) := by
          rw [hX, Nat.add_mul_div_left _ _ (show 0 < 2 ^ m by positivity)]
        rw [htmod, ← hW, hkey]
        ring
      · intro d hd
        rcases List.mem_cons.mp hd with rfl | hd
        · exact hknew
        · exact ihwf d hd

/-- `shift_right` divides the value by `2 ^ m` (the shifted-out bits are
dropped; the C asserts they are zero for its uses). -/
theorem shift_right_spec (u : List Nat) (m : Nat) (hm1 : 1 ≤ m) (hm2 : m ≤ 15)
    (hu : wf16 u) (hne : u ≠ []) :
    val16 (shift_right u m) = val16 u / 2 ^ m
      ∧ wf16 (shift_right u m) ∧ (shift_right u m).length = u.length := by
  obtain ⟨hval, hwf, hlen⟩ := srGo_spec m hm1 hm2 u.reverse 0
    (by simpa using hne) (wf16_reverse hu) (by omega) ⟨0, by omega⟩
  rw [List.reverse_reverse] at hval
  refine ⟨by rw [show shift_right u m = (srGo m u.reverse 0).1.reverse from rfl]; omega,
    fun d hd => hwf d (List.mem_reverse.mp hd), ?_⟩
  show (srGo m u.reverse 0).1.reverse.length = u.length
  rw [List.length_reverse, hlen, List.length_reverse]

/-! ## Algorithm D: definitions -/

/-- A `uint32_t` decrement (`qhat--`). -/
def dec32 (x : Nat) : Nat := (x + 4294967295) % 4294967296

/-- The `qhat` correction loop of `algorithm_d`.  Each iteration decrements
`qhat`, so `qhat + 1` units of fuel are never exhausted.  All arithmetic is
`uint32_t`; `(rhat << 16) | u[j+n-2]` is `rhat * 65536 % 2 ^ 32 + u3`
(the low 16 bits of the shifted value are zero), and the C `||`
short-circuits, so the product comparison only matters when
`qhat ≤ 65535`. -/
def corrLoopGo (v1 v2 u3 : Nat) : Nat → Nat → Nat → Nat × Nat
  | 0, qhat, rhat => (qhat, rhat)
  | f + 1, qhat, rhat =>
    if qhat > 65535 ∨ qhat * v2 % 4294967296 > rhat * 65536 % 4294967296 + u3 then
      if (rhat + v1) % 4294967296 ≤ 65535 then
        corrLoopGo v1 v2 u3 f (dec32 qhat) ((rhat + v1) % 4294967296)
      else (dec32 qhat, (rhat + v1) % 4294967296)
    else (qhat, rhat)

/-- The correction loop as the C executes it, starting from the initial
estimate. -/
def corrLoop (v1 v2 u3 qhat rhat : Nat) : Nat × Nat :=
  corrLoopGo v1 v2 u3 (qhat + 1) qhat rhat

/-- The correction loop with its comparison performed at full width
(no `uint32_t` wraparound anywhere). -/
def corrLoopExactGo (v1 v2 u3 : Nat) : Nat → Nat → Nat → Nat × Nat
  | 0, qhat, rhat => (qhat, rhat)
  | f + 1, qhat, rhat =>
    if qhat > 65535 ∨ qhat * v2 > rhat * 65536 + u3 then
      if rhat + v1 ≤ 65535 then
        corrLoopExactGo v1 v2 u3 f (qhat - 1) (rhat + v1)
      else (qhat - 1, rhat + v1)
    else (qhat, rhat)

def corrLoopExact (v1 v2 u3 qhat rhat : Nat) : Nat × Nat :=
  corrLoopExactGo v1 v2 u3 (qhat + 1) qhat rhat

/-- The local `d` of the multiply-subtract loop body:
`p = qhat * v[i]` (`uint32_t`), `d = u[j+i] - (uint16_t)p` on `uint16_t`
values, which is `(ui + (65536 - p % 65536)) % 65536`. -/
def msD (qhat vi ui : Nat) : Nat :=
  (ui + (65536 - qhat * vi % 4294967296 % 65536)) % 65536

/-- The value stored into `u[j+i]`: `d - k` on `uint16_t` values. -/
def msU (qhat vi ui k : Nat) : Nat := (msD qhat vi ui + (65536 - k)) % 65536

/-- The outgoing `k2`: `(uint16_t)(p >> 16)` plus the two borrow tests
`(d > u[j+i])` and `(u[j+i] > d)`, each accumulated with a `uint16_t`
addition. -/
def msK (qhat vi ui k : Nat) : Nat :=
  ((qhat * vi % 4294967296 / 65536 + if ui < msD qhat vi ui then 1 else 0) % 65536
    + if msD qhat vi ui < msU qhat vi ui k then 1 else 0) % 65536

/-- The fused multiply-subtract pass of `algorithm_d` over the window
`u[j .. j+n]`; the divisor digit is read as `0` at `i = n`
(`vs.headD 0` is `0` past the end of `v`, matching `(i == n ? 0 : v[i])`). -/
def mulsubWin (qhat : Nat) : List Nat → List Nat → Nat → List Nat × Nat
  | [], _, k => ([], k)
  | ui :: us, vs, k =>
    let res := mulsubWin qhat us vs.tail (msK qhat (vs.headD 0) ui k)
    (msU qhat (vs.headD 0) ui k :: res.1, res.2)

/-- The add-back pass over `i = 0 .. n-1`:
`t = u[j+i] + v[i] + k; u[j+i] = t; k = t >> 16` with `t` a `uint32_t`. -/
def addbackWin : List Nat → List Nat → Nat → List Nat × Nat
  | us, [], k => (us, k)
  | [], _ :: _, k => ([], k)
  | ui :: us, vi :: vs, k =>
    let t := (ui + vi + k) % 4294967296
    let res := addbackWin us vs (t / 65536)
    (t % 65536 :: res.1, res.2)

/-- The corrected estimate of iteration `j`: `t = (u[j+n] << 16) | u[j+n-1]`,
`qhat = t / v[n-1]`, `rhat = t % v[n-1]`, then the correction loop. -/
def dEst (n j : Nat) (v u : List Nat) : Nat × Nat :=
  let t := u.getD (j + n) 0 * 65536 + u.getD (j + n - 1) 0
  corrLoop (v.getD (n - 1) 0) (v.getD (n - 2) 0) (u.getD (j + n - 2) 0)
    (t / v.getD (n - 1) 0) (t % v.getD (n - 1) 0)

/-- Iteration `j` of the main loop of `algorithm_d`: estimate and correct
`qhat`, multiply-subtract on the window `u[j .. j+n]`, store `q[j]`
(a `uint16_t` store), and on underflow decrement `q[j]` and add back. -/
def dStep (n j : Nat) (v u q : List Nat) : List Nat × List Nat :=
  let qhat := (dEst n j v u).1
  let win := (u.drop j).take (n + 1)
  let ms := mulsubWin qhat win v 0
  if ms.2 ≠ 0 then
    let ab := addbackWin (ms.1.take n) v 0
    let top := (ms.1.getD n 0 + ab.2) % 65536
    (u.take j ++ (ab.1 ++ [top]) ++ u.drop (j + n + 1),
     q.set j ((qhat % 65536 + 65535) % 65536))
  else
    (u.take j ++ ms.1 ++ u.drop (j + n + 1), q.set j (qhat % 65536))

/-- The main loop `for (j = m; j >= 0; j--)` of `algorithm_d`. -/
def dLoop (n : Nat) (v : List Nat) : Nat → List Nat → List Nat → List Nat × List Nat
  | 0, u, q => dStep n 0 v u q
  | j + 1, u, q =>
    let s := dStep n (j + 1) v u q
    dLoop n v j s.1 s.2

/-- `algorithm_d(m, n, u, v, q)`: `u` holds the `m + n` dividend digits (the
reserved `(m+n+1)`-th scratch slot of the C array becomes the appended `0`
written by `u[m + n] = 0`); returns the final contents of `u` (remainder in
its first `n` digits) and of `q` (`m + 1` digits). -/
def algorithm_d (m n : Nat) (u v : List Nat) : List Nat × List Nat :=
  if n = 1 then
    let sd := short_division u (v.getD 0 0)
    (u.set 0 sd.2, sd.1)
  else
    let u0 := u ++ [0]
    let vv := v.take n
    let shift := leading_zeros (vv.getD (n - 1) 0)
    let vsh := if shift ≠ 0 then shift_left vv shift else vv
    let ush := if shift ≠ 0 then shift_left u0 shift else u0
    let res := dLoop n vsh m ush (List.replicate (m + 1) 0)
    let u2 := if shift ≠ 0 then shift_right (res.1.take n) shift ++ res.1.drop n
      else res.1
    (u2, res.2)

/-! ## List digit-extraction helpers -/

/-- A list of length `k + 1` is its first `k` digits plus its top digit. -/
theorem eq_take_getD_of_length :
    ∀ (l : List Nat) (k : Nat), l.length = k + 1 → l = l.take k ++ [l.getD k 0] := by
  intro l
  induction l with
  | nil => intro k h; simp at h
  | cons x xs ih =>
    intro k h
    cases k with
    | zero =>
      have : xs = [] := List.eq_nil_of_length_eq_zero (by simpa using h)
      simp [this]
    | succ k =>
      have hx := ih k (by simpa using h)
      calc x :: xs = x :: (xs.take k ++ [xs.getD k 0]) := by rw [← hx]
      _ = (x :: xs).take (k + 1) ++ [(x :: xs).getD (k + 1) 0] := by simp

/-- A list of length `k + 2` ends in its two top digits. -/
theorem drop_eq_pair_of_length :
    ∀ (l : List Nat) (k : Nat), l.length = k + 2 →
      l.drop k = [l.getD k 0, l.getD (k + 1) 0] := by
  intro l
  induction l with
  | nil => intro k h; simp at h
  | cons x xs ih =>
    intro k h
    cases k with
    | zero =>
      cases xs with
      | nil => simp at h
      | cons y ys =>
        have : ys = [] := List.eq_nil_of_length_eq_zero (by simpa using h)
        simp [this]
    | succ k => simpa using ih k (by simpa using h)

/-- Value of a list in terms of a prefix and the digit just past it. -/
theorem val16_eq_take_add (l : List Nat) (k : Nat) (h : l.length = k + 1) :
    val16 l = val16 (l.take k) + 65536 ^ k * l.getD k 0 := by
  conv_lhs => rw [eq_take_getD_of_length l k h]
  rw [val16_append, List.length_take, h]
  simp [val16_cons, val16_nil, Nat.min_def]

/-- If the value of a wf list of length `k + 1` is below `65536 ^ k`, its
top digit is zero. -/
theorem getD_top_eq_zero (l : List Nat) (k : Nat) (h : l.length = k + 1)
    (hlt : val16 l < 65536 ^ k) : l.getD k 0 = 0 := by
  have hv := val16_eq_take_add l k h
  by_contra hne
  have h1 : 1 ≤ l.getD k 0 := by omega
  have : 65536 ^ k * 1 ≤ 65536 ^ k * l.getD k 0 := Nat.mul_le_mul_left _ h1
  omega

/-- `take (j + n)` splits as `take j` plus a window of the drop. -/
theorem take_add_split (l : List Nat) (j n : Nat) :
    l.take (j + n) = l.take j ++ (l.drop j).take n := by
  rw [← List.take_add]

/-! ## Multiply-subtract and add-back pass lemmas -/

/-- One multiply-subtract step: the stored digit, the incoming quantities
and the outgoing `k2` satisfy the exact borrow identity, and `k2` does not
wrap its `uint16_t` accumulator. -/
theorem mulsubStep_spec (qhat vi ui k : Nat) (hq : qhat ≤ 65535)
    (hv : vi < 65536) (hu : ui < 65536) (hk : k < 65536) :
    msU qhat vi ui k + qhat * vi + k = ui + msK qhat vi ui k * 65536
      ∧ msU qhat vi ui k < 65536 ∧ msK qhat vi ui k < 65536 := by
  have hP : qhat * vi ≤ 65535 * 65535 := Nat.mul_le_mul hq (by omega)
  have hPmod : qhat * vi % 4294967296 = qhat * vi := Nat.mod_eq_of_lt (by omega)
  simp only [msU, msK, msD, hPmod]
  by_cases h1 : ui < (ui + (65536 - qhat * vi % 65536)) % 65536 <;>
    by_cases h2 : (ui + (65536 - qhat * vi % 65536)) % 65536
        < ((ui + (65536 - qhat * vi % 65536)) % 65536 + (65536 - k)) % 65536 <;>
    simp only [h1, h2, if_true, if_false] <;> omega

theorem mulsubWin_spec (qhat : Nat) (hq : qhat ≤ 65535) :
    ∀ (ws vs : List Nat) (k : Nat), wf16 ws → wf16 vs → k < 65536 →
      val16 (mulsubWin qhat ws vs k).1 + qhat * val16 (vs.take ws.length) + k
          = val16 ws + (mulsubWin qhat ws vs k).2 * 65536 ^ ws.length
        ∧ wf16 (mulsubWin qhat ws vs k).1
        ∧ (mulsubWin qhat ws vs k).1.length = ws.length
        ∧ (mulsubWin qhat ws vs k).2 < 65536 := by
  intro ws
  induction ws with
  | nil =>
    intro vs k _ _ hk
    refine ⟨by simp [mulsubWin, val16_nil], ?_, rfl, hk⟩
    intro d hd
    simp [mulsubWin] at hd
  | cons ui us ih =>
    intro vs k hwf hwfv hk
    have hui : ui < 65536 := hwf ui (by simp)
    have hus : wf16 us := fun d hd => hwf d (by simp [hd])
    have hv0 : vs.headD 0 < 65536 := by
      cases vs with
      | nil => simp
      | cons a l => exact hwfv a (by simp)
    have hvt : wf16 vs.tail := fun d hd => hwfv d (List.mem_of_mem_tail hd)
    obtain ⟨hdig, hunew, hk2⟩ := mulsubStep_spec qhat (vs.headD 0) ui k hq hv0 hui hk
    obtain ⟨ihval, ihwf, ihlen, ihk⟩ :=
      ih vs.tail (msK qhat (vs.headD 0) ui k) hus hvt hk2
    have hstep : mulsubWin qhat (ui :: us) vs k
        = (msU qhat (vs.headD 0) ui k
            :: (mulsubWin qhat us vs.tail (msK qhat (vs.headD 0) ui k)).1,
           (mulsubWin qhat us vs.tail (msK qhat (vs.headD 0) ui k)).2) := rfl
    rw [hstep]
    refine ⟨?_, ?_, by simp only [List.length_cons, ihlen], ihk⟩
    rotate_left
    · intro d hd
      rcases List.mem_cons.mp hd with rfl | hd
      · exact hunew
      · exact ihwf d hd
    · have htake : val16 (vs.take (ui :: us).length)
          = vs.headD 0 + 65536 * val16 (vs.tail.take us.length) := by
        cases vs with
        | nil => simp [val16_nil]
        | cons a l => simp [val16_cons]
      rw [htake]
      simp only [val16_cons, List.length_cons]
      have hdist : qhat * (vs.headD 0 + 65536 * val16 (vs.tail.take us.length))
          = qhat * vs.headD 0
            + 65536 * (qhat * val16 (vs.tail.take us.length)) := by ring
      rw [hdist]
      have hKP : (mulsubWin qhat us vs.tail (msK qhat (vs.headD 0) ui k)).2
            * 65536 ^ (us.length + 1)
          = 65536 * ((mulsubWin qhat us vs.tail (msK qhat (vs.headD 0) ui k)).2
            * 65536 ^ us.length) := by ring
      rw [hKP]
      omega

theorem addbackWin_spec :
    ∀ (vs us : List Nat) (k : Nat), wf16 us → wf16 vs → k ≤ 1 →
      vs.length ≤ us.length →
      val16 (addbackWin us vs k).1 + (addbackWin us vs k).2 * 65536 ^ vs.length
          = val16 us + val16 vs + k
        ∧ wf16 (addbackWin us vs k).1
        ∧ (addbackWin us vs k).1.length = us.length
        ∧ (addbackWin us vs k).2 ≤ 1 := by
  intro vs
  induction vs with
  | nil =>
    intro us k hu _ hk _
    have hnil : addbackWin us [] k = (us, k) := by cases us <;> rfl
    rw [hnil]
    exact ⟨by simp [val16_nil], hu, rfl, hk⟩
  | cons vi vtl ih =>
    intro us k hu hv hk hlen
    cases us with
    | nil => simp at hlen
    | cons ui utl =>
      have hui : ui < 65536 := hu ui (by simp)
      have hvi : vi < 65536 := hv vi (by simp)
      have hmod : (ui + vi + k) % 4294967296 = ui + vi + k :=
        Nat.mod_eq_of_lt (by omega)
      have hstep : addbackWin (ui :: utl) (vi :: vtl) k
          = (((ui + vi + k) % 4294967296 % 65536)
              :: (addbackWin utl vtl ((ui + vi + k) % 4294967296 / 65536)).1,
             (addbackWin utl vtl ((ui + vi + k) % 4294967296 / 65536)).2) := rfl
      rw [hstep, hmod]
      obtain ⟨ihval, ihwf, ihlen, ihk⟩ := ih utl ((ui + vi + k) / 65536)
        (fun d hd => hu d (by simp [hd])) (fun d hd => hv d (by simp [hd]))
        (by omega) (by simpa using hlen)
      refine ⟨?_, ?_, by simp [ihlen], ihk⟩
      · simp only [val16_cons, List.length_cons]
        have hKP : (addbackWin utl vtl ((ui + vi + k) / 65536)).2
              * 65536 ^ (vtl.length + 1)
            = 65536 * ((addbackWin utl vtl ((ui + vi + k) / 65536)).2
              * 65536 ^ vtl.length) := by ring
        rw [hKP]
        omega
      · intro d hd
        rcases List.mem_cons.mp hd with rfl | hd
        · omega
        · exact ihwf d hd

/-! ## Correction loop lemmas

Throughout, `t` is the two-digit numerator `(u[j+n] << 16) | u[j+n-1]`,
`q` the true quotient digit of the window, and the three abstract
hypotheses `hA`, `hB`, `hC` are the classical two-digit estimate bounds,
derived from the window decomposition at the call site. -/

theorem corrLoopGo_spec (v1 v2 u3 t q : Nat)
    (hv2 : v2 ≤ 65535) (hu3 : u3 ≤ 65535) (hv1b : v1 ≤ 65535)
    (hq16 : q ≤ 65535)
    (hA : ∀ x, x * (v1 * 65536 + v2) ≤ t * 65536 + u3 → x ≤ q + 1)
    (hB : q * (v1 * 65536 + v2) ≤ t * 65536 + u3)
    (hC : ∀ x, x * (v1 + 1) ≤ t → x ≤ q) :
    ∀ (f qhat rhat : Nat), qhat < f →
      qhat * v1 + rhat = t → rhat ≤ 65535 →
      q ≤ qhat → qhat ≤ q + 2 →
      q ≤ (corrLoopGo v1 v2 u3 f qhat rhat).1
        ∧ (corrLoopGo v1 v2 u3 f qhat rhat).1 ≤ q + 1
        ∧ (corrLoopGo v1 v2 u3 f qhat rhat).1 ≤ 65535 := by
  intro f
  induction f with
  | zero => intro qhat rhat hf _ _ _ _; omega
  | succ f ih =>
    intro qhat rhat hf hinv hr16 hlo hhi
    by_cases hcond : qhat > 65535
        ∨ qhat * v2 % 4294967296 > rhat * 65536 % 4294967296 + u3
    · have hq1 : 1 ≤ qhat := by
        rcases hcond with h | h
        · omega
        · by_contra h0
          have hq0 : qhat = 0 := by omega
          rw [hq0] at h
          simp at h
      obtain ⟨qp, rfl⟩ : ∃ qp, qhat = qp + 1 := ⟨qhat - 1, by omega⟩
      have hqlt : qp + 1 < 4294967296 := by omega
      have hdec : dec32 (qp + 1) = qp := by
        simp only [dec32]
        omega
      have hrnew : (rhat + v1) % 4294967296 = rhat + v1 :=
        Nat.mod_eq_of_lt (by omega)
      have hinv2 : qp * v1 + (rhat + v1) = t := by
        have hd : (qp + 1) * v1 = qp * v1 + v1 := by ring
        omega
      have hlo1 : q ≤ qp := by
        by_cases hbig : qp + 1 > 65535
        · omega
        · have h2 := hcond.resolve_left hbig
          have hsq : qp + 1 ≤ 65535 := by omega
          have hm1 : (qp + 1) * v2 % 4294967296 = (qp + 1) * v2 :=
            Nat.mod_eq_of_lt (lt_of_le_of_lt
              (Nat.mul_le_mul hsq hv2) (by norm_num))
          have hm2 : rhat * 65536 % 4294967296 = rhat * 65536 :=
            Nat.mod_eq_of_lt (lt_of_le_of_lt
              (Nat.mul_le_mul hr16 (le_refl 65536)) (by norm_num))
          rw [hm1, hm2] at h2
          have e1 : (qp + 1) * (v1 * 65536 + v2)
              = (qp + 1) * v1 * 65536 + (qp + 1) * v2 := by ring
          have e2 : t * 65536 = (qp + 1) * v1 * 65536 + rhat * 65536 := by
            rw [← hinv]
            ring
          have hgt : q * (v1 * 65536 + v2) < (qp + 1) * (v1 * 65536 + v2) := by
            omega
          have hqlt2 : q < qp + 1 := lt_of_mul_lt_mul_right hgt (Nat.zero_le _)
          omega
      simp only [corrLoopGo, if_pos hcond, hdec, hrnew]
      by_cases hsmall : rhat + v1 ≤ 65535
      · rw [if_pos hsmall]
        exact ih qp (rhat + v1) (by omega) hinv2 hsmall hlo1 (by omega)
      · rw [if_neg hsmall]
        have hqp : qp = q := by
          have hle : qp ≤ q + 1 := by omega
          have hqc := hC qp
          have e5 : qp * (v1 + 1) = qp * v1 + qp := by ring
          omega
        simp only [hqp]
        omega
    · simp only [corrLoopGo, if_neg hcond]
      push_neg at hcond
      obtain ⟨hq16', hprod⟩ := hcond
      have hm1 : qhat * v2 % 4294967296 = qhat * v2 :=
        Nat.mod_eq_of_lt (lt_of_le_of_lt
          (Nat.mul_le_mul hq16' hv2) (by norm_num))
      have hm2 : rhat * 65536 % 4294967296 = rhat * 65536 :=
        Nat.mod_eq_of_lt (lt_of_le_of_lt
          (Nat.mul_le_mul hr16 (le_refl 65536)) (by norm_num))
      rw [hm1, hm2] at hprod
      have e1 : qhat * (v1 * 65536 + v2) = qhat * v1 * 65536 + qhat * v2 := by ring
      have e2 : t * 65536 = qhat * v1 * 65536 + rhat * 65536 := by
        rw [← hinv]
        ring
      have := hA qhat (by omega)
      omega

/-- The corrected estimate starting from `qhat = t / v1`, `rhat = t % v1`
is the true quotient digit or one more, and fits in 16 bits. -/
theorem corrLoop_spec (v1 v2 u3 t q : Nat)
    (hv1 : 0 < v1) (hv2 : v2 ≤ 65535) (hu3 : u3 ≤ 65535) (hv1b : v1 ≤ 65535)
    (hq16 : q ≤ 65535)
    (hA : ∀ x, x * (v1 * 65536 + v2) ≤ t * 65536 + u3 → x ≤ q + 1)
    (hB : q * (v1 * 65536 + v2) ≤ t * 65536 + u3)
    (hC : ∀ x, x * (v1 + 1) ≤ t → x ≤ q)
    (hTA : q ≤ t / v1) (hTB : t / v1 ≤ q + 2) :
    q ≤ (corrLoop v1 v2 u3 (t / v1) (t % v1)).1
      ∧ (corrLoop v1 v2 u3 (t / v1) (t % v1)).1 ≤ q + 1
      ∧ (corrLoop v1 v2 u3 (t / v1) (t % v1)).1 ≤ 65535 := by
  have hinv : t / v1 * v1 + t % v1 = t := by
    have := Nat.div_add_mod t v1
    have hc : v1 * (t / v1) = t / v1 * v1 := Nat.mul_comm _ _
    omega
  have hrlt : t % v1 < v1 := Nat.mod_lt _ hv1
  exact corrLoopGo_spec v1 v2 u3 t q hv2 hu3 hv1b hq16 hA hB hC
    (t / v1 + 1) (t / v1) (t % v1) (by omega) hinv (by omega) hTA hTB

/-- Wherever the product comparison is evaluated (`qhat ≤ 65535` by the C
`||` short-circuit, `rhat ≤ 65535` by the loop invariant), the 32-bit
operands do not wrap, so the loop coincides with its exact-arithmetic
version. -/
theorem corrLoopGo_eq_exact (v1 v2 u3 : Nat) (hv1 : v1 ≤ 65535)
    (hv2 : v2 ≤ 65535) :
    ∀ (f qhat rhat : Nat), qhat < 4294967296 → rhat ≤ 65535 →
      corrLoopGo v1 v2 u3 f qhat rhat = corrLoopExactGo v1 v2 u3 f qhat rhat := by
  intro f
  induction f with
  | zero => intro qhat rhat _ _; rfl
  | succ f ih =>
    intro qhat rhat hq hr
    by_cases hbig : qhat > 65535
    · have hcw : qhat > 65535
          ∨ qhat * v2 % 4294967296 > rhat * 65536 % 4294967296 + u3 :=
        Or.inl hbig
      have hce : qhat > 65535 ∨ qhat * v2 > rhat * 65536 + u3 := Or.inl hbig
      have hdec : dec32 qhat = qhat - 1 := by
        simp only [dec32]
        omega
      have hrnew : (rhat + v1) % 4294967296 = rhat + v1 :=
        Nat.mod_eq_of_lt (by omega)
      simp only [corrLoopGo, corrLoopExactGo, if_pos hcw, if_pos hce, hdec, hrnew]
      by_cases hsmall : rhat + v1 ≤ 65535
      · rw [if_pos hsmall, if_pos hsmall]
        exact ih (qhat - 1) (rhat + v1) (by omega) hsmall
      · rw [if_neg hsmall, if_neg hsmall]
    · have hq16' : qhat ≤ 65535 := by omega
      have hm1 : qhat * v2 % 4294967296 = qhat * v2 :=
        Nat.mod_eq_of_lt (lt_of_le_of_lt
          (Nat.mul_le_mul hq16' hv2) (by norm_num))
      have hm2 : rhat * 65536 % 4294967296 = rhat * 65536 :=
        Nat.mod_eq_of_lt (lt_of_le_of_lt
          (Nat.mul_le_mul hr (le_refl 65536)) (by norm_num))
      by_cases hp : qhat * v2 > rhat * 65536 + u3
      · have hcw : qhat > 65535
            ∨ qhat * v2 % 4294967296 > rhat * 65536 % 4294967296 + u3 := by
          right
          omega
        have hce : qhat > 65535 ∨ qhat * v2 > rhat * 65536 + u3 := Or.inr hp
        have hq1 : 1 ≤ qhat := by
          by_contra h0
          have hq0 : qhat = 0 := by omega
          rw [hq0] at hp
          simp at hp
        have hdec : dec32 qhat = qhat - 1 := by
          simp only [dec32]
          omega
        have hrnew : (rhat + v1) % 4294967296 = rhat + v1 :=
          Nat.mod_eq_of_lt (by omega)
        simp only [corrLoopGo, corrLoopExactGo, if_pos hcw, if_pos hce, hdec, hrnew]
        by_cases hsmall : rhat + v1 ≤ 65535
        · rw [if_pos hsmall, if_pos hsmall]
          exact ih (qhat - 1) (rhat + v1) (by omega) hsmall
        · rw [if_neg hsmall, if_neg hsmall]
      · have hcw : ¬ (qhat > 65535
            ∨ qhat * v2 % 4294967296 > rhat * 65536 % 4294967296 + u3) := by
          push_neg
          omega
        have hce : ¬ (qhat > 65535 ∨ qhat * v2 > rhat * 65536 + u3) := by
          push_neg
          omega
        simp only [corrLoopGo, corrLoopExactGo, if_neg hcw, if_neg hce]

/-- The C correction loop equals the exact-width correction loop on every
state it can be started from. -/
theorem corrLoop_eq_exact (v1 v2 u3 qhat rhat : Nat) (hv1 : v1 ≤ 65535)
    (hv2 : v2 ≤ 65535) (hq : qhat < 4294967296) (hr : rhat ≤ 65535) :
    corrLoop v1 v2 u3 qhat rhat = corrLoopExact v1 v2 u3 qhat rhat :=
  corrLoopGo_eq_exact v1 v2 u3 hv1 hv2 (qhat + 1) qhat rhat hq hr

/-! ## Two-digit estimate bounds (Knuth 4.3.1, Theorems A and B)

`P` is a power of the base separating the low digits from the top digits:
`W = lowW + P * U₃`, `V = lowV + P * V₂` with `lowW, lowV < P`. -/

theorem est_upper {P W V U₃ V₂ lowW lowV : Nat}
    (hW : W = lowW + P * U₃) (hlowW : lowW < P)
    (hV : V = lowV + P * V₂) (hlowV : lowV < P)
    (hV₂ : 65536 ≤ V₂) (hWV : W < 65536 * V) :
    ∀ x, x * V₂ ≤ U₃ → x ≤ W / V + 1 := by
  have hP : 0 < P := by omega
  have hVpos : 0 < V := by
    have h1 : P * 65536 ≤ P * V₂ := Nat.mul_le_mul_left P hV₂
    omega
  intro x hx
  have hk1 : U₃ / (V₂ + 1) * (V₂ + 1) ≤ U₃ := Nat.div_mul_le_self _ _
  have hdm := Nat.div_add_mod U₃ (V₂ + 1)
  have hmod : U₃ % (V₂ + 1) < V₂ + 1 := Nat.mod_lt _ (by omega)
  -- k ≤ W / V
  have hVle : V ≤ (V₂ + 1) * P := by
    have e3 : (V₂ + 1) * P = P * V₂ + P := by ring
    omega
  have hkV : U₃ / (V₂ + 1) * V ≤ W := by
    have s1 : U₃ / (V₂ + 1) * V ≤ U₃ / (V₂ + 1) * ((V₂ + 1) * P) :=
      Nat.mul_le_mul_left _ hVle
    have e4 : U₃ / (V₂ + 1) * ((V₂ + 1) * P) = U₃ / (V₂ + 1) * (V₂ + 1) * P := by
      ring
    have s2 : U₃ / (V₂ + 1) * (V₂ + 1) * P ≤ U₃ * P := Nat.mul_le_mul_right P hk1
    have e5 : U₃ * P = P * U₃ := Nat.mul_comm _ _
    omega
  have hkq : U₃ / (V₂ + 1) ≤ W / V := (Nat.le_div_iff_mul_le hVpos).mpr hkV
  -- U₃ < 65536 * (V₂ + 1), hence k < 65536 ≤ V₂
  have hU₃ : U₃ < 65536 * (V₂ + 1) := by
    have s3 : 65536 * V ≤ 65536 * ((V₂ + 1) * P) := Nat.mul_le_mul_left _ hVle
    have e6 : 65536 * ((V₂ + 1) * P) = P * (65536 * (V₂ + 1)) := by ring
    have s4 : P * U₃ < P * (65536 * (V₂ + 1)) := by omega
    exact lt_of_mul_lt_mul_left s4 (Nat.zero_le _)
  have hklt : U₃ / (V₂ + 1) < 65536 := by
    have s5 : U₃ / (V₂ + 1) * (V₂ + 1) < 65536 * (V₂ + 1) := by omega
    exact Nat.lt_of_mul_lt_mul_right s5
  -- x ≤ k + 1
  by_contra hxgt
  push_neg at hxgt
  have h6 : (U₃ / (V₂ + 1) + 2) * V₂ ≤ x * V₂ :=
    Nat.mul_le_mul_right V₂ (by omega)
  have e7 : (U₃ / (V₂ + 1) + 2) * V₂ = U₃ / (V₂ + 1) * V₂ + 2 * V₂ := by ring
  have e8 : (V₂ + 1) * (U₃ / (V₂ + 1)) = U₃ / (V₂ + 1) * V₂ + U₃ / (V₂ + 1) := by
    ring
  omega

theorem est_lower {P W V U₃ V₂ lowW lowV : Nat}
    (hW : W = lowW + P * U₃) (hlowW : lowW < P)
    (hV : V = lowV + P * V₂) (hlowV : lowV < P)
    (hV₂pos : 0 < V₂) :
    W / V * V₂ ≤ U₃ := by
  have hP : 0 < P := by omega
  have h1 : W / V * V ≤ W := Nat.div_mul_le_self W V
  have e1 : W / V * V = W / V * lowV + P * (W / V * V₂) := by
    rw [hV]
    ring
  have e2 : P * (U₃ + 1) = P * U₃ + P := by ring
  have h2 : P * (W / V * V₂) < P * (U₃ + 1) := by omega
  have h3 : W / V * V₂ < U₃ + 1 := lt_of_mul_lt_mul_left h2 (Nat.zero_le _)
  omega

/-- One-digit estimate bounds: Theorem A (`q ≤ t / v1`), Theorem B
(`t / v1 ≤ q + 2` under normalization), and the exit bound used when
`rhat` overflows. -/
theorem est_one_digit {P W V t v1 lowW lowV : Nat}
    (hW : W = lowW + P * t) (hlowW : lowW < P)
    (hV : V = lowV + P * v1) (hlowV : lowV < P)
    (hv1 : 32768 ≤ v1) (hWV : W < 65536 * V) :
    W / V ≤ t / v1 ∧ t / v1 ≤ W / V + 2 ∧ ∀ x, x * (v1 + 1) ≤ t → x ≤ W / V := by
  have hP : 0 < P := by omega
  have hv1pos : 0 < v1 := by omega
  have hVpos : 0 < V := by
    have h1 : P * 32768 ≤ P * v1 := Nat.mul_le_mul_left P hv1
    omega
  have hq16 : W / V < 65536 := (Nat.div_lt_iff_lt_mul hVpos).mpr hWV
  have hWlt : W < V * (W / V) + V := by
    have := Nat.div_add_mod W V
    have hm : W % V < V := Nat.mod_lt _ hVpos
    omega
  have hVle : V ≤ (v1 + 1) * P := by
    have e3 : (v1 + 1) * P = P * v1 + P := by ring
    omega
  have hC : ∀ x, x * (v1 + 1) ≤ t → x ≤ W / V := by
    intro x hx
    have s1 : x * V ≤ x * ((v1 + 1) * P) := Nat.mul_le_mul_left _ hVle
    have e4 : x * ((v1 + 1) * P) = x * (v1 + 1) * P := by ring
    have s2 : x * (v1 + 1) * P ≤ t * P := Nat.mul_le_mul_right P hx
    have e5 : t * P = P * t := Nat.mul_comm _ _
    exact (Nat.le_div_iff_mul_le hVpos).mpr (by omega)
  refine ⟨?_, ?_, hC⟩
  · -- Theorem A
    have s1 : W / V * v1 * P ≤ W / V * V := by
      have e6 : W / V * v1 * P = W / V * (P * v1) := by ring
      have s0 : W / V * (P * v1) ≤ W / V * V := Nat.mul_le_mul_left _ (by omega)
      omega
    have h1 : W / V * V ≤ W := Nat.div_mul_le_self W V
    have h2 : W / V * v1 * P < P * (t + 1) := by
      have e7 : P * (t + 1) = P * t + P := by ring
      omega
    have h3 : W / V * v1 < t + 1 := by
      have e8 : W / V * v1 * P = P * (W / V * v1) := by ring
      exact lt_of_mul_lt_mul_left (by omega) (Nat.zero_le P)
    exact (Nat.le_div_iff_mul_le hv1pos).mpr (by omega)
  · -- Theorem B
    by_contra hgt
    push_neg at hgt
    have hq3 : (W / V + 3) * v1 ≤ t := by
      have := (Nat.le_div_iff_mul_le hv1pos).mp (by omega : W / V + 3 ≤ t / v1)
      exact this
    have s1 : (W / V + 3) * v1 * P ≤ t * P := Nat.mul_le_mul_right P hq3
    have e9 : t * P = P * t := Nat.mul_comm _ _
    have s2 : (W / V + 3) * v1 * P ≤ W := by omega
    have s3 : W < (W / V + 1) * V := by
      have e10 : (W / V + 1) * V = V * (W / V) + V := by ring
      omega
    have s4 : (W / V + 1) * V ≤ (W / V + 1) * ((v1 + 1) * P) :=
      Nat.mul_le_mul_left _ hVle
    have s5 : (W / V + 3) * v1 * P < (W / V + 1) * ((v1 + 1) * P) := by omega
    have e11 : (W / V + 3) * v1 * P = P * ((W / V + 3) * v1) := by ring
    have e12 : (W / V + 1) * ((v1 + 1) * P) = P * ((W / V + 1) * (v1 + 1)) := by
      ring
    have s6 : (W / V + 3) * v1 < (W / V + 1) * (v1 + 1) :=
      lt_of_mul_lt_mul_left (by omega) (Nat.zero_le P)
    have e13 : (W / V + 3) * v1 = W / V * v1 + 3 * v1 := by ring
    have e14 : (W / V + 1) * (v1 + 1) = W / V * v1 + W / V + v1 + 1 := by ring
    omega

/-! ## Per-digit step of Algorithm D -/

theorem getD_drop_take (u : List Nat) (j i m : Nat) (hi : i < m)
    (h2 : j + i < u.length) :
    ((u.drop j).take m).getD i 0 = u.getD (j + i) 0 := by
  have hlen : i < ((u.drop j).take m).length := by
    simp only [List.length_take, List.length_drop]
    omega
  rw [List.getD_eq_getElem _ _ hlen, List.getElem_take, List.getElem_drop,
    List.getD_eq_getElem u 0 h2]

theorem drop_eq_triple_of_length :
    ∀ (l : List Nat) (k : Nat), l.length = k + 3 →
      l.drop k = [l.getD k 0, l.getD (k + 1) 0, l.getD (k + 2) 0] := by
  intro l
  induction l with
  | nil => intro k h; simp at h
  | cons x xs ih =>
    intro k h
    cases k with
    | zero =>
      cases xs with
      | nil => simp at h
      | cons y ys =>
        cases ys with
        | nil => simp at h
        | cons z zs =>
          have : zs = [] := List.eq_nil_of_length_eq_zero (by simpa using h)
          simp [this]
    | succ k => simpa using ih k (by simpa using h)

theorem val16_split (l : List Nat) (k : Nat) (hk : k ≤ l.length) :
    val16 l = val16 (l.take k) + 65536 ^ k * val16 (l.drop k) := by
  have h := val16_take_drop l k
  rw [List.length_take, Nat.min_eq_left hk] at h
  exact h

/-- `dStep` with its `let` bindings expanded. -/
theorem dStep_eq (n j : Nat) (v u q : List Nat) :
    dStep n j v u q
      = if (mulsubWin (dEst n j v u).1 ((u.drop j).take (n + 1)) v 0).2 ≠ 0 then
          (u.take j
            ++ ((addbackWin
                ((mulsubWin (dEst n j v u).1 ((u.drop j).take (n + 1)) v 0).1.take n)
                v 0).1
              ++ [((mulsubWin (dEst n j v u).1 ((u.drop j).take (n + 1)) v 0).1.getD n 0
                  + (addbackWin
                    ((mulsubWin (dEst n j v u).1 ((u.drop j).take (n + 1)) v 0).1.take n)
                    v 0).2) % 65536])
            ++ u.drop (j + n + 1),
           q.set j (((dEst n j v u).1 % 65536 + 65535) % 65536))
        else
          (u.take j ++ (mulsubWin (dEst n j v u).1 ((u.drop j).take (n + 1)) v 0).1
            ++ u.drop (j + n + 1),
           q.set j ((dEst n j v u).1 % 65536)) := rfl

set_option maxHeartbeats 2000000 in
theorem dStep_spec (n j : Nat) (v u q : List Nat)
    (hn : 2 ≤ n) (hvlen : v.length = n) (hv : wf16 v) (hu : wf16 u)
    (hulen : j + n + 1 ≤ u.length)
    (hv1 : 32768 ≤ v.getD (n - 1) 0)
    (hWV : val16 ((u.drop j).take (n + 1)) < 65536 * val16 v) :
    ∃ win2 : List Nat,
      (dStep n j v u q).1 = u.take j ++ win2 ++ u.drop (j + n + 1)
        ∧ win2.length = n + 1 ∧ wf16 win2
        ∧ val16 win2 = val16 ((u.drop j).take (n + 1)) % val16 v
        ∧ win2.getD n 0 = 0
        ∧ (dStep n j v u q).2
            = q.set j (val16 ((u.drop j).take (n + 1)) / val16 v) := by
  have hwinlen : ((u.drop j).take (n + 1)).length = n + 1 := by
    simp only [List.length_take, List.length_drop]
    omega
  have hwwf : wf16 ((u.drop j).take (n + 1)) := wf16_take _ (wf16_drop _ hu)
  -- digit reads of the window and the divisor
  have hd2 : ((u.drop j).take (n + 1)).getD n 0 = u.getD (j + n) 0 :=
    getD_drop_take u j n (n + 1) (by omega) (by omega)
  have hd1 : ((u.drop j).take (n + 1)).getD (n - 1) 0 = u.getD (j + n - 1) 0 := by
    have h := getD_drop_take u j (n - 1) (n + 1) (by omega) (by omega)
    have he : j + (n - 1) = j + n - 1 := by omega
    rw [he] at h
    exact h
  have hd0 : ((u.drop j).take (n + 1)).getD (n - 2) 0 = u.getD (j + n - 2) 0 := by
    have h := getD_drop_take u j (n - 2) (n + 1) (by omega) (by omega)
    have he : j + (n - 2) = j + n - 2 := by omega
    rw [he] at h
    exact h
  -- bounds on the digits read
  have hu3b : u.getD (j + n - 2) 0 < 65536 := wf16_getD hu _
  have hv1b : v.getD (n - 1) 0 < 65536 := wf16_getD hv _
  have hv2b : v.getD (n - 2) 0 < 65536 := wf16_getD hv _
  -- decompositions of the window value at the top one and top two digits
  have hWs1 : val16 ((u.drop j).take (n + 1))
      = val16 (((u.drop j).take (n + 1)).take (n - 1))
        + 65536 ^ (n - 1)
          * (u.getD (j + n) 0 * 65536 + u.getD (j + n - 1) 0) := by
    have h := val16_split ((u.drop j).take (n + 1)) (n - 1) (by omega)
    have hdrop := drop_eq_pair_of_length ((u.drop j).take (n + 1)) (n - 1)
      (by omega)
    have he1 : n - 1 + 1 = n := by omega
    rw [he1] at hdrop
    rw [hdrop, hd1, hd2] at h
    rw [h]
    simp only [val16_cons, val16_nil]
    ring
  have hWs2 : val16 ((u.drop j).take (n + 1))
      = val16 (((u.drop j).take (n + 1)).take (n - 2))
        + 65536 ^ (n - 2)
          * ((u.getD (j + n) 0 * 65536 + u.getD (j + n - 1) 0) * 65536
            + u.getD (j + n - 2) 0) := by
    have h := val16_split ((u.drop j).take (n + 1)) (n - 2) (by omega)
    have hdrop := drop_eq_triple_of_length ((u.drop j).take (n + 1)) (n - 2)
      (by omega)
    have he1 : n - 2 + 1 = n - 1 := by omega
    have he2 : n - 2 + 2 = n := by omega
    rw [he1, he2] at hdrop
    rw [hdrop, hd0, hd1, hd2] at h
    rw [h]
    simp only [val16_cons, val16_nil]
    ring
  -- decompositions of the divisor value
  have hVs1 : val16 v = val16 (v.take (n - 1)) + 65536 ^ (n - 1) * v.getD (n - 1) 0 := by
    have h := val16_eq_take_add v (n - 1) (by omega)
    exact h
  have hVs2 : val16 v
      = val16 (v.take (n - 2))
        + 65536 ^ (n - 2) * (v.getD (n - 1) 0 * 65536 + v.getD (n - 2) 0) := by
    have h := val16_split v (n - 2) (by omega)
    have hdrop := drop_eq_pair_of_length v (n - 2) (by omega)
    have he1 : n - 2 + 1 = n - 1 := by omega
    rw [he1] at hdrop
    rw [hdrop] at h
    rw [h]
    simp only [val16_cons, val16_nil]
    ring
  -- the low parts are below the corresponding powers
  have hlow1W : val16 (((u.drop j).take (n + 1)).take (n - 1)) < 65536 ^ (n - 1) := by
    have h := val16_lt (((u.drop j).take (n + 1)).take (n - 1))
      (wf16_take _ hwwf)
    rw [List.length_take, hwinlen, Nat.min_eq_left (by omega)] at h
    exact h
  have hlow2W : val16 (((u.drop j).take (n + 1)).take (n - 2)) < 65536 ^ (n - 2) := by
    have h := val16_lt (((u.drop j).take (n + 1)).take (n - 2))
      (wf16_take _ hwwf)
    rw [List.length_take, hwinlen, Nat.min_eq_left (by omega)] at h
    exact h
  have hlow1V : val16 (v.take (n - 1)) < 65536 ^ (n - 1) := by
    have h := val16_lt (v.take (n - 1)) (wf16_take _ hv)
    rw [List.length_take, hvlen, Nat.min_eq_left (by omega)] at h
    exact h
  have hlow2V : val16 (v.take (n - 2)) < 65536 ^ (n - 2) := by
    have h := val16_lt (v.take (n - 2)) (wf16_take _ hv)
    rw [List.length_take, hvlen, Nat.min_eq_left (by omega)] at h
    exact h
  have hVlt : val16 v < 65536 ^ n := by
    have h := val16_lt v hv
    rw [hvlen] at h
    exact h
  have hVpos : 0 < val16 v := by
    have h1 : 65536 ^ (n - 1) * 32768 ≤ 65536 ^ (n - 1) * v.getD (n - 1) 0 :=
      Nat.mul_le_mul_left _ hv1
    have h2 : 0 < 65536 ^ (n - 1) := Nat.pos_pow_of_pos _ (by omega)
    nlinarith
  have hq16 : val16 ((u.drop j).take (n + 1)) / val16 v < 65536 :=
    (Nat.div_lt_iff_lt_mul hVpos).mpr hWV
  -- one-digit estimate bounds (Knuth Theorems A and B)
  obtain ⟨hTA, hTB, hC⟩ := est_one_digit hWs1 hlow1W hVs1 hlow1V hv1 hWV
  -- two-digit estimate bounds
  have hA := est_upper hWs2 hlow2W hVs2 hlow2V
    (by nlinarith : 65536 ≤ v.getD (n - 1) 0 * 65536 + v.getD (n - 2) 0) hWV
  have hB := est_lower hWs2 hlow2W hVs2 hlow2V (by omega)
  -- the corrected estimate
  obtain ⟨hqlo, hqhi, hqb⟩ := corrLoop_spec (v.getD (n - 1) 0) (v.getD (n - 2) 0)
    (u.getD (j + n - 2) 0)
    (u.getD (j + n) 0 * 65536 + u.getD (j + n - 1) 0)
    (val16 ((u.drop j).take (n + 1)) / val16 v)
    (by omega) (by omega) (by omega) (by omega) (by omega) hA hB hC hTA hTB
  have hq : (dEst n j v u).1
      = (corrLoop (v.getD (n - 1) 0) (v.getD (n - 2) 0) (u.getD (j + n - 2) 0)
          ((u.getD (j + n) 0 * 65536 + u.getD (j + n - 1) 0) / v.getD (n - 1) 0)
          ((u.getD (j + n) 0 * 65536 + u.getD (j + n - 1) 0) % v.getD (n - 1) 0)).1 :=
    rfl
  rw [← hq] at hqlo hqhi hqb
  -- the multiply-subtract pass
  have htakev : v.take (n + 1) = v := List.take_of_length_le (by omega)
  obtain ⟨hmsval, hmswf, hmslen, hmsk⟩ :=
    mulsubWin_spec (dEst n j v u).1 hqb ((u.drop j).take (n + 1)) v 0 hwwf hv
      (by omega)
  rw [hwinlen, htakev] at hmsval
  have hmslt : val16 (mulsubWin (dEst n j v u).1 ((u.drop j).take (n + 1)) v 0).1
      < 65536 ^ (n + 1) := by
    have h := val16_lt _ hmswf
    rw [hmslen, hwinlen] at h
    exact h
  have hpow : (65536 : Nat) ^ (n + 1) = 65536 * 65536 ^ n := by
    rw [pow_succ]
    ring
  have hqV : (dEst n j v u).1 * val16 v ≤ 65535 * 65536 ^ n := by
    have s1 : (dEst n j v u).1 * val16 v ≤ 65535 * val16 v :=
      Nat.mul_le_mul_right _ hqb
    have s2 : 65535 * val16 v ≤ 65535 * 65536 ^ n :=
      Nat.mul_le_mul_left _ (by omega)
    omega
  have hkf : (mulsubWin (dEst n j v u).1 ((u.drop j).take (n + 1)) v 0).2 ≤ 1 := by
    by_contra hgt
    push_neg at hgt
    have h2 : 2 * 65536 ^ (n + 1)
        ≤ (mulsubWin (dEst n j v u).1 ((u.drop j).take (n + 1)) v 0).2
          * 65536 ^ (n + 1) := Nat.mul_le_mul_right _ (by omega)
    omega
  have hdm := Nat.div_add_mod (val16 ((u.drop j).take (n + 1))) (val16 v)
  have hWmod : val16 ((u.drop j).take (n + 1)) % val16 v < val16 v :=
    Nat.mod_lt _ hVpos
  have hqVc : val16 ((u.drop j).take (n + 1)) / val16 v * val16 v
      = val16 v * (val16 ((u.drop j).take (n + 1)) / val16 v) := Nat.mul_comm _ _
  by_cases hk0 : (mulsubWin (dEst n j v u).1 ((u.drop j).take (n + 1)) v 0).2 = 0
  · -- no add-back: the estimate was exact
    rw [hk0] at hmsval
    have hqexact : (dEst n j v u).1 = val16 ((u.drop j).take (n + 1)) / val16 v := by
      have hle : (dEst n j v u).1 * val16 v ≤ val16 ((u.drop j).take (n + 1)) := by
        omega
      have := (Nat.le_div_iff_mul_le hVpos).mpr hle
      omega
    have hbridge : (dEst n j v u).1 * val16 v
        = val16 ((u.drop j).take (n + 1)) / val16 v * val16 v := by
      rw [hqexact]
    refine ⟨(mulsubWin (dEst n j v u).1 ((u.drop j).take (n + 1)) v 0).1,
      ?_, by rw [hmslen, hwinlen], hmswf, ?_, ?_, ?_⟩
    · rw [dStep_eq, if_neg (by omega)]
    · omega
    · apply getD_top_eq_zero _ n (by rw [hmslen, hwinlen])
      have hval : val16 (mulsubWin (dEst n j v u).1 ((u.drop j).take (n + 1)) v 0).1
          = val16 ((u.drop j).take (n + 1)) % val16 v := by omega
      rw [hval]
      calc val16 ((u.drop j).take (n + 1)) % val16 v < val16 v := hWmod
      _ ≤ 65536 ^ n := by omega
    · rw [dStep_eq, if_neg (by omega)]
      show q.set j ((dEst n j v u).1 % 65536) = _
      rw [hqexact, Nat.mod_eq_of_lt (by omega : val16 ((u.drop j).take (n + 1))
        / val16 v < 65536)]
  · -- add-back: the estimate was one too large
    have hkf1 : (mulsubWin (dEst n j v u).1 ((u.drop j).take (n + 1)) v 0).2 = 1 := by
      omega
    rw [hkf1] at hmsval
    have hqgt : val16 ((u.drop j).take (n + 1))
        < (dEst n j v u).1 * val16 v := by
      by_contra hle
      push_neg at hle
      omega
    have hqone : (dEst n j v u).1
        = val16 ((u.drop j).take (n + 1)) / val16 v + 1 := by
      have hne : (dEst n j v u).1 ≠ val16 ((u.drop j).take (n + 1)) / val16 v := by
        intro he
        have hd : val16 ((u.drop j).take (n + 1)) / val16 v * val16 v
            ≤ val16 ((u.drop j).take (n + 1)) := Nat.div_mul_le_self _ _
        have hb : (dEst n j v u).1 * val16 v
            = val16 ((u.drop j).take (n + 1)) / val16 v * val16 v := by rw [he]
        omega
      have hd : val16 ((u.drop j).take (n + 1)) / val16 v * val16 v
          ≤ val16 ((u.drop j).take (n + 1)) := Nat.div_mul_le_self _ _
      by_contra hne2
      have hgap : (dEst n j v u).1 ≤ val16 ((u.drop j).take (n + 1)) / val16 v := by
        omega
      have hmono : (dEst n j v u).1 * val16 v
          ≤ val16 ((u.drop j).take (n + 1)) / val16 v * val16 v :=
        Nat.mul_le_mul_right _ hgap
      omega
    have hbridge : (dEst n j v u).1 * val16 v
        = val16 ((u.drop j).take (n + 1)) / val16 v * val16 v + val16 v := by
      rw [hqone]
      ring
    -- add-back arithmetic
    have hmstake : (mulsubWin (dEst n j v u).1 ((u.drop j).take (n + 1)) v 0).1.length
        = n + 1 := by rw [hmslen, hwinlen]
    obtain ⟨habval, habwf, hablen, habk⟩ := addbackWin_spec v
      ((mulsubWin (dEst n j v u).1 ((u.drop j).take (n + 1)) v 0).1.take n) 0
      (wf16_take _ hmswf) hv (by omega)
      (by rw [List.length_take, hmstake]; omega)
    rw [hvlen] at habval
    have hablen2 : (addbackWin
        ((mulsubWin (dEst n j v u).1 ((u.drop j).take (n + 1)) v 0).1.take n) v 0).1.length
        = n := by
      rw [hablen, List.length_take, hmstake]
      omega
    have hmsdec := val16_eq_take_add
      (mulsubWin (dEst n j v u).1 ((u.drop j).take (n + 1)) v 0).1 n hmstake
    have hmsn : (mulsubWin (dEst n j v u).1 ((u.drop j).take (n + 1)) v 0).1.getD n 0
        < 65536 := wf16_getD hmswf n
    have hwin2wf : wf16 ((addbackWin
          ((mulsubWin (dEst n j v u).1 ((u.drop j).take (n + 1)) v 0).1.take n) v 0).1
        ++ [((mulsubWin (dEst n j v u).1 ((u.drop j).take (n + 1)) v 0).1.getD n 0
            + (addbackWin
              ((mulsubWin (dEst n j v u).1 ((u.drop j).take (n + 1)) v 0).1.take n)
              v 0).2) % 65536]) := by
      apply wf16_append habwf
      intro d hd
      rcases List.mem_cons.mp hd with rfl | hd
      · exact Nat.mod_lt _ (by omega)
      · cases hd
    have hwin2len : ((addbackWin
          ((mulsubWin (dEst n j v u).1 ((u.drop j).take (n + 1)) v 0).1.take n) v 0).1
        ++ [((mulsubWin (dEst n j v u).1 ((u.drop j).take (n + 1)) v 0).1.getD n 0
            + (addbackWin
              ((mulsubWin (dEst n j v u).1 ((u.drop j).take (n + 1)) v 0).1.take n)
              v 0).2) % 65536]).length = n + 1 := by
      rw [List.length_append, hablen2]
      rfl
    have hexp : val16 ((addbackWin
          ((mulsubWin (dEst n j v u).1 ((u.drop j).take (n + 1)) v 0).1.take n) v 0).1
        ++ [((mulsubWin (dEst n j v u).1 ((u.drop j).take (n + 1)) v 0).1.getD n 0
            + (addbackWin
              ((mulsubWin (dEst n j v u).1 ((u.drop j).take (n + 1)) v 0).1.take n)
              v 0).2) % 65536])
        = val16 (addbackWin
            ((mulsubWin (dEst n j v u).1 ((u.drop j).take (n + 1)) v 0).1.take n) v 0).1
          + 65536 ^ n
            * (((mulsubWin (dEst n j v u).1 ((u.drop j).take (n + 1)) v 0).1.getD n 0
              + (addbackWin
                ((mulsubWin (dEst n j v u).1 ((u.drop j).take (n + 1)) v 0).1.take n)
                v 0).2) % 65536) := by
      rw [val16_append, hablen2, val16_singleton]
    have hwin2lt := val16_lt _ hwin2wf
    rw [hwin2len, hexp] at hwin2lt
    have hvalwin2 : val16 (addbackWin
          ((mulsubWin (dEst n j v u).1 ((u.drop j).take (n + 1)) v 0).1.take n) v 0).1
        + 65536 ^ n
          * (((mulsubWin (dEst n j v u).1 ((u.drop j).take (n + 1)) v 0).1.getD n 0
            + (addbackWin
              ((mulsubWin (dEst n j v u).1 ((u.drop j).take (n + 1)) v 0).1.take n)
              v 0).2) % 65536)
        = val16 ((u.drop j).take (n + 1)) % val16 v := by
      rcases (by omega : (addbackWin
          ((mulsubWin (dEst n j v u).1 ((u.drop j).take (n + 1)) v 0).1.take n) v 0).2 = 0
          ∨ (addbackWin
            ((mulsubWin (dEst n j v u).1 ((u.drop j).take (n + 1)) v 0).1.take n) v 0).2
            = 1) with h2 | h2
      · rw [h2] at habval hwin2lt ⊢
        have hm0 : ((mulsubWin (dEst n j v u).1 ((u.drop j).take (n + 1)) v 0).1.getD n 0
            + 0) % 65536
            = (mulsubWin (dEst n j v u).1 ((u.drop j).take (n + 1)) v 0).1.getD n 0 := by
          omega
        rw [hm0] at hwin2lt ⊢
        omega
      · rw [h2] at habval hwin2lt ⊢
        by_cases h3 : (mulsubWin (dEst n j v u).1 ((u.drop j).take (n + 1)) v 0).1.getD n 0
            = 65535
        · have hm1 : ((mulsubWin (dEst n j v u).1 ((u.drop j).take (n + 1)) v 0).1.getD n 0
              + 1) % 65536 = 0 := by omega
          rw [hm1] at hwin2lt ⊢
          rw [h3] at hmsdec
          omega
        · have hm1 : ((mulsubWin (dEst n j v u).1 ((u.drop j).take (n + 1)) v 0).1.getD n 0
              + 1) % 65536
              = (mulsubWin (dEst n j v u).1 ((u.drop j).take (n + 1)) v 0).1.getD n 0
                + 1 := by omega
          rw [hm1] at hwin2lt ⊢
          have he2 : 65536 ^ n
              * ((mulsubWin (dEst n j v u).1 ((u.drop j).take (n + 1)) v 0).1.getD n 0 + 1)
              = 65536 ^ n
                * (mulsubWin (dEst n j v u).1 ((u.drop j).take (n + 1)) v 0).1.getD n 0
                + 65536 ^ n := by ring
          rw [he2] at hwin2lt ⊢
          omega
    refine ⟨(addbackWin
        ((mulsubWin (dEst n j v u).1 ((u.drop j).take (n + 1)) v 0).1.take n) v 0).1
      ++ [((mulsubWin (dEst n j v u).1 ((u.drop j).take (n + 1)) v 0).1.getD n 0
          + (addbackWin
            ((mulsubWin (dEst n j v u).1 ((u.drop j).take (n + 1)) v 0).1.take n)
            v 0).2) % 65536],
      ?_, hwin2len, hwin2wf, ?_, ?_, ?_⟩
    · rw [dStep_eq, if_pos (by omega)]
    · rw [hexp, hvalwin2]
    · apply getD_top_eq_zero _ n hwin2len
      rw [hexp, hvalwin2]
      calc val16 ((u.drop j).take (n + 1)) % val16 v < val16 v := hWmod
      _ ≤ 65536 ^ n := by omega
    · rw [dStep_eq, if_pos (by omega)]
      show q.set j (((dEst n j v u).1 % 65536 + 65535) % 65536) = _
      have e : ((dEst n j v u).1 % 65536 + 65535) % 65536
          = val16 ((u.drop j).take (n + 1)) / val16 v := by
        have h1 : (dEst n j v u).1
            = val16 ((u.drop j).take (n + 1)) / val16 v + 1 := hqone
        have h2 : (dEst n j v u).1 ≤ 65535 := hqb
        generalize hD : (dEst n j v u).1 = D at h1 h2 ⊢
        generalize hQ : val16 ((u.drop j).take (n + 1)) / val16 v = Q at h1 ⊢
        omega
      rw [e]

/-! ## The main loop of Algorithm D -/

/-- Reading a digit inside a `take` prefix. -/
theorem getD_take_lt (l : List Nat) (i k : Nat) (h : i < k) :
    (l.take k).getD i 0 = l.getD i 0 := by
  simp [List.getD, List.getElem?_take, h]

/-- Reading a digit after a `drop`. -/
theorem getD_eq_drop_getD (l : List Nat) (n k : Nat) :
    l.getD (n + k) 0 = (l.drop n).getD k 0 := by
  simp [List.getD, List.getElem?_drop]

/-- The single digit sitting between `take (j+1)` and `drop j`. -/
theorem take_drop_singleton :
    ∀ (l : List Nat) (j : Nat), j < l.length → (l.take (j + 1)).drop j = [l.getD j 0] := by
  intro l
  induction l with
  | nil => intro j h; simp at h
  | cons x xs ih =>
    intro j h
    cases j with
    | zero => simp [List.getD]
    | succ j =>
      have h2 : j < xs.length := by simp at h; omega
      have := ih j h2
      simp only [List.take_succ_cons, List.drop_succ_cons]
      rw [this]
      simp [List.getD]

/-- Extending a `take` prefix by one digit. -/
theorem take_succ_getD (l : List Nat) (k : Nat) (h : k < l.length) :
    l.take (k + 1) = l.take k ++ [l.getD k 0] := by
  rw [List.take_succ]
  simp [List.getElem?_eq_getElem h, List.getD]

/-- Dropping past an updated position erases the update. -/
theorem drop_set_of_lt (l : List Nat) (i : Nat) (a : Nat) (n : Nat) (h : i < n) :
    (l.set i a).drop n = l.drop n := by
  rw [List.drop_set]
  simp [Nat.not_le.mpr, h]

/-- Setting position zero and taking one digit yields that digit. -/
theorem set_zero_take_one (l : List Nat) (x : Nat) (h : 0 < l.length) :
    (l.set 0 x).take 1 = [x] := by
  cases l with
  | nil => simp at h
  | cons a t => rfl

set_option maxHeartbeats 1600000 in
/-- Correctness of the main loop `for (j = m; j >= 0; j--)` of `algorithm_d`:
starting at digit position `j`, it divides the number held in `u[0 .. j+n]`
by `v`, leaving the remainder in `u[0 .. n-1]` and the quotient digits in
`q[0 .. j]`, and touching no quotient digit above index `j`. -/
theorem dLoop_spec (n : Nat) (v : List Nat)
    (hn : 2 ≤ n) (hvlen : v.length = n) (hv : wf16 v)
    (hv1 : 32768 ≤ v.getD (n - 1) 0) :
    ∀ (j : Nat) (u q : List Nat), wf16 u → j + n + 1 ≤ u.length → j < q.length →
      val16 ((u.drop j).take (n + 1)) < 65536 * val16 v →
      (dLoop n v j u q).1.length = u.length ∧ wf16 (dLoop n v j u q).1
        ∧ (dLoop n v j u q).2.length = q.length
        ∧ val16 ((dLoop n v j u q).1.take n)
            = val16 (u.take (j + n + 1)) % val16 v
        ∧ val16 ((dLoop n v j u q).2.take (j + 1))
            = val16 (u.take (j + n + 1)) / val16 v
        ∧ (dLoop n v j u q).2.drop (j + 1) = q.drop (j + 1) := by
  have hVpos : 0 < val16 v := by
    have hsp := val16_eq_take_add v (n - 1) (by omega)
    have hp : 0 < 65536 ^ (n - 1) := Nat.pos_pow_of_pos _ (by omega)
    nlinarith
  intro j
  induction j with
  | zero =>
    intro u q hu hul hql hW
    obtain ⟨win2, he1, hlen2, hwf2, hval2, htop2, he2⟩ :=
      dStep_spec n 0 v u q hn hvlen hv hu hul hv1 hW
    have hd : dLoop n v 0 u q = dStep n 0 v u q := rfl
    have hw2split := val16_eq_take_add win2 n hlen2
    rw [htop2, Nat.mul_zero, Nat.add_zero] at hw2split
    simp only [List.drop_zero] at hval2
    rw [hd, he1, he2]
    simp only [List.take_zero, List.nil_append, Nat.zero_add, List.drop_zero]
    refine ⟨?_, ?_, ?_, ?_, ?_, ?_⟩
    · rw [List.length_append, hlen2, List.length_drop]
      omega
    · exact wf16_append hwf2 (wf16_drop _ hu)
    · rw [List.length_set]
    · rw [List.take_append_of_le_length (by omega : n ≤ win2.length)]
      omega
    · rw [set_zero_take_one q _ (by omega), val16_singleton]
    · exact drop_set_of_lt q 0 _ 1 (by omega)
  | succ j ih =>
    intro u q hu hul hql hW
    obtain ⟨win2, he1, hlen2, hwf2, hval2, htop2, he2⟩ :=
      dStep_spec n (j + 1) v u q hn hvlen hv hu hul hv1 hW
    have hd : dLoop n v (j + 1) u q
        = dLoop n v j (dStep n (j + 1) v u q).1 (dStep n (j + 1) v u q).2 := rfl
    rw [he1, he2] at hd
    have htk : (u.take (j + 1)).length = j + 1 := by
      rw [List.length_take]
      omega
    have hw2split := val16_eq_take_add win2 n hlen2
    rw [htop2, Nat.mul_zero, Nat.add_zero] at hw2split
    have hulen' : (u.take (j + 1) ++ win2 ++ u.drop (j + 1 + n + 1)).length = u.length := by
      simp only [List.length_append, List.length_take, List.length_drop, hlen2]
      omega
    have huwf' : wf16 (u.take (j + 1) ++ win2 ++ u.drop (j + 1 + n + 1)) :=
      wf16_append (wf16_append (wf16_take _ hu) hwf2) (wf16_drop _ hu)
    have hdropj : (u.take (j + 1) ++ win2 ++ u.drop (j + 1 + n + 1)).drop j
        = u.getD j 0 :: (win2 ++ u.drop (j + 1 + n + 1)) := by
      rw [List.append_assoc, List.drop_append_eq_append_drop,
        take_drop_singleton u j (by omega), htk]
      have h0 : j - (j + 1) = 0 := by omega
      rw [h0, List.drop_zero, List.singleton_append]
    have hwin : ((u.take (j + 1) ++ win2 ++ u.drop (j + 1 + n + 1)).drop j).take (n + 1)
        = u.getD j 0 :: win2.take n := by
      rw [hdropj, List.take_succ_cons,
        List.take_append_of_le_length (by omega : n ≤ win2.length)]
    have hwinval : val16 (u.getD j 0 :: win2.take n)
        = u.getD j 0 + 65536 * (val16 ((u.drop (j + 1)).take (n + 1)) % val16 v) := by
      rw [val16_cons, ← hw2split, hval2]
    have hWmod : val16 ((u.drop (j + 1)).take (n + 1)) % val16 v < val16 v :=
      Nat.mod_lt _ hVpos
    have hudj : u.getD j 0 < 65536 := wf16_getD hu j
    have hWnew : val16 (((u.take (j + 1) ++ win2 ++ u.drop (j + 1 + n + 1)).drop j).take (n + 1))
        < 65536 * val16 v := by
      rw [hwin, hwinval]
      omega
    obtain ⟨ihlen, ihwf, ihqlen, ihrem, ihquot, ihdrop⟩ :=
      ih (u.take (j + 1) ++ win2 ++ u.drop (j + 1 + n + 1))
        (q.set (j + 1) (val16 ((u.drop (j + 1)).take (n + 1)) / val16 v))
        huwf' (by omega) (by rw [List.length_set]; omega) hWnew
    have htake' : (u.take (j + 1) ++ win2 ++ u.drop (j + 1 + n + 1)).take (j + n + 1)
        = u.take (j + 1) ++ win2.take n := by
      rw [List.append_assoc]
      have h1 : j + n + 1 = (u.take (j + 1)).length + n := by
        rw [htk]
        omega
      rw [h1, List.take_append,
        List.take_append_of_le_length (by omega : n ≤ win2.length)]
    have hidx : j + 1 + n + 1 = j + 1 + (n + 1) := by omega
    have hA : u.take (j + 1 + n + 1) = u.take (j + 1) ++ (u.drop (j + 1)).take (n + 1) := by
      rw [hidx]
      exact take_add_split u (j + 1) (n + 1)
    have hkey : 65536 ^ (j + 1) * val16 ((u.drop (j + 1)).take (n + 1))
        = 65536 ^ (j + 1) * (val16 ((u.drop (j + 1)).take (n + 1)) % val16 v)
          + 65536 ^ (j + 1) * (val16 ((u.drop (j + 1)).take (n + 1)) / val16 v) * val16 v := by
      conv_lhs => rw [← Nat.div_add_mod (val16 ((u.drop (j + 1)).take (n + 1))) (val16 v)]
      ring
    have h3 : val16 (u.take (j + 1)) + 65536 ^ (j + 1) * val16 ((u.drop (j + 1)).take (n + 1))
        = val16 (u.take (j + 1))
          + 65536 ^ (j + 1) * (val16 ((u.drop (j + 1)).take (n + 1)) % val16 v)
          + 65536 ^ (j + 1) * (val16 ((u.drop (j + 1)).take (n + 1)) / val16 v) * val16 v := by
      omega
    refine ⟨?_, ?_, ?_, ?_, ?_, ?_⟩
    · rw [hd, ihlen]
      exact hulen'
    · rw [hd]
      exact ihwf
    · rw [hd, ihqlen, List.length_set]
    · rw [hd, ihrem, htake', hA, val16_append, val16_append, htk, ← hw2split, hval2, h3,
        Nat.add_mul_mod_self_right]
    · rw [hd]
      have hq2 : (dLoop n v j (u.take (j + 1) ++ win2 ++ u.drop (j + 1 + n + 1))
          (q.set (j + 1) (val16 ((u.drop (j + 1)).take (n + 1)) / val16 v))).2.length
          = q.length := by
        rw [ihqlen, List.length_set]
      have h4 := getD_eq_drop_getD
        (dLoop n v j (u.take (j + 1) ++ win2 ++ u.drop (j + 1 + n + 1))
          (q.set (j + 1) (val16 ((u.drop (j + 1)).take (n + 1)) / val16 v))).2 (j + 1) 0
      rw [ihdrop] at h4
      have h5 := getD_eq_drop_getD
        (q.set (j + 1) (val16 ((u.drop (j + 1)).take (n + 1)) / val16 v)) (j + 1) 0
      rw [← h5] at h4
      simp only [Nat.add_zero] at h4
      have h6 : (q.set (j + 1) (val16 ((u.drop (j + 1)).take (n + 1)) / val16 v)).getD
          (j + 1) 0 = val16 ((u.drop (j + 1)).take (n + 1)) / val16 v := by
        simp [List.getD, List.getElem?_set, hql]
      rw [h6] at h4
      rw [take_succ_getD _ (j + 1) (by omega), val16_append, val16_singleton, h4]
      have h7 : ((dLoop n v j (u.take (j + 1) ++ win2 ++ u.drop (j + 1 + n + 1))
          (q.set (j + 1) (val16 ((u.drop (j + 1)).take (n + 1)) / val16 v))).2.take
          (j + 1)).length = j + 1 := by
        rw [List.length_take]
        omega
      rw [h7, ihquot, htake', hA, val16_append, val16_append, htk, ← hw2split, hval2, h3,
        Nat.add_mul_div_right _ _ hVpos]
    · rw [hd]
      have h8 := congrArg (List.drop 1) ihdrop
      rw [List.drop_drop, List.drop_drop] at h8
      rw [h8]
      exact drop_set_of_lt q (j + 1) _ (j + 1 + 1) (by omega)

/-! ## `algorithm_d`: full correctness -/

/-- Updating one digit with a `uint16_t` value preserves well-formedness. -/
theorem wf16_set {l : List Nat} (h : wf16 l) {i x : Nat} (hx : x < 65536) :
    wf16 (l.set i x) := by
  intro d hd
  rcases List.mem_or_eq_of_mem_set hd with h1 | h1
  · exact h d h1
  · omega

/-- The all-zero quotient buffer `q` is well formed. -/
theorem wf16_replicate (k : Nat) : wf16 (List.replicate k 0) := by
  intro d hd
  rw [List.eq_of_mem_replicate hd]
  omega

/-- One loop iteration stores a `uint16_t` quotient digit. -/
theorem dStep_wf_q (n j : Nat) (v u q : List Nat) (hq : wf16 q) :
    wf16 (dStep n j v u q).2 := by
  rw [dStep_eq]
  by_cases hc : (mulsubWin (dEst n j v u).1 ((u.drop j).take (n + 1)) v 0).2 ≠ 0
  · rw [if_pos hc]
    exact wf16_set hq (Nat.mod_lt _ (by omega))
  · rw [if_neg hc]
    exact wf16_set hq (Nat.mod_lt _ (by omega))

/-- The quotient array stays well formed throughout the main loop. -/
theorem dLoop_wf_q (n : Nat) (v : List Nat) :
    ∀ (j : Nat) (u q : List Nat), wf16 q → wf16 (dLoop n v j u q).2 := by
  intro j
  induction j with
  | zero => intro u q hq; exact dStep_wf_q n 0 v u q hq
  | succ j ih => intro u q hq; exact ih _ _ (dStep_wf_q n (j + 1) v u q hq)

/-- Unfolding `algorithm_d` in the single-digit-divisor case. -/
theorem algorithm_d_one (m : Nat) (u v : List Nat) :
    algorithm_d m 1 u v
      = (u.set 0 (short_division u (v.getD 0 0)).2, (short_division u (v.getD 0 0)).1) :=
  rfl

/-- Unfolding `algorithm_d` when the divisor is already normalized. -/
theorem algorithm_d_noshift (m n : Nat) (u v : List Nat) (hn : ¬ n = 1)
    (hs : leading_zeros ((v.take n).getD (n - 1) 0) = 0) :
    algorithm_d m n u v
      = ((dLoop n (v.take n) m (u ++ [0]) (List.replicate (m + 1) 0)).1,
         (dLoop n (v.take n) m (u ++ [0]) (List.replicate (m + 1) 0)).2) := by
  have hs2 : leading_zeros ((v.take n)[n - 1]?.getD 0) = 0 := by
    simpa [List.getD] using hs
  simp [algorithm_d, hn, hs2]

/-- Unfolding `algorithm_d` when a normalizing shift is required. -/
theorem algorithm_d_shift (m n : Nat) (u v : List Nat) (hn : ¬ n = 1)
    (hs : leading_zeros ((v.take n).getD (n - 1) 0) ≠ 0) :
    algorithm_d m n u v
      = (shift_right
           ((dLoop n (shift_left (v.take n) (leading_zeros ((v.take n).getD (n - 1) 0))) m
               (shift_left (u ++ [0]) (leading_zeros ((v.take n).getD (n - 1) 0)))
               (List.replicate (m + 1) 0)).1.take n)
           (leading_zeros ((v.take n).getD (n - 1) 0))
         ++ (dLoop n (shift_left (v.take n) (leading_zeros ((v.take n).getD (n - 1) 0))) m
               (shift_left (u ++ [0]) (leading_zeros ((v.take n).getD (n - 1) 0)))
               (List.replicate (m + 1) 0)).1.drop n,
         (dLoop n (shift_left (v.take n) (leading_zeros ((v.take n).getD (n - 1) 0))) m
             (shift_left (u ++ [0]) (leading_zeros ((v.take n).getD (n - 1) 0)))
             (List.replicate (m + 1) 0)).2) := by
  have hs2 : leading_zeros ((v.take n)[n - 1]?.getD 0) ≠ 0 := by
    simpa [List.getD] using hs
  simp [algorithm_d, hn, hs2]

set_option maxHeartbeats 1600000 in
/-- Full correctness of `algorithm_d(m, n, u, v, q)`: the returned `q` array
holds the `m + 1` quotient digits of `u / v`, and the low `n` digits of the
returned `u` array hold the remainder `u % v`. -/
theorem algorithm_d_spec (m n : Nat) (u v : List Nat)
    (hn : 1 ≤ n) (hulen : u.length = m + n) (hu : wf16 u) (hv : wf16 v)
    (hvlen : n ≤ v.length) (hvtop : 0 < v.getD (n - 1) 0) :
    val16 (algorithm_d m n u v).2 = val16 u / val16 (v.take n)
      ∧ val16 ((algorithm_d m n u v).1.take n) = val16 u % val16 (v.take n)
      ∧ (algorithm_d m n u v).2.length = m + 1
      ∧ wf16 (algorithm_d m n u v).2
      ∧ wf16 (algorithm_d m n u v).1
      ∧ u.length ≤ (algorithm_d m n u v).1.length := by
  by_cases hn1 : n = 1
  · subst hn1
    have hv0 : v.getD 0 0 < 65536 := wf16_getD hv 0
    have hvtop0 : 0 < v.getD 0 0 := by simpa using hvtop
    obtain ⟨hq, hr, hqwf, hqlen⟩ :=
      short_division_spec u (v.getD 0 0) hvtop0 (by omega) hu
    have hvtake : v.take 1 = [v.getD 0 0] := by
      have h := take_succ_getD v 0 (by omega)
      simpa using h
    have halg1 : (algorithm_d m 1 u v).1 = u.set 0 (short_division u (v.getD 0 0)).2 := by
      rw [algorithm_d_one]
    have halg2 : (algorithm_d m 1 u v).2 = (short_division u (v.getD 0 0)).1 := by
      rw [algorithm_d_one]
    refine ⟨?_, ?_, ?_, ?_, ?_, ?_⟩
    · rw [halg2, hq, hvtake, val16_singleton]
    · rw [halg1, set_zero_take_one u _ (by omega), val16_singleton, hr, hvtake,
        val16_singleton]
    · rw [halg2, hqlen, hulen]
    · rw [halg2]
      exact hqwf
    · rw [halg1]
      refine wf16_set hu ?_
      have hm := Nat.mod_lt (val16 u) hvtop0
      omega
    · rw [halg1, List.length_set]
  · have hn2 : 2 ≤ n := by omega
    have hvv : (v.take n).length = n := by
      rw [List.length_take]
      omega
    have hvvwf : wf16 (v.take n) := wf16_take _ hv
    have hvtop' : (v.take n).getD (n - 1) 0 = v.getD (n - 1) 0 :=
      getD_take_lt v (n - 1) n (by omega)
    have htoplt : v.getD (n - 1) 0 < 65536 := wf16_getD hv (n - 1)
    obtain ⟨hlz1, hlz2, hlz3⟩ := leading_zeros_spec (v.getD (n - 1) 0) hvtop htoplt
    have hu0len : (u ++ [0]).length = m + n + 1 := by
      rw [List.length_append, hulen]
      rfl
    have hu0wf : wf16 (u ++ [0]) := by
      refine wf16_append hu ?_
      intro d hd
      simp at hd
      omega
    have hu0val : val16 (u ++ [0]) = val16 u := by
      rw [val16_append, val16_singleton, Nat.mul_zero, Nat.add_zero]
    have hUlt : val16 u < 65536 ^ (m + n) := by
      have h := val16_lt u hu
      rw [hulen] at h
      exact h
    have hVdec := val16_eq_take_add (v.take n) (n - 1) (by rw [hvv]; omega)
    rw [hvtop'] at hVdec
    have hVlow : val16 ((v.take n).take (n - 1)) < 65536 ^ (n - 1) := by
      have h := val16_lt ((v.take n).take (n - 1)) (wf16_take _ hvvwf)
      rw [List.length_take, hvv, Nat.min_eq_left (by omega)] at h
      exact h
    have hVlb : 65536 ^ (n - 1) ≤ val16 (v.take n) := by
      have h1 : 65536 ^ (n - 1) * 1 ≤ 65536 ^ (n - 1) * v.getD (n - 1) 0 :=
        Nat.mul_le_mul_left _ (by omega)
      omega
    have hppos : 0 < 65536 ^ (n - 1) := Nat.pos_pow_of_pos _ (by omega)
    have hVpos : 0 < val16 (v.take n) := by omega
    have hps : (65536 : Nat) ^ n = 65536 ^ (n - 1) * 65536 := by
      conv_lhs => rw [(by omega : n = n - 1 + 1)]
      rw [pow_succ]
    have hpmn : (65536 : Nat) ^ (m + n) = 65536 ^ m * 65536 ^ n := pow_add 65536 m n
    by_cases hs0 : leading_zeros (v.getD (n - 1) 0) = 0
    · -- the divisor is already normalized
      rw [hs0] at hlz1 hlz2
      simp only [pow_zero, Nat.mul_one] at hlz1 hlz2
      have hv1 : 32768 ≤ (v.take n).getD (n - 1) 0 := by
        rw [hvtop']
        exact hlz1
      have halg := algorithm_d_noshift m n u v hn1 (by rw [hvtop']; exact hs0)
      have hdroplen : ((u ++ [0]).drop m).length = n + 1 := by
        rw [List.length_drop, hu0len]
        omega
      have hwineq : ((u ++ [0]).drop m).take (n + 1) = (u ++ [0]).drop m :=
        List.take_of_length_le (by omega)
      have hsplit0 := val16_take_drop (u ++ [0]) m
      have htklen : ((u ++ [0]).take m).length = m := by
        rw [List.length_take]
        omega
      rw [htklen, hu0val] at hsplit0
      have hwlt : val16 ((u ++ [0]).drop m) < 65536 ^ n := by
        by_contra hge
        push_neg at hge
        have h1 : 65536 ^ m * 65536 ^ n ≤ 65536 ^ m * val16 ((u ++ [0]).drop m) :=
          Nat.mul_le_mul_left _ hge
        omega
      have hWinv : val16 (((u ++ [0]).drop m).take (n + 1)) < 65536 * val16 (v.take n) := by
        rw [hwineq]
        have h2 : 65536 * 65536 ^ (n - 1) ≤ 65536 * val16 (v.take n) :=
          Nat.mul_le_mul_left _ hVlb
        omega
      obtain ⟨hRlen, hRwf, hQlen, hRval, hQval, hQdrop⟩ :=
        dLoop_spec n (v.take n) hn2 hvv hvvwf hv1 m (u ++ [0])
          (List.replicate (m + 1) 0) hu0wf (by omega)
          (by rw [List.length_replicate]; omega) hWinv
      have hfull : (u ++ [0]).take (m + n + 1) = u ++ [0] :=
        List.take_of_length_le (by omega)
      rw [hfull, hu0val] at hRval hQval
      have hQtake : (dLoop n (v.take n) m (u ++ [0]) (List.replicate (m + 1) 0)).2.take
          (m + 1) = (dLoop n (v.take n) m (u ++ [0]) (List.replicate (m + 1) 0)).2 :=
        List.take_of_length_le (by rw [hQlen, List.length_replicate])
      rw [hQtake] at hQval
      have halg1 : (algorithm_d m n u v).1
          = (dLoop n (v.take n) m (u ++ [0]) (List.replicate (m + 1) 0)).1 := by
        rw [halg]
      have halg2 : (algorithm_d m n u v).2
          = (dLoop n (v.take n) m (u ++ [0]) (List.replicate (m + 1) 0)).2 := by
        rw [halg]
      refine ⟨?_, ?_, ?_, ?_, ?_, ?_⟩
      · rw [halg2]
        exact hQval
      · rw [halg1]
        exact hRval
      · rw [halg2, hQlen, List.length_replicate]
      · rw [halg2]
        exact dLoop_wf_q n (v.take n) m (u ++ [0]) _ (wf16_replicate (m + 1))
      · rw [halg1]
        exact hRwf
      · rw [halg1, hRlen, hu0len]
        omega
    · -- a normalizing shift is required
      obtain ⟨s, hs⟩ : ∃ s, leading_zeros (v.getD (n - 1) 0) = s := ⟨_, rfl⟩
      rw [hs] at hlz1 hlz2 hlz3 hs0
      have hs1 : 1 ≤ s := by omega
      have hself : 0 < 2 ^ s := Nat.pos_pow_of_pos _ (by omega)
      have h2s : (2 : Nat) ^ s ≤ 32768 := by
        have h := Nat.pow_le_pow_right (by omega : 1 ≤ 2) hlz3
        norm_num at h
        exact h
      have halg := algorithm_d_shift m n u v hn1 (by rw [hvtop', hs]; exact hs0)
      rw [hvtop', hs] at halg
      -- the shifted divisor fits: (vtop + 1) * 2^s ≤ 65536
      have hpw : (2 : Nat) ^ (16 - s) * 2 ^ s = 65536 := by
        rw [← pow_add, (by omega : 16 - s + s = 16)]
        norm_num
      have hvt16 : v.getD (n - 1) 0 < 2 ^ (16 - s) :=
        Nat.lt_of_mul_lt_mul_right
          (show v.getD (n - 1) 0 * 2 ^ s < 2 ^ (16 - s) * 2 ^ s by omega)
      have hfit16 : (v.getD (n - 1) 0 + 1) * 2 ^ s ≤ 65536 := by
        have h1 : (v.getD (n - 1) 0 + 1) * 2 ^ s ≤ 2 ^ (16 - s) * 2 ^ s :=
          Nat.mul_le_mul_right _ (by omega)
        omega
      have hvfit : val16 (v.take n) * 2 ^ s < 65536 ^ n := by
        have e1 : (val16 ((v.take n).take (n - 1)) + 1) * 2 ^ s ≤ 65536 ^ (n - 1) * 2 ^ s :=
          Nat.mul_le_mul_right _ (by omega)
        have e2 : 65536 ^ (n - 1) * ((v.getD (n - 1) 0 + 1) * 2 ^ s)
            ≤ 65536 ^ (n - 1) * 65536 := Nat.mul_le_mul_left _ hfit16
        have b1 : (val16 ((v.take n).take (n - 1)) + 1) * 2 ^ s
            = val16 ((v.take n).take (n - 1)) * 2 ^ s + 2 ^ s := by ring
        have b2 : 65536 ^ (n - 1) * ((v.getD (n - 1) 0 + 1) * 2 ^ s)
            = 65536 ^ (n - 1) * (v.getD (n - 1) 0 * 2 ^ s) + 65536 ^ (n - 1) * 2 ^ s := by
          ring
        have b3 : val16 (v.take n) * 2 ^ s
            = val16 ((v.take n).take (n - 1)) * 2 ^ s
              + 65536 ^ (n - 1) * (v.getD (n - 1) 0 * 2 ^ s) := by
          rw [hVdec]
          ring
        omega
      obtain ⟨hvshval, hvshwf, hvshlen⟩ :=
        shift_left_spec (v.take n) s hs1 (by omega) hvvwf (by rw [hvv]; exact hvfit)
      rw [hvv] at hvshlen
      have hufit : val16 (u ++ [0]) * 2 ^ s < 65536 ^ (u ++ [0]).length := by
        rw [hu0len, hu0val]
        have t1 : val16 u * 2 ^ s ≤ val16 u * 65536 :=
          Nat.mul_le_mul_left _ (by omega)
        have t2 : val16 u * 65536 < 65536 ^ (m + n) * 65536 :=
          mul_lt_mul_of_pos_right hUlt (by omega)
        have b : (65536 : Nat) ^ (m + n + 1) = 65536 ^ (m + n) * 65536 :=
          pow_succ 65536 (m + n)
        omega
      obtain ⟨hushval, hushwf, hushlen⟩ :=
        shift_left_spec (u ++ [0]) s hs1 (by omega) hu0wf hufit
      rw [hu0len] at hushlen
      rw [hu0val] at hushval
      -- the shifted divisor's top digit is normalized
      have hvshdec := val16_eq_take_add (shift_left (v.take n) s) (n - 1)
        (by rw [hvshlen]; omega)
      have hvshlow : val16 ((shift_left (v.take n) s).take (n - 1)) < 65536 ^ (n - 1) := by
        have h := val16_lt _ (wf16_take (n - 1) hvshwf)
        rw [List.length_take, hvshlen, Nat.min_eq_left (by omega)] at h
        exact h
      have hv1' : 32768 ≤ (shift_left (v.take n) s).getD (n - 1) 0 := by
        by_contra hlt
        push_neg at hlt
        have c1 : 65536 ^ (n - 1) * (shift_left (v.take n) s).getD (n - 1) 0
            ≤ 65536 ^ (n - 1) * 32767 := Nat.mul_le_mul_left _ (by omega)
        have c2 : 65536 ^ (n - 1) * 32768
            ≤ 65536 ^ (n - 1) * (v.getD (n - 1) 0 * 2 ^ s) :=
          Nat.mul_le_mul_left _ hlz1
        have c3 : val16 ((v.take n).take (n - 1)) * 2 ^ s
              + 65536 ^ (n - 1) * (v.getD (n - 1) 0 * 2 ^ s)
            = val16 (v.take n) * 2 ^ s := by
          rw [hVdec]
          ring
        omega
      -- the initial window invariant for the shifted dividend
      have hdroplen : ((shift_left (u ++ [0]) s).drop m).length = n + 1 := by
        rw [List.length_drop, hushlen]
        omega
      have hwineq : ((shift_left (u ++ [0]) s).drop m).take (n + 1)
          = (shift_left (u ++ [0]) s).drop m := List.take_of_length_le (by omega)
      have hsplit0 := val16_take_drop (shift_left (u ++ [0]) s) m
      have htklen : ((shift_left (u ++ [0]) s).take m).length = m := by
        rw [List.length_take]
        omega
      rw [htklen, hushval] at hsplit0
      have hU2lt : val16 u * 2 ^ s < 65536 ^ m * (65536 ^ n * 2 ^ s) := by
        have t1 : val16 u * 2 ^ s < 65536 ^ (m + n) * 2 ^ s :=
          mul_lt_mul_of_pos_right hUlt hself
        have b : (65536 : Nat) ^ (m + n) * 2 ^ s = 65536 ^ m * (65536 ^ n * 2 ^ s) := by
          rw [pow_add]
          ring
        omega
      have hwlt : val16 ((shift_left (u ++ [0]) s).drop m) < 65536 ^ n * 2 ^ s := by
        by_contra hge
        push_neg at hge
        have h1 : 65536 ^ m * (65536 ^ n * 2 ^ s)
            ≤ 65536 ^ m * val16 ((shift_left (u ++ [0]) s).drop m) :=
          Nat.mul_le_mul_left _ hge
        omega
      have hWinv : val16 (((shift_left (u ++ [0]) s).drop m).take (n + 1))
          < 65536 * val16 (shift_left (v.take n) s) := by
        rw [hwineq, hvshval]
        have h2 : 65536 ^ (n - 1) * 2 ^ s ≤ val16 (v.take n) * 2 ^ s :=
          Nat.mul_le_mul_right _ hVlb
        have b1 : (65536 : Nat) ^ n * 2 ^ s = 65536 * (65536 ^ (n - 1) * 2 ^ s) := by
          rw [hps]
          ring
        omega
      obtain ⟨hRlen, hRwf, hQlen, hRval, hQval, hQdrop⟩ :=
        dLoop_spec n (shift_left (v.take n) s) hn2 hvshlen hvshwf hv1' m
          (shift_left (u ++ [0]) s) (List.replicate (m + 1) 0) hushwf (by omega)
          (by rw [List.length_replicate]; omega) hWinv
      have hfull : (shift_left (u ++ [0]) s).take (m + n + 1) = shift_left (u ++ [0]) s :=
        List.take_of_length_le (by omega)
      rw [hfull, hushval, hvshval] at hRval hQval
      rw [Nat.mul_mod_mul_right] at hRval
      rw [Nat.mul_div_mul_right _ _ hself] at hQval
      have hQtake : (dLoop n (shift_left (v.take n) s) m (shift_left (u ++ [0]) s)
            (List.replicate (m + 1) 0)).2.take (m + 1)
          = (dLoop n (shift_left (v.take n) s) m (shift_left (u ++ [0]) s)
            (List.replicate (m + 1) 0)).2 :=
        List.take_of_length_le (by rw [hQlen, List.length_replicate])
      rw [hQtake] at hQval
      -- unnormalize the remainder
      have hRtlen : ((dLoop n (shift_left (v.take n) s) m (shift_left (u ++ [0]) s)
          (List.replicate (m + 1) 0)).1.take n).length = n := by
        rw [List.length_take, hRlen, hushlen, Nat.min_eq_left (by omega)]
      have hRtwf : wf16 ((dLoop n (shift_left (v.take n) s) m (shift_left (u ++ [0]) s)
          (List.replicate (m + 1) 0)).1.take n) := wf16_take _ hRwf
      have hRtne : (dLoop n (shift_left (v.take n) s) m (shift_left (u ++ [0]) s)
          (List.replicate (m + 1) 0)).1.take n ≠ [] :=
        List.length_pos.mp (by rw [hRtlen]; omega)
      obtain ⟨hsrval, hsrwf, hsrlen⟩ :=
        shift_right_spec ((dLoop n (shift_left (v.take n) s) m (shift_left (u ++ [0]) s)
          (List.replicate (m + 1) 0)).1.take n) s hs1 (by omega) hRtwf hRtne
      rw [hRval, Nat.mul_div_cancel _ hself] at hsrval
      have halg1 : (algorithm_d m n u v).1
          = shift_right ((dLoop n (shift_left (v.take n) s) m (shift_left (u ++ [0]) s)
              (List.replicate (m + 1) 0)).1.take n) s
            ++ (dLoop n (shift_left (v.take n) s) m (shift_left (u ++ [0]) s)
              (List.replicate (m + 1) 0)).1.drop n := by
        rw [halg]
      have halg2 : (algorithm_d m n u v).2
          = (dLoop n (shift_left (v.take n) s) m (shift_left (u ++ [0]) s)
              (List.replicate (m + 1) 0)).2 := by
        rw [halg]
      refine ⟨?_, ?_, ?_, ?_, ?_, ?_⟩
      · rw [halg2]
        exact hQval
      · rw [halg1, List.take_append_of_le_length (by omega),
          List.take_of_length_le (by omega)]
        exact hsrval
      · rw [halg2, hQlen, List.length_replicate]
      · rw [halg2]
        exact dLoop_wf_q n _ m _ _ (wf16_replicate (m + 1))
      · rw [halg1]
        exact wf16_append hsrwf (wf16_drop _ hRwf)
      · rw [halg1, List.length_append, List.length_drop, hRlen, hushlen]
        omega

/-! ## `u32_to_u16` and `u16_to_u32` -/

/-- `u32_to_u16(n, u32, u16)`: split each 32-bit limb into two 16-bit halves,
`u16[2i] = (uint16_t)u32[i]` and `u16[2i+1] = (uint16_t)(u32[i] >> 16)`. -/
def u32_to_u16 : List Nat → List Nat
  | [] => []
  | x :: xs => x % 65536 :: x / 65536 % 65536 :: u32_to_u16 xs

/-- `u16_to_u32(n, u16, u32)`: recombine pairs of 16-bit halves,
`u32[i/2] = u16[i] | (u16[i+1] << 16)` (the OR of disjoint bit ranges is
their sum). -/
def u16_to_u32 : List Nat → List Nat
  | x :: y :: rest => (x + y * 65536) :: u16_to_u32 rest
  | _ => []

theorem u32_to_u16_length : ∀ l : List Nat, (u32_to_u16 l).length = 2 * l.length := by
  intro l
  induction l with
  | nil => rfl
  | cons x xs ih =>
    show (u32_to_u16 xs).length + 1 + 1 = 2 * (xs.length + 1)
    omega

theorem u32_to_u16_wf : ∀ l : List Nat, wf16 (u32_to_u16 l) := by
  intro l
  induction l with
  | nil => intro d hd; cases hd
  | cons x xs ih =>
    intro d hd
    have hd' : d ∈ x % 65536 :: x / 65536 % 65536 :: u32_to_u16 xs := hd
    rcases List.mem_cons.mp hd' with rfl | hd2
    · exact Nat.mod_lt _ (by omega)
    · rcases List.mem_cons.mp hd2 with rfl | hd3
      · exact Nat.mod_lt _ (by omega)
      · exact ih d hd3

theorem u32_to_u16_val : ∀ l : List Nat, wf32 l → val16 (u32_to_u16 l) = val32 l := by
  intro l
  induction l with
  | nil => intro _; rfl
  | cons x xs ih =>
    intro h
    have hx : x < 4294967296 := h x (by simp)
    have hxs : wf32 xs := fun d hd => h d (by simp [hd])
    show val16 (x % 65536 :: x / 65536 % 65536 :: u32_to_u16 xs) = val32 (x :: xs)
    rw [val16_cons, val16_cons, ih hxs, val32_cons]
    have hdiv : x / 65536 < 65536 := by omega
    rw [Nat.mod_eq_of_lt hdiv]
    have hkey : x % 65536 + 65536 * (x / 65536) = x := Nat.mod_add_div x 65536
    have b : 65536 * (x / 65536 + 65536 * val32 xs)
        = 65536 * (x / 65536) + 4294967296 * val32 xs := by ring
    omega

theorem u16_to_u32_val : ∀ (k : Nat) (l : List Nat), l.length = 2 * k →
    val32 (u16_to_u32 l) = val16 l := by
  intro k
  induction k with
  | zero =>
    intro l h
    have : l = [] := List.length_eq_zero.mp (by omega)
    subst this
    rfl
  | succ k ih =>
    intro l h
    rcases l with _ | ⟨x, _ | ⟨y, rest⟩⟩
    · simp at h
    · simp at h
      omega
    · have hr : rest.length = 2 * k := by
        simp at h
        omega
      show val32 ((x + y * 65536) :: u16_to_u32 rest) = val16 (x :: y :: rest)
      rw [val32_cons, ih rest hr, val16_cons, val16_cons]
      ring

theorem u16_to_u32_length : ∀ (k : Nat) (l : List Nat), l.length = 2 * k →
    (u16_to_u32 l).length = k := by
  intro k
  induction k with
  | zero =>
    intro l h
    have : l = [] := List.length_eq_zero.mp (by omega)
    subst this
    rfl
  | succ k ih =>
    intro l h
    rcases l with _ | ⟨x, _ | ⟨y, rest⟩⟩
    · simp at h
    · simp at h
      omega
    · have hr : rest.length = 2 * k := by
        simp at h
        omega
      show ((x + y * 65536) :: u16_to_u32 rest).length = k + 1
      rw [List.length_cons, ih rest hr]

theorem u16_to_u32_wf_aux : ∀ (k : Nat) (l : List Nat), l.length ≤ k → wf16 l →
    wf32 (u16_to_u32 l) := by
  intro k
  induction k with
  | zero =>
    intro l h _
    have : l = [] := List.length_eq_zero.mp (by omega)
    subst this
    intro d hd
    cases hd
  | succ k ih =>
    intro l h hwf
    rcases l with _ | ⟨x, _ | ⟨y, rest⟩⟩
    · intro d hd
      cases hd
    · intro d hd
      simp [u16_to_u32] at hd
    · have hx : x < 65536 := hwf x (by simp)
      have hy : y < 65536 := hwf y (by simp)
      have hrest : wf16 rest := fun d hd => hwf d (by simp [hd])
      intro d hd
      have hd' : d ∈ (x + y * 65536) :: u16_to_u32 rest := hd
      rcases List.mem_cons.mp hd' with rfl | hd2
      · omega
      · exact ih rest (by simp at h; omega) hrest d hd2

theorem u16_to_u32_wf (l : List Nat) (h : wf16 l) : wf32 (u16_to_u32 l) :=
  u16_to_u32_wf_aux l.length l (le_refl _) h

/-- Reading an even-indexed half-limb. -/
theorem u32_to_u16_getD_even : ∀ (l : List Nat) (i : Nat),
    (u32_to_u16 l).getD (2 * i) 0 = l.getD i 0 % 65536 := by
  intro l
  induction l with
  | nil => intro i; simp [u32_to_u16, List.getD]
  | cons x xs ih =>
    intro i
    cases i with
    | zero => rfl
    | succ i =>
      have he : 2 * (i + 1) = 2 * i + 1 + 1 := by ring
      show (x % 65536 :: x / 65536 % 65536 :: u32_to_u16 xs).getD (2 * (i + 1)) 0 = _
      rw [he, List.getD_cons_succ, List.getD_cons_succ, ih i, List.getD_cons_succ]

/-- Reading an odd-indexed half-limb. -/
theorem u32_to_u16_getD_odd : ∀ (l : List Nat) (i : Nat),
    (u32_to_u16 l).getD (2 * i + 1) 0 = l.getD i 0 / 65536 % 65536 := by
  intro l
  induction l with
  | nil => intro i; simp [u32_to_u16, List.getD]
  | cons x xs ih =>
    intro i
    cases i with
    | zero => rfl
    | succ i =>
      have he : 2 * (i + 1) + 1 = 2 * i + 1 + 1 + 1 := by ring
      show (x % 65536 :: x / 65536 % 65536 :: u32_to_u16 xs).getD (2 * (i + 1) + 1) 0 = _
      rw [he, List.getD_cons_succ, List.getD_cons_succ, ih i, List.getD_cons_succ]

theorem wf32_getD {l : List Nat} (h : wf32 l) (i : Nat) : l.getD i 0 < 4294967296 := by
  by_cases hi : i < l.length
  · rw [List.getD_eq_getElem l 0 hi]
    exact h _ (List.getElem_mem hi)
  · rw [List.getD_eq_default l 0 (by omega)]
    omega

/-- Overwriting the last digit of a list. -/
theorem set_eq_take_append : ∀ (l : List Nat) (k x : Nat), l.length = k + 1 →
    l.set k x = l.take k ++ [x] := by
  intro l
  induction l with
  | nil => intro k x h; simp at h
  | cons a t ih =>
    intro k x h
    cases k with
    | zero =>
      cases t with
      | nil => rfl
      | cons b t2 => simp at h
    | succ k =>
      show a :: t.set k x = a :: (t.take k ++ [x])
      rw [ih k x (by simp at h; omega)]

/-! ## `algorithm_d_wrapper` -/

/-- `algorithm_d_wrapper(m, n, u, v, q, r)`: convert the 32-bit dividend and
divisor to 16-bit half-limbs, drop the divisor's top half-limb when it is
zero (`v_zero`), run `algorithm_d`, pad the quotient (or the remainder when
`v_zero`), and convert back to 32-bit limbs.  Returns `(q, r)`. -/
def algorithm_d_wrapper (m n : Nat) (u v : List Nat) : List Nat × List Nat :=
  let u16 := u32_to_u16 u
  let v16 := u32_to_u16 v
  let vz := v16.getD (n * 2 - 1) 0 == 0
  let res := algorithm_d (m * 2 + if vz then 1 else 0) (n * 2 - if vz then 1 else 0)
    u16 v16
  let r16 := if vz then (res.1.take (n * 2)).set (n * 2 - 1) 0 else res.1.take (n * 2)
  let q16 := if vz then res.2.take ((m + 1) * 2) else (res.2 ++ [0]).take ((m + 1) * 2)
  (u16_to_u32 q16, u16_to_u32 r16)

/-- Unfolding `algorithm_d_wrapper` when the divisor's top half-limb is zero. -/
theorem algorithm_d_wrapper_zero (m n : Nat) (u v : List Nat)
    (hz : (u32_to_u16 v).getD (n * 2 - 1) 0 = 0) :
    algorithm_d_wrapper m n u v
      = (u16_to_u32 ((algorithm_d (m * 2 + 1) (n * 2 - 1) (u32_to_u16 u)
            (u32_to_u16 v)).2.take ((m + 1) * 2)),
         u16_to_u32 (((algorithm_d (m * 2 + 1) (n * 2 - 1) (u32_to_u16 u)
            (u32_to_u16 v)).1.take (n * 2)).set (n * 2 - 1) 0)) := by
  have hz2 : (u32_to_u16 v)[n * 2 - 1]?.getD 0 = 0 := by simpa [List.getD] using hz
  simp [algorithm_d_wrapper, hz2]

/-- Unfolding `algorithm_d_wrapper` when the divisor's top half-limb is
nonzero. -/
theorem algorithm_d_wrapper_nonzero (m n : Nat) (u v : List Nat)
    (hz : (u32_to_u16 v).getD (n * 2 - 1) 0 ≠ 0) :
    algorithm_d_wrapper m n u v
      = (u16_to_u32 (((algorithm_d (m * 2) (n * 2) (u32_to_u16 u)
            (u32_to_u16 v)).2 ++ [0]).take ((m + 1) * 2)),
         u16_to_u32 ((algorithm_d (m * 2) (n * 2) (u32_to_u16 u)
            (u32_to_u16 v)).1.take (n * 2))) := by
  have hz2 : ¬ (u32_to_u16 v)[n * 2 - 1]?.getD 0 = 0 := by simpa [List.getD] using hz
  simp [algorithm_d_wrapper, hz2]

set_option maxHeartbeats 1000000 in
/-- `algorithm_d_wrapper` divides the `(m+n)`-limb `u` by the `n`-limb `v`
(with nonzero top limb), returning the `(m+1)`-limb quotient and the `n`-limb
remainder. -/
theorem algorithm_d_wrapper_spec (m n : Nat) (u v : List Nat)
    (hn : 1 ≤ n) (hulen : u.length = m + n) (hvlen : v.length = n)
    (hu : wf32 u) (hv : wf32 v) (hvtop : v.getD (n - 1) 0 ≠ 0) :
    val32 (algorithm_d_wrapper m n u v).1 = val32 u / val32 v
      ∧ val32 (algorithm_d_wrapper m n u v).2 = val32 u % val32 v
      ∧ (algorithm_d_wrapper m n u v).1.length = m + 1
      ∧ (algorithm_d_wrapper m n u v).2.length = n
      ∧ wf32 (algorithm_d_wrapper m n u v).1
      ∧ wf32 (algorithm_d_wrapper m n u v).2 := by
  have hu16len : (u32_to_u16 u).length = 2 * (m + n) := by
    rw [u32_to_u16_length, hulen]
  have hv16len : (u32_to_u16 v).length = 2 * n := by
    rw [u32_to_u16_length, hvlen]
  have hu16wf := u32_to_u16_wf u
  have hv16wf := u32_to_u16_wf v
  have hu16val := u32_to_u16_val u hu
  have hv16val := u32_to_u16_val v hv
  have hvtop32 : v.getD (n - 1) 0 < 4294967296 := wf32_getD hv (n - 1)
  have hoddd := u32_to_u16_getD_odd v (n - 1)
  have hevend := u32_to_u16_getD_even v (n - 1)
  rw [(by omega : 2 * (n - 1) + 1 = n * 2 - 1)] at hoddd
  rw [(by omega : 2 * (n - 1) = n * 2 - 2)] at hevend
  by_cases hz : (u32_to_u16 v).getD (n * 2 - 1) 0 = 0
  · -- the divisor's top half-limb is zero: one half-limb shorter division
    rw [hoddd] at hz
    have hvsmall : v.getD (n - 1) 0 < 65536 := by omega
    have htopd : (u32_to_u16 v).getD (n * 2 - 2) 0 = v.getD (n - 1) 0 := by
      rw [hevend, Nat.mod_eq_of_lt hvsmall]
    obtain ⟨hQval, hRval, hQlen, hQwf, hRwf, hRlen⟩ :=
      algorithm_d_spec (m * 2 + 1) (n * 2 - 1) (u32_to_u16 u) (u32_to_u16 v)
        (by omega) (by omega) hu16wf hv16wf (by omega)
        (by rw [(by omega : n * 2 - 1 - 1 = n * 2 - 2), htopd]; omega)
    have hz' : (u32_to_u16 v).getD (n * 2 - 1) 0 = 0 := by
      rw [hoddd]
      omega
    have hvtake : val16 ((u32_to_u16 v).take (n * 2 - 1)) = val32 v := by
      have h := val16_eq_take_add (u32_to_u16 v) (n * 2 - 1) (by omega)
      rw [hz', Nat.mul_zero, Nat.add_zero] at h
      rw [← h, hv16val]
    rw [hu16val, hvtake] at hQval hRval
    have halg := algorithm_d_wrapper_zero m n u v hz'
    have halg1 : (algorithm_d_wrapper m n u v).1
        = u16_to_u32 ((algorithm_d (m * 2 + 1) (n * 2 - 1) (u32_to_u16 u)
            (u32_to_u16 v)).2.take ((m + 1) * 2)) := by rw [halg]
    have halg2 : (algorithm_d_wrapper m n u v).2
        = u16_to_u32 (((algorithm_d (m * 2 + 1) (n * 2 - 1) (u32_to_u16 u)
            (u32_to_u16 v)).1.take (n * 2)).set (n * 2 - 1) 0) := by rw [halg]
    have hq16 : (algorithm_d (m * 2 + 1) (n * 2 - 1) (u32_to_u16 u)
          (u32_to_u16 v)).2.take ((m + 1) * 2)
        = (algorithm_d (m * 2 + 1) (n * 2 - 1) (u32_to_u16 u) (u32_to_u16 v)).2 :=
      List.take_of_length_le (by omega)
    rw [hq16] at halg1
    -- the padded remainder: overwrite the top half-limb (which is junk) with 0
    have hr16len : ((algorithm_d (m * 2 + 1) (n * 2 - 1) (u32_to_u16 u)
        (u32_to_u16 v)).1.take (n * 2)).length = n * 2 := by
      rw [List.length_take, Nat.min_eq_left (by omega)]
    have hset := set_eq_take_append ((algorithm_d (m * 2 + 1) (n * 2 - 1) (u32_to_u16 u)
        (u32_to_u16 v)).1.take (n * 2)) (n * 2 - 1) 0 (by omega)
    have htt : ((algorithm_d (m * 2 + 1) (n * 2 - 1) (u32_to_u16 u)
          (u32_to_u16 v)).1.take (n * 2)).take (n * 2 - 1)
        = (algorithm_d (m * 2 + 1) (n * 2 - 1) (u32_to_u16 u)
            (u32_to_u16 v)).1.take (n * 2 - 1) := by
      rw [List.take_take, Nat.min_eq_left (by omega)]
    rw [htt] at hset
    have hrval2 : val16 (((algorithm_d (m * 2 + 1) (n * 2 - 1) (u32_to_u16 u)
          (u32_to_u16 v)).1.take (n * 2)).set (n * 2 - 1) 0)
        = val32 u % val32 v := by
      rw [hset, val16_append, val16_singleton, List.length_take,
        Nat.min_eq_left (by omega), Nat.mul_zero, Nat.add_zero, hRval]
    have hrwf2 : wf16 (((algorithm_d (m * 2 + 1) (n * 2 - 1) (u32_to_u16 u)
          (u32_to_u16 v)).1.take (n * 2)).set (n * 2 - 1) 0) :=
      wf16_set (wf16_take _ hRwf) (by omega)
    have hrlen2 : (((algorithm_d (m * 2 + 1) (n * 2 - 1) (u32_to_u16 u)
          (u32_to_u16 v)).1.take (n * 2)).set (n * 2 - 1) 0).length = 2 * n := by
      rw [List.length_set]
      omega
    refine ⟨?_, ?_, ?_, ?_, ?_, ?_⟩
    · rw [halg1, u16_to_u32_val (m + 1) _ (by omega), hQval]
    · rw [halg2, u16_to_u32_val n _ hrlen2, hrval2]
    · rw [halg1, u16_to_u32_length (m + 1) _ (by omega)]
    · rw [halg2, u16_to_u32_length n _ hrlen2]
    · rw [halg1]
      exact u16_to_u32_wf _ hQwf
    · rw [halg2]
      exact u16_to_u32_wf _ hrwf2
  · -- the divisor's top half-limb is nonzero
    obtain ⟨hQval, hRval, hQlen, hQwf, hRwf, hRlen⟩ :=
      algorithm_d_spec (m * 2) (n * 2) (u32_to_u16 u) (u32_to_u16 v)
        (by omega) (by omega) hu16wf hv16wf (by omega) (by omega)
    have hvtake : (u32_to_u16 v).take (n * 2) = u32_to_u16 v :=
      List.take_of_length_le (by omega)
    rw [hu16val, hvtake, hv16val] at hQval hRval
    have halg := algorithm_d_wrapper_nonzero m n u v hz
    have halg1 : (algorithm_d_wrapper m n u v).1
        = u16_to_u32 (((algorithm_d (m * 2) (n * 2) (u32_to_u16 u)
            (u32_to_u16 v)).2 ++ [0]).take ((m + 1) * 2)) := by rw [halg]
    have halg2 : (algorithm_d_wrapper m n u v).2
        = u16_to_u32 ((algorithm_d (m * 2) (n * 2) (u32_to_u16 u)
            (u32_to_u16 v)).1.take (n * 2)) := by rw [halg]
    have hq16 : ((algorithm_d (m * 2) (n * 2) (u32_to_u16 u)
          (u32_to_u16 v)).2 ++ [0]).take ((m + 1) * 2)
        = (algorithm_d (m * 2) (n * 2) (u32_to_u16 u) (u32_to_u16 v)).2 ++ [0] :=
      List.take_of_length_le
        (by rw [List.length_append, hQlen, List.length_singleton]; omega)
    rw [hq16] at halg1
    have hqval2 : val16 ((algorithm_d (m * 2) (n * 2) (u32_to_u16 u)
          (u32_to_u16 v)).2 ++ [0]) = val32 u / val32 v := by
      rw [val16_append, val16_singleton, Nat.mul_zero, Nat.add_zero, hQval]
    have hqwf2 : wf16 ((algorithm_d (m * 2) (n * 2) (u32_to_u16 u)
          (u32_to_u16 v)).2 ++ [0]) := by
      refine wf16_append hQwf ?_
      intro d hd
      simp at hd
      omega
    have hqlen2 : ((algorithm_d (m * 2) (n * 2) (u32_to_u16 u)
          (u32_to_u16 v)).2 ++ [0]).length = 2 * (m + 1) := by
      rw [List.length_append, hQlen, List.length_singleton]
      omega
    have hrlen2 : ((algorithm_d (m * 2) (n * 2) (u32_to_u16 u)
          (u32_to_u16 v)).1.take (n * 2)).length = 2 * n := by
      rw [List.length_take, Nat.min_eq_left (by omega)]
      omega
    refine ⟨?_, ?_, ?_, ?_, ?_, ?_⟩
    · rw [halg1, u16_to_u32_val (m + 1) _ hqlen2, hqval2]
    · rw [halg2, u16_to_u32_val n _ hrlen2, hRval]
    · rw [halg1, u16_to_u32_length (m + 1) _ hqlen2]
    · rw [halg2, u16_to_u32_length n _ hrlen2]
    · rw [halg1]
      exact u16_to_u32_wf _ hqwf2
    · rw [halg2]
      exact u16_to_u32_wf _ (wf16_take _ hRwf)

/-! ## The signed `bigint_t` layer -/

/-- `struct bigint_t`: a little-endian magnitude of 32-bit limbs and a sign
bit. -/
structure Bigint where
  data : List Nat
  negative : Bool
deriving DecidableEq

/-- The leading-zero stripping loop of `bigint_create`:
`while (n > 0 && u[n-1] == 0) n--;` removes most-significant zero limbs. -/
def stripTrail (l : List Nat) : List Nat := (l.reverse.dropWhile (· == 0)).reverse

/-- `bigint_create(n, u, negative)`: strip leading zero limbs; a zero result
always gets a positive sign flag. -/
def bigint_create (u : List Nat) (negative : Bool) : Bigint :=
  let d := stripTrail u
  if d = [] then ⟨d, false⟩ else ⟨d, negative⟩

/-- The integer a `bigint_t` denotes. -/
def Bigint.toInt (x : Bigint) : Int :=
  if x.negative then -(val32 x.data : Int) else (val32 x.data : Int)

/-- The representation invariant: no most-significant zero limb, and zero is
never negative. -/
def canonical (x : Bigint) : Prop :=
  x.data.getLast? ≠ some 0 ∧ (x.data = [] → x.negative = false)

instance (x : Bigint) : Decidable (canonical x) := by
  unfold canonical
  infer_instance

theorem bigint_create_eq (u : List Nat) (neg : Bool) :
    bigint_create u neg
      = if stripTrail u = [] then ⟨stripTrail u, false⟩ else ⟨stripTrail u, neg⟩ := rfl

theorem bigint_create_data (u : List Nat) (neg : Bool) :
    (bigint_create u neg).data = stripTrail u := by
  rw [bigint_create_eq]
  by_cases hs : stripTrail u = []
  · rw [if_pos hs]
  · rw [if_neg hs]

/-- A list is its stripped form plus a tail of zero limbs. -/
theorem stripTrail_decomp (l : List Nat) :
    l = stripTrail l ++ (l.reverse.takeWhile (· == 0)).reverse := by
  have h := List.takeWhile_append_dropWhile (fun x => x == 0) l.reverse
  conv_lhs => rw [← List.reverse_reverse l, ← h]
  rw [List.reverse_append]
  rfl

theorem zeros_val (l : List Nat) (h : ∀ d ∈ l, d = 0) : val32 l = 0 := by
  induction l with
  | nil => rfl
  | cons x xs ih =>
    rw [val32_cons, h x (by simp), ih (fun d hd => h d (by simp [hd]))]

theorem stripTrail_val (l : List Nat) : val32 (stripTrail l) = val32 l := by
  have hz : val32 (l.reverse.takeWhile (· == 0)).reverse = 0 := by
    refine zeros_val _ ?_
    intro d hd
    have h2 := List.mem_takeWhile_imp (List.mem_reverse.mp hd)
    simpa using h2
  conv_rhs => rw [stripTrail_decomp l]
  rw [val32_append, hz, Nat.mul_zero, Nat.add_zero]

theorem stripTrail_wf {l : List Nat} (h : wf32 l) : wf32 (stripTrail l) := by
  intro d hd
  refine h d ?_
  have h2 := (List.dropWhile_sublist (fun x => x == 0)).subset (List.mem_reverse.mp hd)
  exact List.mem_reverse.mp h2

theorem dropWhile_zero_head : ∀ l : List Nat, (l.dropWhile (· == 0)).head? ≠ some 0 := by
  intro l
  induction l with
  | nil => simp
  | cons x xs ih =>
    by_cases hx : x = 0
    · rw [List.dropWhile_cons, if_pos (by simp [hx])]
      exact ih
    · rw [List.dropWhile_cons, if_neg (by simp [hx])]
      simp [hx]

theorem stripTrail_last (l : List Nat) : (stripTrail l).getLast? ≠ some 0 := by
  rw [stripTrail, List.getLast?_reverse]
  exact dropWhile_zero_head l.reverse

theorem bigint_create_canonical (u : List Nat) (neg : Bool) :
    canonical (bigint_create u neg) := by
  rw [bigint_create_eq]
  by_cases hs : stripTrail u = []
  · rw [if_pos hs]
    exact ⟨stripTrail_last u, fun _ => rfl⟩
  · rw [if_neg hs]
    exact ⟨stripTrail_last u, fun h => absurd h hs⟩

/-- A canonical magnitude is already stripped. -/
theorem stripTrail_of_last {l : List Nat} (h : l.getLast? ≠ some 0) :
    stripTrail l = l := by
  rcases hrev : l.reverse with _ | ⟨g, rest⟩
  · have : l = [] := by simpa using congrArg List.reverse hrev
    subst this
    rfl
  · have hg : g ≠ 0 := by
      have h1 : l.reverse.head? = l.getLast? := List.head?_reverse l
      rw [hrev] at h1
      intro he
      exact h (by rw [← h1, he]; rfl)
    rw [stripTrail, hrev, List.dropWhile_cons, if_neg (by simp [hg])]
    rw [← hrev, List.reverse_reverse]

/-- A nonempty canonical magnitude denotes a positive number. -/
theorem getD_last_ne_zero {l : List Nat} (h : l.getLast? ≠ some 0) (hne : l ≠ []) :
    l.getD (l.length - 1) 0 ≠ 0 := by
  have hlen : 0 < l.length := List.length_pos.mpr hne
  have hb : l.length - 1 < l.length := by omega
  have h1 : l.getLast? = l[l.length - 1]? := List.getLast?_eq_getElem? l
  have h2 : l[l.length - 1]? = some (l.get ⟨l.length - 1, hb⟩) :=
    List.getElem?_eq_getElem hb
  have h3 : l.getD (l.length - 1) 0 = l.get ⟨l.length - 1, hb⟩ :=
    List.getD_eq_getElem l 0 hb
  rw [h3]
  intro he
  exact h (by rw [h1, h2, he])

/-- Base-`2^32` split of a list at its last digit. -/
theorem val32_eq_take_add (l : List Nat) (k : Nat) (h : l.length = k + 1) :
    val32 l = val32 (l.take k) + 4294967296 ^ k * l.getD k 0 := by
  conv_lhs => rw [eq_take_getD_of_length l k h]
  rw [val32_append, List.length_take, h]
  have e : min k (k + 1) = k := by omega
  rw [e, val32_cons, val32_nil]
  ring

theorem val32_pos_of_last {l : List Nat} (h : l.getLast? ≠ some 0) (hne : l ≠ []) :
    0 < val32 l := by
  have hlen : 0 < l.length := List.length_pos.mpr hne
  have hd := getD_last_ne_zero h hne
  have hsp := val32_eq_take_add l (l.length - 1) (by omega)
  have hp : 0 < 4294967296 ^ (l.length - 1) := Nat.pos_pow_of_pos _ (by omega)
  have h1 : 4294967296 ^ (l.length - 1) * 1
      ≤ 4294967296 ^ (l.length - 1) * l.getD (l.length - 1) 0 :=
    Nat.mul_le_mul_left _ (by omega)
  omega

/-- A shorter well-formed magnitude is smaller than a longer canonical one. -/
theorem val32_lt_of_shorter {x y : List Nat} (hx : wf32 x)
    (hy : y.getLast? ≠ some 0) (hyne : y ≠ []) (hlen : x.length < y.length) :
    val32 x < val32 y := by
  have h1 : val32 x < 4294967296 ^ x.length := val32_lt x hx
  have h2 : (4294967296 : Nat) ^ x.length ≤ 4294967296 ^ (y.length - 1) :=
    Nat.pow_le_pow_right (by omega) (by omega)
  have hd := getD_last_ne_zero hy hyne
  have hsp := val32_eq_take_add y (y.length - 1) (by
    have := List.length_pos.mpr hyne
    omega)
  have h3 : 4294967296 ^ (y.length - 1) * 1
      ≤ 4294967296 ^ (y.length - 1) * y.getD (y.length - 1) 0 :=
    Nat.mul_le_mul_left _ (by omega)
  omega

/-- `divrem(x_len, x, y_len, y, remainder)`: run the division wrapper and
package either the quotient or the remainder, always with a positive sign. -/
def divrem (x y : List Nat) (remainder : Bool) : Bigint :=
  let res := algorithm_d_wrapper (x.length - y.length) y.length x y
  if remainder then bigint_create res.2 false else bigint_create res.1 false

/-- `bigint_div`: quotient, with the sign patched in after `bigint_create`. -/
def bigint_div (x y : Bigint) : Bigint :=
  if x.data.length < y.data.length then bigint_create [] false
  else
    let z := divrem x.data y.data false
    ⟨z.data, x.negative ^^ y.negative⟩

/-- `bigint_rem`: remainder, with the dividend's sign patched in after
`bigint_create`. -/
def bigint_rem (x y : Bigint) : Bigint :=
  let z := if x.data.length < y.data.length then bigint_create x.data false
    else divrem x.data y.data true
  ⟨z.data, x.negative⟩

/-- `bigint_neg`. -/
def bigint_neg (x : Bigint) : Bigint := bigint_create x.data (x.negative ^^ true)

/-- `bigint_is_zero`. -/
def bigint_is_zero (x : Bigint) : Bool := x.data.length == 0

theorem toInt_mk (d : List Nat) (b : Bool) :
    (Bigint.mk d b).toInt = if b then -(val32 d : Int) else (val32 d : Int) := rfl

theorem bigint_div_eq (x y : Bigint) :
    bigint_div x y
      = if x.data.length < y.data.length then bigint_create [] false
        else ⟨(divrem x.data y.data false).data, x.negative ^^ y.negative⟩ := rfl

theorem bigint_rem_eq (x y : Bigint) :
    bigint_rem x y
      = ⟨(if x.data.length < y.data.length then bigint_create x.data false
          else divrem x.data y.data true).data, x.negative⟩ := rfl

set_option maxHeartbeats 1000000 in
/-- The magnitude-level behaviour of `bigint_div` and `bigint_rem`: the
quotient's sign flag is `x.negative ^ y.negative` and the remainder's is
`x.negative`, both applied to the truncated magnitudes `|x| / |y|` and
`|x| % |y|`. -/
theorem bigint_div_rem_toInt (x y : Bigint)
    (hx : wf32 x.data) (hy : wf32 y.data)
    (hxc : canonical x) (hyc : canonical y) (hy0 : y.data ≠ []) :
    (bigint_div x y).toInt
        = (if x.negative ^^ y.negative
            then -((val32 x.data / val32 y.data : Nat) : Int)
            else ((val32 x.data / val32 y.data : Nat) : Int))
      ∧ (bigint_rem x y).toInt
        = (if x.negative
            then -((val32 x.data % val32 y.data : Nat) : Int)
            else ((val32 x.data % val32 y.data : Nat) : Int)) := by
  have hylen : 1 ≤ y.data.length := List.length_pos.mpr hy0
  have hB : 0 < val32 y.data := val32_pos_of_last hyc.1 hy0
  constructor
  · by_cases hlen : x.data.length < y.data.length
    · have hAB : val32 x.data < val32 y.data := val32_lt_of_shorter hx hyc.1 hy0 hlen
      have hq0 : val32 x.data / val32 y.data = 0 := Nat.div_eq_of_lt hAB
      rw [hq0]
      have he : bigint_div x y = bigint_create [] false := by
        rw [bigint_div_eq, if_pos hlen]
      rw [he]
      have h0 : (bigint_create [] false).toInt = 0 := rfl
      rw [h0]
      cases hxy : x.negative ^^ y.negative <;> simp
    · push_neg at hlen
      have hwr := algorithm_d_wrapper_spec (x.data.length - y.data.length)
        y.data.length x.data y.data hylen (by omega) rfl hx hy
        (getD_last_ne_zero hyc.1 hy0)
      have he : bigint_div x y
          = ⟨(divrem x.data y.data false).data, x.negative ^^ y.negative⟩ := by
        rw [bigint_div_eq, if_neg (by omega)]
      have hdata : (divrem x.data y.data false).data
          = stripTrail (algorithm_d_wrapper (x.data.length - y.data.length)
              y.data.length x.data y.data).1 := by
        simp [divrem, bigint_create_data]
      have hval : val32 (divrem x.data y.data false).data
          = val32 x.data / val32 y.data := by
        rw [hdata, stripTrail_val, hwr.1]
      rw [he, toInt_mk, hval]
  · by_cases hlen : x.data.length < y.data.length
    · have hAB : val32 x.data < val32 y.data := val32_lt_of_shorter hx hyc.1 hy0 hlen
      have hm : val32 x.data % val32 y.data = val32 x.data := Nat.mod_eq_of_lt hAB
      have he : bigint_rem x y = ⟨(bigint_create x.data false).data, x.negative⟩ := by
        rw [bigint_rem_eq, if_pos hlen]
      rw [he, toInt_mk, bigint_create_data, stripTrail_of_last hxc.1, hm]
    · push_neg at hlen
      have hwr := algorithm_d_wrapper_spec (x.data.length - y.data.length)
        y.data.length x.data y.data hylen (by omega) rfl hx hy
        (getD_last_ne_zero hyc.1 hy0)
      have he : bigint_rem x y = ⟨(divrem x.data y.data true).data, x.negative⟩ := by
        rw [bigint_rem_eq, if_neg (by omega)]
      have hdata : (divrem x.data y.data true).data
          = stripTrail (algorithm_d_wrapper (x.data.length - y.data.length)
              y.data.length x.data y.data).2 := by
        simp [divrem, bigint_create_data]
      have hval : val32 (divrem x.data y.data true).data
          = val32 x.data % val32 y.data := by
        rw [hdata, stripTrail_val, hwr.2.1]
      rw [he, toInt_mk, hval]

theorem tdiv_ofNat (a b : Nat) : Int.tdiv (a : Int) (b : Int) = ((a / b : Nat) : Int) :=
  rfl

set_option maxHeartbeats 1000000 in
/-- C1: for well-formed `x` and `y` with `y ≠ 0`, `bigint_div x y` is the
quotient of `x` by `y` truncated toward zero, the division identity
`x = div(x,y)·y + rem(x,y)` holds, `|rem(x,y)| < |y|`, and the sign of
`rem(x,y)` is zero or the sign of the dividend `x`. -/
theorem div_rem_truncating_spec (x y : Bigint)
    (hx : wf32 x.data) (hy : wf32 y.data)
    (hxc : canonical x) (hyc : canonical y) (hy0 : y.data ≠ []) :
    (bigint_div x y).toInt = Int.tdiv x.toInt y.toInt
      ∧ x.toInt = (bigint_div x y).toInt * y.toInt + (bigint_rem x y).toInt
      ∧ (bigint_rem x y).toInt.natAbs < y.toInt.natAbs
      ∧ (Int.sign (bigint_rem x y).toInt = 0
          ∨ Int.sign (bigint_rem x y).toInt = Int.sign x.toInt) := by
  have hB : 0 < val32 y.data := val32_pos_of_last hyc.1 hy0
  obtain ⟨hdiv, hrem⟩ := bigint_div_rem_toInt x y hx hy hxc hyc hy0
  have hxi : x.toInt
      = if x.negative then -(val32 x.data : Int) else (val32 x.data : Int) := rfl
  have hyi : y.toInt
      = if y.negative then -(val32 y.data : Int) else (val32 y.data : Int) := rfl
  have hdm : ((val32 x.data : Nat) : Int)
      = ((val32 y.data : Nat) : Int) * ((val32 x.data / val32 y.data : Nat) : Int)
        + ((val32 x.data % val32 y.data : Nat) : Int) := by
    exact_mod_cast (Nat.div_add_mod (val32 x.data) (val32 y.data)).symm
  have hmlt : val32 x.data % val32 y.data < val32 y.data :=
    Nat.mod_lt _ hB
  have habs : ∀ k : Nat, (((k : Nat) : Int)).natAbs = k := fun k => Int.natAbs_ofNat k
  cases hbx : x.negative <;> cases hby : y.negative
  · -- x >= 0, y >= 0
    have hd : (bigint_div x y).toInt = ((val32 x.data / val32 y.data : Nat) : Int) := by
      rw [hdiv, hbx, hby]
      rfl
    have hr : (bigint_rem x y).toInt = ((val32 x.data % val32 y.data : Nat) : Int) := by
      rw [hrem, hbx]
      rfl
    have hx2 : x.toInt = ((val32 x.data : Nat) : Int) := by
      rw [hxi, hbx]
      rfl
    have hy2 : y.toInt = ((val32 y.data : Nat) : Int) := by
      rw [hyi, hby]
      rfl
    refine ⟨?_, ?_, ?_, ?_⟩
    · rw [hd, hx2, hy2, tdiv_ofNat]
    · rw [hd, hr, hx2, hy2]
      linear_combination hdm
    · rw [hr, hy2, habs, habs]
      exact hmlt
    · by_cases hr0 : val32 x.data % val32 y.data = 0
      · left
        rw [hr, hr0]
        rfl
      · right
        have hA : 0 < val32 x.data := by
          have := Nat.mod_le (val32 x.data) (val32 y.data)
          omega
        rw [hr, hx2]
        rw [show Int.sign ((val32 x.data % val32 y.data : Nat) : Int) = 1 from
          Int.sign_eq_one_iff_pos.mpr (by exact_mod_cast Nat.pos_of_ne_zero hr0)]
        rw [show Int.sign ((val32 x.data : Nat) : Int) = 1 from
          Int.sign_eq_one_iff_pos.mpr (by exact_mod_cast hA)]
  · -- x >= 0, y < 0
    have hd : (bigint_div x y).toInt = -((val32 x.data / val32 y.data : Nat) : Int) := by
      rw [hdiv, hbx, hby]
      rfl
    have hr : (bigint_rem x y).toInt = ((val32 x.data % val32 y.data : Nat) : Int) := by
      rw [hrem, hbx]
      rfl
    have hx2 : x.toInt = ((val32 x.data : Nat) : Int) := by
      rw [hxi, hbx]
      rfl
    have hy2 : y.toInt = -((val32 y.data : Nat) : Int) := by
      rw [hyi, hby]
      rfl
    refine ⟨?_, ?_, ?_, ?_⟩
    · rw [hd, hx2, hy2, Int.tdiv_neg, tdiv_ofNat]
    · rw [hd, hr, hx2, hy2]
      linear_combination hdm
    · rw [hr, hy2, Int.natAbs_neg, habs, habs]
      exact hmlt
    · by_cases hr0 : val32 x.data % val32 y.data = 0
      · left
        rw [hr, hr0]
        rfl
      · right
        have hA : 0 < val32 x.data := by
          have := Nat.mod_le (val32 x.data) (val32 y.data)
          omega
        rw [hr, hx2]
        rw [show Int.sign ((val32 x.data % val32 y.data : Nat) : Int) = 1 from
          Int.sign_eq_one_iff_pos.mpr (by exact_mod_cast Nat.pos_of_ne_zero hr0)]
        rw [show Int.sign ((val32 x.data : Nat) : Int) = 1 from
          Int.sign_eq_one_iff_pos.mpr (by exact_mod_cast hA)]
  · -- x < 0, y >= 0
    have hd : (bigint_div x y).toInt = -((val32 x.data / val32 y.data : Nat) : Int) := by
      rw [hdiv, hbx, hby]
      rfl
    have hr : (bigint_rem x y).toInt = -((val32 x.data % val32 y.data : Nat) : Int) := by
      rw [hrem, hbx]
      rfl
    have hx2 : x.toInt = -((val32 x.data : Nat) : Int) := by
      rw [hxi, hbx]
      rfl
    have hy2 : y.toInt = ((val32 y.data : Nat) : Int) := by
      rw [hyi, hby]
      rfl
    refine ⟨?_, ?_, ?_, ?_⟩
    · rw [hd, hx2, hy2, Int.neg_tdiv, tdiv_ofNat]
    · rw [hd, hr, hx2, hy2]
      linear_combination -hdm
    · rw [hr, hy2, Int.natAbs_neg, habs, habs]
      exact hmlt
    · by_cases hr0 : val32 x.data % val32 y.data = 0
      · left
        rw [hr, hr0]
        rfl
      · right
        have hA : 0 < val32 x.data := by
          have := Nat.mod_le (val32 x.data) (val32 y.data)
          omega
        rw [hr, hx2, Int.sign_neg, Int.sign_neg]
        rw [show Int.sign ((val32 x.data % val32 y.data : Nat) : Int) = 1 from
          Int.sign_eq_one_iff_pos.mpr (by exact_mod_cast Nat.pos_of_ne_zero hr0)]
        rw [show Int.sign ((val32 x.data : Nat) : Int) = 1 from
          Int.sign_eq_one_iff_pos.mpr (by exact_mod_cast hA)]
  · -- x < 0, y < 0
    have hd : (bigint_div x y).toInt = ((val32 x.data / val32 y.data : Nat) : Int) := by
      rw [hdiv, hbx, hby]
      rfl
    have hr : (bigint_rem x y).toInt = -((val32 x.data % val32 y.data : Nat) : Int) := by
      rw [hrem, hbx]
      rfl
    have hx2 : x.toInt = -((val32 x.data : Nat) : Int) := by
      rw [hxi, hbx]
      rfl
    have hy2 : y.toInt = -((val32 y.data : Nat) : Int) := by
      rw [hyi, hby]
      rfl
    refine ⟨?_, ?_, ?_, ?_⟩
    · rw [hd, hx2, hy2, Int.neg_tdiv, Int.tdiv_neg, tdiv_ofNat, neg_neg]
    · rw [hd, hr, hx2, hy2]
      linear_combination -hdm
    · rw [hr, hy2, Int.natAbs_neg, Int.natAbs_neg, habs, habs]
      exact hmlt
    · by_cases hr0 : val32 x.data % val32 y.data = 0
      · left
        rw [hr, hr0]
        rfl
      · right
        have hA : 0 < val32 x.data := by
          have := Nat.mod_le (val32 x.data) (val32 y.data)
          omega
        rw [hr, hx2, Int.sign_neg, Int.sign_neg]
        rw [show Int.sign ((val32 x.data % val32 y.data : Nat) : Int) = 1 from
          Int.sign_eq_one_iff_pos.mpr (by exact_mod_cast Nat.pos_of_ne_zero hr0)]
        rw [show Int.sign ((val32 x.data : Nat) : Int) = 1 from
          Int.sign_eq_one_iff_pos.mpr (by exact_mod_cast hA)]

/-- Witness for C1 at `x = -17`, `y = 5`: the quotient is `-3` and the
remainder `-2`. -/
theorem div_rem_truncating_spec_witness :
    (bigint_div ⟨[17], true⟩ ⟨[5], false⟩).toInt
        = Int.tdiv (Bigint.toInt ⟨[17], true⟩) (Bigint.toInt ⟨[5], false⟩)
      ∧ Bigint.toInt ⟨[17], true⟩
        = (bigint_div ⟨[17], true⟩ ⟨[5], false⟩).toInt * Bigint.toInt ⟨[5], false⟩
          + (bigint_rem ⟨[17], true⟩ ⟨[5], false⟩).toInt
      ∧ (bigint_rem ⟨[17], true⟩ ⟨[5], false⟩).toInt.natAbs
        < (Bigint.toInt ⟨[5], false⟩).natAbs
      ∧ (Int.sign (bigint_rem ⟨[17], true⟩ ⟨[5], false⟩).toInt = 0
          ∨ Int.sign (bigint_rem ⟨[17], true⟩ ⟨[5], false⟩).toInt
            = Int.sign (Bigint.toInt ⟨[17], true⟩)) :=
  div_rem_truncating_spec ⟨[17], true⟩ ⟨[5], false⟩
    (by intro d hd; simp at hd; omega) (by intro d hd; simp at hd; omega)
    (by decide) (by decide) (by decide)

/-- C2 is refuted by the code: `bigint_rem` writes `z->negative = x->negative`
after `bigint_create` has canonicalized `z`, so `rem(-6, 3)` is a negative
zero — an empty magnitude with the negative flag set, violating the canonical
form `v = 0 ⇒ ¬v.negative`. -/
theorem rem_neg_dividend_returns_negative_zero :
    bigint_rem ⟨[6], true⟩ ⟨[3], false⟩ = ⟨[], true⟩
      ∧ ¬ canonical (bigint_rem ⟨[6], true⟩ ⟨[3], false⟩) := by decide

/-- C3 is refuted by the code: for `|x| < |y|` with equal limb counts,
`bigint_div` reaches `divrem` and then sets `z->negative = x->negative ^
y->negative` on the zero quotient, so `div(1, -2)` returns zero with the
negative flag set rather than the claimed positive (false) flag. -/
theorem div_small_magnitude_sets_negative_flag :
    bigint_div ⟨[1], false⟩ ⟨[2], true⟩ = ⟨[], true⟩
      ∧ ¬ (bigint_div ⟨[1], false⟩ ⟨[2], true⟩).negative = false := by decide


set_option maxHeartbeats 1600000 in
/-- The qhat estimate of one digit position: dividing the top two dividend
half-limbs by `v[n-1]` and running the correction loop yields a value between
the exact quotient digit and the exact digit plus one, and it fits in 16
bits. -/
theorem dEst_bounds (n j : Nat) (v u : List Nat)
    (hn : 2 ≤ n) (hvlen : v.length = n) (hv : wf16 v) (hu : wf16 u)
    (hulen : j + n + 1 ≤ u.length)
    (hv1 : 32768 ≤ v.getD (n - 1) 0)
    (hWV : val16 ((u.drop j).take (n + 1)) < 65536 * val16 v) :
    val16 ((u.drop j).take (n + 1)) / val16 v ≤ (dEst n j v u).1
      ∧ (dEst n j v u).1 ≤ val16 ((u.drop j).take (n + 1)) / val16 v + 1
      ∧ (dEst n j v u).1 ≤ 65535 := by
  have hwinlen : ((u.drop j).take (n + 1)).length = n + 1 := by
    simp only [List.length_take, List.length_drop]
    omega
  have hwwf : wf16 ((u.drop j).take (n + 1)) := wf16_take _ (wf16_drop _ hu)
  -- digit reads of the window and the divisor
  have hd2 : ((u.drop j).take (n + 1)).getD n 0 = u.getD (j + n) 0 :=
    getD_drop_take u j n (n + 1) (by omega) (by omega)
  have hd1 : ((u.drop j).take (n + 1)).getD (n - 1) 0 = u.getD (j + n - 1) 0 := by
    have h := getD_drop_take u j (n - 1) (n + 1) (by omega) (by omega)
    have he : j + (n - 1) = j + n - 1 := by omega
    rw [he] at h
    exact h
  have hd0 : ((u.drop j).take (n + 1)).getD (n - 2) 0 = u.getD (j + n - 2) 0 := by
    have h := getD_drop_take u j (n - 2) (n + 1) (by omega) (by omega)
    have he : j + (n - 2) = j + n - 2 := by omega
    rw [he] at h
    exact h
  -- bounds on the digits read
  have hu3b : u.getD (j + n - 2) 0 < 65536 := wf16_getD hu _
  have hv1b : v.getD (n - 1) 0 < 65536 := wf16_getD hv _
  have hv2b : v.getD (n - 2) 0 < 65536 := wf16_getD hv _
  -- decompositions of the window value at the top one and top two digits
  have hWs1 : val16 ((u.drop j).take (n + 1))
      = val16 (((u.drop j).take (n + 1)).take (n - 1))
        + 65536 ^ (n - 1)
          * (u.getD (j + n) 0 * 65536 + u.getD (j + n - 1) 0) := by
    have h := val16_split ((u.drop j).take (n + 1)) (n - 1) (by omega)
    have hdrop := drop_eq_pair_of_length ((u.drop j).take (n + 1)) (n - 1)
      (by omega)
    have he1 : n - 1 + 1 = n := by omega
    rw [he1] at hdrop
    rw [hdrop, hd1, hd2] at h
    rw [h]
    simp only [val16_cons, val16_nil]
    ring
  have hWs2 : val16 ((u.drop j).take (n + 1))
      = val16 (((u.drop j).take (n + 1)).take (n - 2))
        + 65536 ^ (n - 2)
          * ((u.getD (j + n) 0 * 65536 + u.getD (j + n - 1) 0) * 65536
            + u.getD (j + n - 2) 0) := by
    have h := val16_split ((u.drop j).take (n + 1)) (n - 2) (by omega)
    have hdrop := drop_eq_triple_of_length ((u.drop j).take (n + 1)) (n - 2)
      (by omega)
    have he1 : n - 2 + 1 = n - 1 := by omega
    have he2 : n - 2 + 2 = n := by omega
    rw [he1, he2] at hdrop
    rw [hdrop, hd0, hd1, hd2] at h
    rw [h]
    simp only [val16_cons, val16_nil]
    ring
  -- decompositions of the divisor value
  have hVs1 : val16 v = val16 (v.take (n - 1)) + 65536 ^ (n - 1) * v.getD (n - 1) 0 := by
    have h := val16_eq_take_add v (n - 1) (by omega)
    exact h
  have hVs2 : val16 v
      = val16 (v.take (n - 2))
        + 65536 ^ (n - 2) * (v.getD (n - 1) 0 * 65536 + v.getD (n - 2) 0) := by
    have h := val16_split v (n - 2) (by omega)
    have hdrop := drop_eq_pair_of_length v (n - 2) (by omega)
    have he1 : n - 2 + 1 = n - 1 := by omega
    rw [he1] at hdrop
    rw [hdrop] at h
    rw [h]
    simp only [val16_cons, val16_nil]
    ring
  -- the low parts are below the corresponding powers
  have hlow1W : val16 (((u.drop j).take (n + 1)).take (n - 1)) < 65536 ^ (n - 1) := by
    have h := val16_lt (((u.drop j).take (n + 1)).take (n - 1))
      (wf16_take _ hwwf)
    rw [List.length_take, hwinlen, Nat.min_eq_left (by omega)] at h
    exact h
  have hlow2W : val16 (((u.drop j).take (n + 1)).take (n - 2)) < 65536 ^ (n - 2) := by
    have h := val16_lt (((u.drop j).take (n + 1)).take (n - 2))
      (wf16_take _ hwwf)
    rw [List.length_take, hwinlen, Nat.min_eq_left (by omega)] at h
    exact h
  have hlow1V : val16 (v.take (n - 1)) < 65536 ^ (n - 1) := by
    have h := val16_lt (v.take (n - 1)) (wf16_take _ hv)
    rw [List.length_take, hvlen, Nat.min_eq_left (by omega)] at h
    exact h
  have hlow2V : val16 (v.take (n - 2)) < 65536 ^ (n - 2) := by
    have h := val16_lt (v.take (n - 2)) (wf16_take _ hv)
    rw [List.length_take, hvlen, Nat.min_eq_left (by omega)] at h
    exact h
  have hVlt : val16 v < 65536 ^ n := by
    have h := val16_lt v hv
    rw [hvlen] at h
    exact h
  have hVpos : 0 < val16 v := by
    have h1 : 65536 ^ (n - 1) * 32768 ≤ 65536 ^ (n - 1) * v.getD (n - 1) 0 :=
      Nat.mul_le_mul_left _ hv1
    have h2 : 0 < 65536 ^ (n - 1) := Nat.pos_pow_of_pos _ (by omega)
    nlinarith
  have hq16 : val16 ((u.drop j).take (n + 1)) / val16 v < 65536 :=
    (Nat.div_lt_iff_lt_mul hVpos).mpr hWV
  -- one-digit estimate bounds (Knuth Theorems A and B)
  obtain ⟨hTA, hTB, hC⟩ := est_one_digit hWs1 hlow1W hVs1 hlow1V hv1 hWV
  -- two-digit estimate bounds
  have hA := est_upper hWs2 hlow2W hVs2 hlow2V
    (by nlinarith : 65536 ≤ v.getD (n - 1) 0 * 65536 + v.getD (n - 2) 0) hWV
  have hB := est_lower hWs2 hlow2W hVs2 hlow2V (by omega)
  -- the corrected estimate
  obtain ⟨hqlo, hqhi, hqb⟩ := corrLoop_spec (v.getD (n - 1) 0) (v.getD (n - 2) 0)
    (u.getD (j + n - 2) 0)
    (u.getD (j + n) 0 * 65536 + u.getD (j + n - 1) 0)
    (val16 ((u.drop j).take (n + 1)) / val16 v)
    (by omega) (by omega) (by omega) (by omega) (by omega) hA hB hC hTA hTB
  have hq : (dEst n j v u).1
      = (corrLoop (v.getD (n - 1) 0) (v.getD (n - 2) 0) (u.getD (j + n - 2) 0)
          ((u.getD (j + n) 0 * 65536 + u.getD (j + n - 1) 0) / v.getD (n - 1) 0)
          ((u.getD (j + n) 0 * 65536 + u.getD (j + n - 1) 0) % v.getD (n - 1) 0)).1 :=
    rfl
  rw [← hq] at hqlo hqhi hqb
  exact ⟨hqlo, hqhi, hqb⟩

/-- C4: in long division (`algorithm_d` with `n ≥ 2`), at every digit
position `j` the estimate `qhat` — the top two dividend half-limbs divided by
`v[n-1]`, then corrected by the loop — is the exact quotient digit or exactly
one too large, so the add-back branch runs at most once per digit, and the
digit the iteration stores at `q[j]` is exact. -/
theorem qhat_estimate_within_one (n j : Nat) (v u q : List Nat)
    (hn : 2 ≤ n) (hvlen : v.length = n) (hv : wf16 v) (hu : wf16 u)
    (hulen : j + n + 1 ≤ u.length)
    (hv1 : 32768 ≤ v.getD (n - 1) 0)
    (hWV : val16 ((u.drop j).take (n + 1)) < 65536 * val16 v) :
    val16 ((u.drop j).take (n + 1)) / val16 v ≤ (dEst n j v u).1
      ∧ (dEst n j v u).1 ≤ val16 ((u.drop j).take (n + 1)) / val16 v + 1
      ∧ (dStep n j v u q).2 = q.set j (val16 ((u.drop j).take (n + 1)) / val16 v) := by
  obtain ⟨h1, h2, _⟩ := dEst_bounds n j v u hn hvlen hv hu hulen hv1 hWV
  obtain ⟨_, _, _, _, _, _, h3⟩ := dStep_spec n j v u q hn hvlen hv hu hulen hv1 hWV
  exact ⟨h1, h2, h3⟩

/-- Witness for C4 at `n = 2`, `j = 0`, `v = 2^31`, `u = 2^32 + 5`: the
estimate is the exact digit `2` and `q[0] = 2` is stored. -/
theorem qhat_estimate_within_one_witness :
    val16 (([5, 0, 1].drop 0).take (2 + 1)) / val16 [0, 32768]
        ≤ (dEst 2 0 [0, 32768] [5, 0, 1]).1
      ∧ (dEst 2 0 [0, 32768] [5, 0, 1]).1
        ≤ val16 (([5, 0, 1].drop 0).take (2 + 1)) / val16 [0, 32768] + 1
      ∧ (dStep 2 0 [0, 32768] [5, 0, 1] [0]).2
        = [0].set 0 (val16 (([5, 0, 1].drop 0).take (2 + 1)) / val16 [0, 32768]) :=
  qhat_estimate_within_one 2 0 [0, 32768] [5, 0, 1] [0] (by decide) (by decide)
    (by intro d hd; simp at hd; omega) (by intro d hd; simp at hd; omega)
    (by decide) (by decide) (by decide)

/-- C6: wherever the correction-loop comparison
`qhat * v[n-2] > ((rhat << 16) | u[j+n-2])` is evaluated, the `||`
short-circuit gives `qhat ≤ 2^16 − 1` and the loop keeps `rhat ≤ 2^16 − 1`,
so both 32-bit operands are below `2^32`, the `% 2^32` reductions are
identities, the comparison agrees with exact arithmetic, and the whole C
loop coincides with its exact-width version. -/
theorem correction_comparison_no_wrap (v1 v2 u3 qhat rhat : Nat)
    (hv1 : v1 ≤ 65535) (hv2 : v2 ≤ 65535) (hu3 : u3 ≤ 65535)
    (hq32 : qhat < 4294967296) (hr : rhat ≤ 65535) :
    (qhat ≤ 65535 →
      qhat * v2 % 4294967296 = qhat * v2
        ∧ rhat * 65536 % 4294967296 = rhat * 65536
        ∧ ((qhat * v2 % 4294967296 > rhat * 65536 % 4294967296 + u3)
            ↔ qhat * v2 > rhat * 65536 + u3))
      ∧ corrLoop v1 v2 u3 qhat rhat = corrLoopExact v1 v2 u3 qhat rhat := by
  constructor
  · intro hq
    have h1 : qhat * v2 ≤ 65535 * 65535 := Nat.mul_le_mul hq hv2
    have h2 : rhat * 65536 ≤ 65535 * 65536 := Nat.mul_le_mul_right _ hr
    have e1 : qhat * v2 % 4294967296 = qhat * v2 := Nat.mod_eq_of_lt (by omega)
    have e2 : rhat * 65536 % 4294967296 = rhat * 65536 := Nat.mod_eq_of_lt (by omega)
    rw [e1, e2]
    exact ⟨rfl, rfl, Iff.rfl⟩
  · exact corrLoop_eq_exact v1 v2 u3 qhat rhat hv1 hv2 hq32 hr

/-- Witness for C6 at `v1 = 2`, `v2 = 1`, `u3 = 0`, `qhat = 3`, `rhat = 0`:
one correction step fires and both loops agree. -/
theorem correction_comparison_no_wrap_witness :
    (3 ≤ 65535 →
      3 * 1 % 4294967296 = 3 * 1
        ∧ 0 * 65536 % 4294967296 = 0 * 65536
        ∧ ((3 * 1 % 4294967296 > 0 * 65536 % 4294967296 + 0)
            ↔ 3 * 1 > 0 * 65536 + 0))
      ∧ corrLoop 2 1 0 3 0 = corrLoopExact 2 1 0 3 0 :=
  correction_comparison_no_wrap 2 1 0 3 0 (by decide) (by decide) (by decide)
    (by decide) (by decide)

/-- C7: for `short_division` with a positive 16-bit divisor and a well-formed
dividend, the running remainder stays below the divisor before every step of
the high-to-low sweep, so every quotient `((k << 16) | u16[i]) / v16` fits in
16 bits and `div_32_by_16`'s division-overflow assertion holds on every call
`short_division` makes. -/
theorem short_division_assertions_hold (u : List Nat) (v : Nat)
    (hv : 0 < v) (hv16 : v ≤ 65535) (hu : wf16 u) :
    sdSafe v u.reverse 0 = true :=
  sdSafe_of_lt v hv16 u.reverse 0 (wf16_reverse hu) hv

/-- Witness for C7 on the dividend `[7, 65535]` and divisor `9`. -/
theorem short_division_assertions_hold_witness :
    sdSafe 9 ([7, 65535] : List Nat).reverse 0 = true :=
  short_division_assertions_hold [7, 65535] 9 (by decide) (by decide)
    (by intro d hd; simp at hd; omega)

/-- C10: running `short_division` with the quotient array aliased to the
dividend array (as `to_string`'s repeated division by `10000` does) produces
exactly the quotient digits and remainder of the non-aliased specification:
each `q[i]` is written only after `u[i]` has been read. -/
theorem inplace_short_division_refines (u : List Nat) (v : Nat) :
    short_division_inplace u v = short_division u v :=
  short_division_inplace_eq u v

/-! ## `multiply_add` and `from_string` -/

/-- The `pow10s` table of `from_string`, indexed by `i % 9`. -/
def pow10s (i : Nat) : Nat :=
  [1000000000, 10, 100, 1000, 10000, 100000, 1000000,
    10000000, 100000000].getD i 0

/-- The loop of `multiply_add`: multiply each limb by `x` with `mul_32_by_32`,
add the running carry `k` with 32-bit wraparound carry detection. -/
def maGo : List Nat → Nat → Nat → List Nat × Nat
  | [], _, k => ([], k)
  | d :: rest, x, k =>
    let hi := d * x / 4294967296 % 4294967296
    let lo := d * x % 4294967296
    let lo2 := (lo + k) % 4294967296
    let k2 := (hi + if lo2 < k then 1 else 0) % 4294967296
    let res := maGo rest x k2
    (lo2 :: res.1, res.2)

/-- `multiply_add(u, m, x, y)`: `u := u * x + y`, extending `u` by one limb
when the final carry is nonzero. -/
def multiply_add (u : List Nat) (x y : Nat) : List Nat :=
  let res := maGo u x y
  if res.2 ≠ 0 then res.1 ++ [res.2] else res.1

/-- The loop of `from_string`: `i` counts positions `1..n`; decimal digits
accumulate in `chunk` (a `uint32_t`), which is flushed into `u` by
`multiply_add` every 9 digits and at the end of the string. -/
def fsGo : List Char → Nat → Nat → Nat → List Nat → List Nat
  | [], _, _, _, u => u
  | c :: rest, i, n, chunk, u =>
    let chunk2 := (chunk * 10 + (c.toNat - 48)) % 4294967296
    if i % 9 = 0 ∨ i = n then
      fsGo rest (i + 1) n 0 (multiply_add u (pow10s (i % 9)) chunk2)
    else
      fsGo rest (i + 1) n chunk2 u

/-- `from_string(n, str, u_len, u)`. -/
def from_string (s : List Char) : List Nat := fsGo s 1 s.length 0 []

/-- `bigint_create_str(n, str)`. -/
def bigint_create_str (s : List Char) : Bigint :=
  if s.head? = some '-' then bigint_create (from_string s.tail) true
  else bigint_create (from_string s) false

/-- The number denoted by a most-significant-first decimal digit string. -/
def decVal : List Char → Nat
  | [] => 0
  | c :: rest => (c.toNat - 48) * 10 ^ rest.length + decVal rest

/-! ## `to_string` -/

/-- `'0' + d`. -/
def digitChar (d : Nat) : Char := Char.ofNat (48 + d)

/-- The digit-emitting loop of `to_string`:
`for (i = 0; (n != 0 && i < 4) || k; i++) { *s++ = '0' + k % 10; k /= 10; }`,
producing least-significant-first characters.  `nz` is `n != 0` after
stripping. -/
def emitGo : Nat → Nat → Nat → Bool → List Char
  | 0, _, _, _ => []
  | f + 1, i, k, nz =>
    if (nz = true ∧ i < 4) ∨ k ≠ 0 then
      digitChar (k % 10) :: emitGo f (i + 1) (k / 10) nz
    else []

/-- The outer loop of `to_string`: repeatedly divide the scratch copy by
`10000` in place, strip leading zeros, and emit one group of up to four
decimal digits. -/
def toStringGo : Nat → List Nat → List Char
  | 0, _ => []
  | f + 1, v =>
    if v = [] then []
    else
      let sd := short_division_inplace v 10000
      let v2 := stripTrail sd.1
      emitGo 5 0 sd.2 (!v2.isEmpty) ++ toStringGo f v2

/-- `to_string(n, u, str)`: convert to 16-bit half-limbs, strip, handle zero
specially, then emit least-significant-first and reverse. -/
def to_string (u : List Nat) : List Char :=
  let v := stripTrail (u32_to_u16 u)
  if v = [] then ['0']
  else (toStringGo (2 * v.length + 1) v).reverse

/-- `bigint_tostring`. -/
def bigint_tostring (x : Bigint) : List Char :=
  (if x.negative then ['-'] else []) ++ to_string x.data

/-- `bigint_max_stringlen`. -/
def bigint_max_stringlen (x : Bigint) : Nat :=
  if x.data.length = 0 then 1
  else x.data.length * 10 + (if x.negative then 1 else 0)

theorem maGo_length : ∀ (l : List Nat) (x k : Nat), (maGo l x k).1.length = l.length := by
  intro l
  induction l with
  | nil => intro x k; rfl
  | cons d rest ih =>
    intro x k
    show ((maGo (d :: rest) x k).1).length = rest.length + 1
    simp only [maGo, List.length_cons, ih]

theorem multiply_add_length (u : List Nat) (x y : Nat) :
    (multiply_add u x y).length ≤ u.length + 1 := by
  rw [multiply_add]
  split
  · rw [List.length_append, maGo_length, List.length_singleton]
  · rw [maGo_length]
    omega

theorem fsGo_length : ∀ (s : List Char) (i chunk : Nat) (u : List Nat) (n : Nat),
    1 ≤ i → i + s.length = n + 1 →
    (fsGo s i n chunk u).length
      ≤ u.length + (n / 9 - (i - 1) / 9) + (if n % 9 = 0 then 0 else 1) := by
  intro s
  induction s with
  | nil =>
    intro i chunk u n _ _
    show u.length ≤ _
    split <;> omega
  | cons c rest ih =>
    intro i chunk u n hi hlen
    simp only [List.length_cons] at hlen
    by_cases h9 : i % 9 = 0
    · show (fsGo (c :: rest) i n chunk u).length ≤ _
      simp only [fsGo]
      rw [if_pos (Or.inl h9)]
      have hma := multiply_add_length u (pow10s (i % 9))
        ((chunk * 10 + (c.toNat - 48)) % 4294967296)
      have hrec := ih (i + 1) 0
        (multiply_add u (pow10s (i % 9)) ((chunk * 10 + (c.toNat - 48)) % 4294967296))
        n (by omega) (by omega)
      split at hrec <;> split <;> omega
    · by_cases hn : i = n
      · have hrest : rest = [] := List.length_eq_zero.mp (by omega)
        subst hrest
        show (fsGo [c] i n chunk u).length ≤ _
        simp only [fsGo]
        rw [if_pos (Or.inr hn)]
        show (multiply_add u (pow10s (i % 9))
          ((chunk * 10 + (c.toNat - 48)) % 4294967296)).length ≤ _
        have hma := multiply_add_length u (pow10s (i % 9))
          ((chunk * 10 + (c.toNat - 48)) % 4294967296)
        have hn9 : ¬ n % 9 = 0 := by omega
        rw [if_neg hn9]
        omega
      · show (fsGo (c :: rest) i n chunk u).length ≤ _
        simp only [fsGo]
        rw [if_neg (by tauto)]
        have hrec := ih (i + 1) ((chunk * 10 + (c.toNat - 48)) % 4294967296) u n
          (by omega) (by omega)
        split at hrec <;> split <;> omega

/-- C9: `from_string` on an `n`-character digit string produces at most
`n / 9 + 1` limbs, so all of its `multiply_add` writes stay within the
`n / 9 + 1`-limb buffer `bigint_create_str` allocates. -/
theorem from_string_limb_count (s : List Char) :
    (from_string s).length ≤ s.length / 9 + 1 := by
  have h := fsGo_length s 1 0 [] s.length (by omega) (by omega)
  rw [from_string]
  split at h <;> simp at h <;> omega

theorem maGo_spec : ∀ (l : List Nat) (x k : Nat), wf32 l → x < 4294967296 →
    k < 4294967296 →
    val32 (maGo l x k).1 + 4294967296 ^ l.length * (maGo l x k).2 = val32 l * x + k
      ∧ wf32 (maGo l x k).1 ∧ (maGo l x k).2 < 4294967296 := by
  intro l
  induction l with
  | nil =>
    intro x k _ _ hk
    refine ⟨?_, ?_, hk⟩
    · rw [val32_nil]
      show 0 + 4294967296 ^ 0 * k = 0 * x + k
      ring
    · intro d hd
      simp [maGo] at hd
  | cons d rest ih =>
    intro x k hwf hx hk
    have hd : d < 4294967296 := hwf d (by simp)
    have hrest : wf32 rest := fun a ha => hwf a (by simp [ha])
    have hprod : d * x ≤ 4294967295 * 4294967295 :=
      Nat.mul_le_mul (by omega) (by omega)
    show val32 ((d * x % 4294967296 + k) % 4294967296 :: (maGo rest x
          ((d * x / 4294967296 % 4294967296
            + if (d * x % 4294967296 + k) % 4294967296 < k then 1 else 0)
            % 4294967296)).1)
        + 4294967296 ^ (rest.length + 1) * (maGo rest x
          ((d * x / 4294967296 % 4294967296
            + if (d * x % 4294967296 + k) % 4294967296 < k then 1 else 0)
            % 4294967296)).2
        = val32 (d :: rest) * x + k
      ∧ wf32 ((d * x % 4294967296 + k) % 4294967296 :: (maGo rest x
          ((d * x / 4294967296 % 4294967296
            + if (d * x % 4294967296 + k) % 4294967296 < k then 1 else 0)
            % 4294967296)).1)
      ∧ (maGo rest x
          ((d * x / 4294967296 % 4294967296
            + if (d * x % 4294967296 + k) % 4294967296 < k then 1 else 0)
            % 4294967296)).2 < 4294967296
    set K := (d * x / 4294967296 % 4294967296
      + if (d * x % 4294967296 + k) % 4294967296 < k then 1 else 0) % 4294967296 with hK
    have hKlt : K < 4294967296 := by
      rw [hK]
      exact Nat.mod_lt _ (by omega)
    have hbig : d * x % 4294967296 + k + 4294967296 * (d * x / 4294967296)
        = (d * x % 4294967296 + k) % 4294967296 + 4294967296 * K := by
      rw [hK]
      by_cases hov : d * x % 4294967296 + k < 4294967296
      · have h1 : (d * x % 4294967296 + k) % 4294967296 = d * x % 4294967296 + k :=
          Nat.mod_eq_of_lt hov
        rw [h1]
        have hite : (if d * x % 4294967296 + k < k then 1 else 0) = 0 := if_neg (by omega)
        rw [hite]
        omega
      · have h1 : (d * x % 4294967296 + k) % 4294967296
            = d * x % 4294967296 + k - 4294967296 := by omega
        rw [h1]
        have hite : (if d * x % 4294967296 + k - 4294967296 < k then 1 else 0) = 1 :=
          if_pos (by omega)
        rw [hite]
        omega
    obtain ⟨ihval, ihwf, ihk⟩ := ih x K hrest hx hKlt
    refine ⟨?_, ?_, ihk⟩
    · rw [val32_cons, val32_cons]
      have hb1 : (4294967296 : Nat) ^ (rest.length + 1) * (maGo rest x K).2
          = 4294967296 * (4294967296 ^ rest.length * (maGo rest x K).2) := by ring
      have hb2 := congrArg (fun t => 4294967296 * t) ihval
      simp only at hb2
      have hb3 : 4294967296 * (val32 (maGo rest x K).1
            + 4294967296 ^ rest.length * (maGo rest x K).2)
          = 4294967296 * val32 (maGo rest x K).1
            + 4294967296 * (4294967296 ^ rest.length * (maGo rest x K).2) := by ring
      have hb4 : 4294967296 * (val32 rest * x + K)
          = 4294967296 * (val32 rest * x) + 4294967296 * K := by ring
      have hb5 : (d + 4294967296 * val32 rest) * x
          = d * x + 4294967296 * (val32 rest * x) := by ring
      have hdm := Nat.div_add_mod (d * x) 4294967296
      omega
    · intro a ha
      rcases List.mem_cons.mp ha with rfl | ha2
      · exact Nat.mod_lt _ (by omega)
      · exact ihwf a ha2

theorem multiply_add_spec (u : List Nat) (x y : Nat) (hu : wf32 u)
    (hx : x < 4294967296) (hy : y < 4294967296) :
    val32 (multiply_add u x y) = val32 u * x + y
      ∧ wf32 (multiply_add u x y) := by
  obtain ⟨hval, hwf, hk⟩ := maGo_spec u x y hu hx hy
  rw [multiply_add]
  split
  · constructor
    · rw [val32_append, maGo_length, val32_cons, val32_nil]
      have hb : (4294967296 : Nat) ^ u.length * ((maGo u x y).2 + 4294967296 * 0)
          = 4294967296 ^ u.length * (maGo u x y).2 := by ring
      omega
    · intro d hd
      rcases List.mem_append.mp hd with h | h
      · exact hwf d h
      · rcases List.mem_cons.mp h with rfl | h2
        · exact hk
        · cases h2
  · rename_i h0
    push_neg at h0
    rw [h0, Nat.mul_zero, Nat.add_zero] at hval
    exact ⟨hval, hwf⟩

/-- At a flush position `i`, `pow10s[i % 9]` is `10` to the number of digits
accumulated in `chunk` plus the one just read. -/
theorem pow10s_flush (i : Nat) (hi : 1 ≤ i) :
    pow10s (i % 9) = 10 ^ ((i - 1) % 9 + 1) := by
  have h9 : i % 9 = 0 ∨ i % 9 = 1 ∨ i % 9 = 2 ∨ i % 9 = 3 ∨ i % 9 = 4 ∨ i % 9 = 5
      ∨ i % 9 = 6 ∨ i % 9 = 7 ∨ i % 9 = 8 := by omega
  rcases h9 with h | h | h | h | h | h | h | h | h
  · rw [h, (by omega : (i - 1) % 9 = 8)]
    norm_num [pow10s]
  · rw [h, (by omega : (i - 1) % 9 = 0)]
    norm_num [pow10s]
  · rw [h, (by omega : (i - 1) % 9 = 1)]
    norm_num [pow10s]
  · rw [h, (by omega : (i - 1) % 9 = 2)]
    norm_num [pow10s]
  · rw [h, (by omega : (i - 1) % 9 = 3)]
    norm_num [pow10s]
  · rw [h, (by omega : (i - 1) % 9 = 4)]
    norm_num [pow10s]
  · rw [h, (by omega : (i - 1) % 9 = 5)]
    norm_num [pow10s]
  · rw [h, (by omega : (i - 1) % 9 = 6)]
    norm_num [pow10s]
  · rw [h, (by omega : (i - 1) % 9 = 7)]
    norm_num [pow10s]

theorem pow10s_lt (i : Nat) : pow10s i < 4294967296 := by
  have h9 : i = 0 ∨ i = 1 ∨ i = 2 ∨ i = 3 ∨ i = 4 ∨ i = 5 ∨ i = 6 ∨ i = 7 ∨ i = 8
      ∨ 9 ≤ i := by omega
  rcases h9 with h | h | h | h | h | h | h | h | h | h
  all_goals first
    | (subst h; norm_num [pow10s])
    | (rw [pow10s, List.getD_eq_default _ _ (by simp; omega)]; omega)

theorem fsGo_cons (c : Char) (rest : List Char) (i n chunk : Nat) (u : List Nat) :
    fsGo (c :: rest) i n chunk u
      = if i % 9 = 0 ∨ i = n then
          fsGo rest (i + 1) n 0 (multiply_add u (pow10s (i % 9))
            ((chunk * 10 + (c.toNat - 48)) % 4294967296))
        else fsGo rest (i + 1) n ((chunk * 10 + (c.toNat - 48)) % 4294967296) u := rfl

set_option maxHeartbeats 800000 in
/-- The loop invariant of `from_string`: `u` holds the value of the digits up
to the last flush, `chunk` the `(i-1) % 9` digits read since. -/
theorem fsGo_val : ∀ (s : List Char) (i chunk : Nat) (u : List Nat) (n : Nat),
    (∀ c ∈ s, 48 ≤ c.toNat ∧ c.toNat ≤ 57) →
    1 ≤ i → i + s.length = n + 1 → i ≤ n → wf32 u →
    chunk < 10 ^ ((i - 1) % 9) →
    val32 (fsGo s i n chunk u)
        = (val32 u * 10 ^ ((i - 1) % 9) + chunk) * 10 ^ s.length + decVal s
      ∧ wf32 (fsGo s i n chunk u) := by
  intro s
  induction s with
  | nil =>
    intro i chunk u n _ _ hlen hin _ _
    simp only [List.length_nil] at hlen
    exact absurd hin (by omega)
  | cons c rest ih =>
    intro i chunk u n hdig hi hlen hin hwf hchunk
    simp only [List.length_cons] at hlen
    have hcd : 48 ≤ c.toNat ∧ c.toNat ≤ 57 := hdig c (by simp)
    have hdigrest : ∀ a ∈ rest, 48 ≤ a.toNat ∧ a.toNat ≤ 57 :=
      fun a ha => hdig a (by simp [ha])
    have htb : (i - 1) % 9 ≤ 8 := by omega
    have hc9 : chunk < 100000000 := by
      have h10 : (10 : Nat) ^ ((i - 1) % 9) ≤ 10 ^ 8 := Nat.pow_le_pow_right (by omega) htb
      norm_num at h10
      omega
    have hch2 : (chunk * 10 + (c.toNat - 48)) % 4294967296
        = chunk * 10 + (c.toNat - 48) := Nat.mod_eq_of_lt (by omega)
    have hch2b : chunk * 10 + (c.toNat - 48) < 10 ^ ((i - 1) % 9 + 1) := by
      have he : (10 : Nat) ^ ((i - 1) % 9 + 1) = 10 ^ ((i - 1) % 9) * 10 := pow_succ 10 _
      omega
    rw [fsGo_cons]
    by_cases hfl : i % 9 = 0 ∨ i = n
    · rw [if_pos hfl]
      obtain ⟨hmaval, hmawf⟩ := multiply_add_spec u (pow10s (i % 9))
        ((chunk * 10 + (c.toNat - 48)) % 4294967296) hwf (pow10s_lt _)
        (Nat.mod_lt _ (by omega))
      have hmaval2 : val32 (multiply_add u (pow10s (i % 9))
            ((chunk * 10 + (c.toNat - 48)) % 4294967296))
          = val32 u * 10 ^ ((i - 1) % 9 + 1) + (chunk * 10 + (c.toNat - 48)) := by
        rw [hmaval, hch2, pow10s_flush i hi]
      rcases Nat.lt_or_ge i n with hiltn | hige
      · -- more digits follow: the new chunk is empty
        obtain ⟨hrec, hrecwf⟩ := ih (i + 1) 0
          (multiply_add u (pow10s (i % 9)) ((chunk * 10 + (c.toNat - 48)) % 4294967296))
          n hdigrest (by omega) (by omega) (by omega) hmawf
          (Nat.pos_pow_of_pos _ (by omega))
        refine ⟨?_, hrecwf⟩
        rw [hrec, hmaval2]
        have hflq : i % 9 = 0 := by
          rcases hfl with h | h
          · exact h
          · omega
        have he1 : (i + 1 - 1) % 9 = 0 := by omega
        rw [he1]
        simp only [decVal, List.length_cons, pow_zero]
        ring
      · -- the final flush: the rest of the string is empty
        have hn : i = n := by omega
        have hrest : rest = [] := List.length_eq_zero.mp (by omega)
        subst hrest
        simp only [fsGo]
        refine ⟨?_, hmawf⟩
        rw [hmaval2]
        simp only [decVal, List.length_cons, List.length_nil, pow_zero]
        ring
    · rw [if_neg hfl]
      push_neg at hfl
      have he1 : (i + 1 - 1) % 9 = (i - 1) % 9 + 1 := by omega
      obtain ⟨hrec, hrecwf⟩ := ih (i + 1)
        ((chunk * 10 + (c.toNat - 48)) % 4294967296) u n hdigrest (by omega) (by omega)
        (by omega) hwf (by rw [he1, hch2]; exact hch2b)
      refine ⟨?_, hrecwf⟩
      rw [hrec, he1, hch2]
      simp only [decVal, List.length_cons]
      ring

/-- `from_string` on a digit string computes the denoted number. -/
theorem from_string_val (s : List Char) (hne : s ≠ [])
    (hdig : ∀ c ∈ s, 48 ≤ c.toNat ∧ c.toNat ≤ 57) :
    val32 (from_string s) = decVal s ∧ wf32 (from_string s) := by
  have hlen : 1 ≤ s.length := List.length_pos.mpr hne
  obtain ⟨hval, hwf⟩ := fsGo_val s 1 0 [] s.length hdig (by omega) (by omega) hlen
    (fun d hd => by cases hd) (Nat.pos_pow_of_pos _ (by omega))
  refine ⟨?_, hwf⟩
  show val32 (fsGo s 1 s.length 0 []) = decVal s
  rw [hval, val32_nil]
  simp

/-! ## `stripTrail` over 16-bit half-limb arrays -/

theorem zeros_val16 (l : List Nat) (h : ∀ d ∈ l, d = 0) : val16 l = 0 := by
  induction l with
  | nil => rfl
  | cons x xs ih =>
    rw [val16_cons, h x (by simp), ih (fun d hd => h d (by simp [hd]))]

theorem stripTrail_val16 (l : List Nat) : val16 (stripTrail l) = val16 l := by
  have hz : val16 (l.reverse.takeWhile (· == 0)).reverse = 0 := by
    refine zeros_val16 _ ?_
    intro d hd
    have h2 := List.mem_takeWhile_imp (List.mem_reverse.mp hd)
    simpa using h2
  conv_rhs => rw [stripTrail_decomp l]
  rw [val16_append, hz, Nat.mul_zero, Nat.add_zero]

theorem stripTrail_wf16 {l : List Nat} (h : wf16 l) : wf16 (stripTrail l) := by
  intro d hd
  refine h d ?_
  have h2 := (List.dropWhile_sublist (fun x => x == 0)).subset (List.mem_reverse.mp hd)
  exact List.mem_reverse.mp h2

theorem val16_pos_of_last {l : List Nat} (h : l.getLast? ≠ some 0) (hne : l ≠ []) :
    0 < val16 l := by
  have hlen : 0 < l.length := List.length_pos.mpr hne
  have hd := getD_last_ne_zero h hne
  have hsp := val16_eq_take_add l (l.length - 1) (by omega)
  have hp : 0 < 65536 ^ (l.length - 1) := Nat.pos_pow_of_pos _ (by omega)
  have h1 : 65536 ^ (l.length - 1) * 1
      ≤ 65536 ^ (l.length - 1) * l.getD (l.length - 1) 0 :=
    Nat.mul_le_mul_left _ (by omega)
  omega

theorem eq_nil_of_val16_eq_zero {l : List Nat} (h : l.getLast? ≠ some 0)
    (hv : val16 l = 0) : l = [] := by
  by_contra hne
  have := val16_pos_of_last h hne
  omega

/-! ## Digit emission -/

theorem emitGo_succ (f i k : Nat) (nz : Bool) :
    emitGo (f + 1) i k nz
      = if (nz = true ∧ i < 4) ∨ k ≠ 0 then
          digitChar (k % 10) :: emitGo f (i + 1) (k / 10) nz
        else [] := rfl

/-- With `n == 0` after stripping, the emit loop writes exactly the decimal
digits of `k`, least significant first. -/
theorem emitGo_false : ∀ (f i k : Nat), k < 10 ^ f →
    emitGo f i k false = (Nat.digits 10 k).map digitChar := by
  intro f
  induction f with
  | zero =>
    intro i k hk
    have hk0 : k = 0 := by norm_num at hk; omega
    subst hk0
    show ([] : List Char) = (Nat.digits 10 0).map digitChar
    rw [Nat.digits_zero, List.map_nil]
  | succ f ih =>
    intro i k hk
    by_cases hk0 : k = 0
    · subst hk0
      rw [emitGo_succ, if_neg (by simp), Nat.digits_zero, List.map_nil]
    · rw [emitGo_succ, if_pos (Or.inr hk0)]
      have hdiv : k / 10 < 10 ^ f := by
        have he : (10 : Nat) ^ (f + 1) = 10 ^ f * 10 := pow_succ 10 f
        omega
      rw [ih (i + 1) (k / 10) hdiv,
        Nat.digits_def' (by norm_num : (1 : Nat) < 10) (by omega : 0 < k),
        List.map_cons]

/-- The first `m` base-10 digits of `k`, then all remaining digits. -/
def padDigits : Nat → Nat → List Nat
  | 0, k => Nat.digits 10 k
  | m + 1, k => k % 10 :: padDigits m (k / 10)

theorem padDigits_succ (m k : Nat) :
    padDigits (m + 1) k = k % 10 :: padDigits m (k / 10) := rfl

/-- With `n != 0` after stripping, the emit loop pads the group to four
digits. -/
theorem emitGo_true_pad : ∀ (m i k : Nat), i + m = 4 → k < 10 ^ m →
    emitGo (m + 1) i k true = (padDigits m k).map digitChar := by
  intro m
  induction m with
  | zero =>
    intro i k hi hk
    have hk0 : k = 0 := by norm_num at hk; omega
    subst hk0
    have hi4 : i = 4 := by omega
    subst hi4
    rw [emitGo_succ, if_neg (by simp)]
    show ([] : List Char) = (padDigits 0 0).map digitChar
    rw [show padDigits 0 0 = Nat.digits 10 0 from rfl, Nat.digits_zero, List.map_nil]
  | succ m ih =>
    intro i k hi hk
    rw [emitGo_succ, if_pos (Or.inl ⟨rfl, by omega⟩)]
    have hdiv : k / 10 < 10 ^ m := by
      have he : (10 : Nat) ^ (m + 1) = 10 ^ m * 10 := pow_succ 10 m
      omega
    rw [ih (i + 1) (k / 10) (by omega) hdiv, padDigits_succ, List.map_cons]

/-- The four digits emitted for one group `k < 10000`. -/
theorem emitGo_true_four (k : Nat) (h : k < 10000) :
    emitGo 5 0 k true
      = [digitChar (k % 10), digitChar (k / 10 % 10), digitChar (k / 10 / 10 % 10),
         digitChar (k / 10 / 10 / 10 % 10)] := by
  have h4 : k / 10 / 10 / 10 / 10 = 0 := by omega
  have h2 : padDigits 4 k = k % 10 :: k / 10 % 10 :: k / 10 / 10 % 10
      :: k / 10 / 10 / 10 % 10 :: Nat.digits 10 (k / 10 / 10 / 10 / 10) := rfl
  have h1 := emitGo_true_pad 4 0 k (by norm_num) (by norm_num; omega)
  rw [h2, h4, Nat.digits_zero] at h1
  exact h1

/-! ## The outer loop of `to_string` -/

theorem toStringGo_succ (f : Nat) (v : List Nat) :
    toStringGo (f + 1) v
      = if v = [] then []
        else emitGo 5 0 (short_division_inplace v 10000).2
              (!(stripTrail (short_division_inplace v 10000).1).isEmpty)
            ++ toStringGo f (stripTrail (short_division_inplace v 10000).1) := rfl

theorem toStringGo_nil : ∀ f : Nat, toStringGo f [] = [] := by
  intro f
  cases f with
  | zero => rfl
  | succ f => rw [toStringGo_succ, if_pos rfl]

/-- Splitting off the four least significant decimal digits. -/
theorem digits_group (N : Nat) (h : 10000 ≤ N) :
    Nat.digits 10 N
      = N % 10 :: N / 10 % 10 :: N / 10 / 10 % 10 :: N / 10 / 10 / 10 % 10
        :: Nat.digits 10 (N / 10 / 10 / 10 / 10) := by
  rw [Nat.digits_def' (by norm_num : (1 : Nat) < 10) (by omega : 0 < N),
    Nat.digits_def' (by norm_num : (1 : Nat) < 10) (by omega : 0 < N / 10),
    Nat.digits_def' (by norm_num : (1 : Nat) < 10) (by omega : 0 < N / 10 / 10),
    Nat.digits_def' (by norm_num : (1 : Nat) < 10) (by omega : 0 < N / 10 / 10 / 10)]

set_option maxHeartbeats 800000 in
/-- With enough fuel, the outer loop of `to_string` emits exactly the decimal
digits of the value, least significant first. -/
theorem toStringGo_digits : ∀ (f : Nat) (v : List Nat), wf16 v →
    v.getLast? ≠ some 0 → val16 v < 10000 ^ f →
    toStringGo f v = (Nat.digits 10 (val16 v)).map digitChar := by
  intro f
  induction f with
  | zero =>
    intro v _ _ hlt
    have h0 : val16 v = 0 := by norm_num at hlt; omega
    rw [h0, Nat.digits_zero, List.map_nil]
    rfl
  | succ f ih =>
    intro v hwf hlast hlt
    by_cases hv : v = []
    · subst hv
      rw [toStringGo_nil, val16_nil, Nat.digits_zero, List.map_nil]
    · rw [toStringGo_succ, if_neg hv]
      have hiq := short_division_inplace_eq v 10000
      obtain ⟨hqval, hrem, hqwf, hqlen⟩ :=
        short_division_spec v 10000 (by omega) (by omega) hwf
      have hv2val : val16 (stripTrail (short_division_inplace v 10000).1)
          = val16 v / 10000 := by
        rw [hiq, stripTrail_val16, hqval]
      have hv2wf : wf16 (stripTrail (short_division_inplace v 10000).1) := by
        rw [hiq]
        exact stripTrail_wf16 hqwf
      have hv2last := stripTrail_last (short_division_inplace v 10000).1
      have hrem2 : (short_division_inplace v 10000).2 = val16 v % 10000 := by
        rw [hiq, hrem]
      by_cases hsmall : val16 v < 10000
      · have hv2nil : stripTrail (short_division_inplace v 10000).1 = [] := by
          refine eq_nil_of_val16_eq_zero hv2last ?_
          rw [hv2val]
          exact Nat.div_eq_of_lt hsmall
        have hb : (!(List.isEmpty ([] : List Nat))) = false := rfl
        rw [hv2nil, toStringGo_nil, List.append_nil, hrem2,
          Nat.mod_eq_of_lt hsmall, hb]
        exact emitGo_false 5 0 (val16 v) (by norm_num; omega)
      · push_neg at hsmall
        have hv2ne : stripTrail (short_division_inplace v 10000).1 ≠ [] := by
          intro h0
          rw [h0, val16_nil] at hv2val
          omega
        have hnz : (!(stripTrail (short_division_inplace v 10000).1).isEmpty)
            = true := by
          simp [List.isEmpty_iff, hv2ne]
        have hbound : val16 (stripTrail (short_division_inplace v 10000).1)
            < 10000 ^ f := by
          rw [hv2val]
          have he : (10000 : Nat) ^ (f + 1) = 10000 ^ f * 10000 := pow_succ 10000 f
          omega
        have hrec := ih _ hv2wf hv2last hbound
        rw [hnz, hrem2, hrec, hv2val,
          emitGo_true_four (val16 v % 10000) (Nat.mod_lt _ (by omega)),
          digits_group (val16 v) hsmall,
          List.map_cons, List.map_cons, List.map_cons, List.map_cons]
        have e1 : val16 v % 10000 % 10 = val16 v % 10 := by omega
        have e2 : val16 v % 10000 / 10 % 10 = val16 v / 10 % 10 := by omega
        have e3 : val16 v % 10000 / 10 / 10 % 10 = val16 v / 10 / 10 % 10 := by omega
        have e4 : val16 v % 10000 / 10 / 10 / 10 % 10
            = val16 v / 10 / 10 / 10 % 10 := by omega
        have e5 : val16 v / 10 / 10 / 10 / 10 = val16 v / 10000 := by omega
        rw [e1, e2, e3, e4, e5]
        rfl

theorem to_string_eq (u : List Nat) :
    to_string u
      = if stripTrail (u32_to_u16 u) = [] then ['0']
        else (toStringGo (2 * (stripTrail (u32_to_u16 u)).length + 1)
                (stripTrail (u32_to_u16 u))).reverse := rfl

/-- `to_string` prints the decimal digits of the value, most significant
first, with a lone `'0'` for zero. -/
theorem to_string_digits (u : List Nat) (hu : wf32 u) :
    to_string u
      = if val32 u = 0 then ['0']
        else ((Nat.digits 10 (val32 u)).map digitChar).reverse := by
  have h16 : val16 (u32_to_u16 u) = val32 u := u32_to_u16_val u hu
  rw [to_string_eq]
  by_cases hnil : stripTrail (u32_to_u16 u) = []
  · rw [if_pos hnil]
    have h0 : val32 u = 0 := by
      rw [← h16, ← stripTrail_val16, hnil, val16_nil]
    rw [if_pos h0]
  · rw [if_neg hnil]
    have hvpos : 0 < val16 (stripTrail (u32_to_u16 u)) :=
      val16_pos_of_last (stripTrail_last _) hnil
    have hvs : val16 (stripTrail (u32_to_u16 u)) = val32 u := by
      rw [stripTrail_val16, h16]
    have h0 : ¬ val32 u = 0 := by omega
    rw [if_neg h0]
    have hwf2 : wf16 (stripTrail (u32_to_u16 u)) := stripTrail_wf16 (u32_to_u16_wf u)
    have hfuel : val16 (stripTrail (u32_to_u16 u))
        < 10000 ^ (2 * (stripTrail (u32_to_u16 u)).length + 1) := by
      have h1 : val16 (stripTrail (u32_to_u16 u))
          < 65536 ^ (stripTrail (u32_to_u16 u)).length := val16_lt _ hwf2
      have h2 : (65536 : Nat) ^ (stripTrail (u32_to_u16 u)).length
          ≤ 10000 ^ (2 * (stripTrail (u32_to_u16 u)).length) := by
        rw [pow_mul]
        exact Nat.pow_le_pow_left (by norm_num) _
      have h3 : (10000 : Nat) ^ (2 * (stripTrail (u32_to_u16 u)).length)
          < 10000 ^ (2 * (stripTrail (u32_to_u16 u)).length + 1) :=
        Nat.pow_lt_pow_succ (by norm_num)
      omega
    rw [toStringGo_digits (2 * (stripTrail (u32_to_u16 u)).length + 1)
      (stripTrail (u32_to_u16 u)) hwf2 (stripTrail_last _) hfuel, hvs]

/-! ## The output length bound -/

theorem digits_len_le_of_lt_pow {m n : Nat} (h : m < 10 ^ n) :
    (Nat.digits 10 m).length ≤ n := by
  rcases Nat.eq_zero_or_pos m with rfl | hm
  · simp
  · have h1 := Nat.base_pow_length_digits_le 10 m (by norm_num) (by omega)
    by_contra hc
    push_neg at hc
    have h2 : (10 : Nat) ^ (n + 1) ≤ 10 ^ (Nat.digits 10 m).length :=
      Nat.pow_le_pow_right (by norm_num) (by omega)
    have h3 : (10 : Nat) ^ (n + 1) = 10 * 10 ^ n := by ring
    omega

theorem bigint_tostring_eq (x : Bigint) :
    bigint_tostring x = (if x.negative then ['-'] else []) ++ to_string x.data := rfl

theorem bigint_max_stringlen_eq (x : Bigint) :
    bigint_max_stringlen x
      = if x.data.length = 0 then 1
        else x.data.length * 10 + (if x.negative then 1 else 0) := rfl

/-- C8: for every well-formed canonical value, `bigint_tostring` produces a
string of length at most `bigint_max_stringlen`: one character for zero, and
otherwise at most ten characters per 32-bit limb plus one for the sign. -/
theorem tostring_length_bound (x : Bigint) (hwf : wf32 x.data) (hc : canonical x) :
    (bigint_tostring x).length ≤ bigint_max_stringlen x := by
  rw [bigint_tostring_eq, bigint_max_stringlen_eq, to_string_digits x.data hwf]
  by_cases hnil : x.data = []
  · have hneg : x.negative = false := hc.2 hnil
    have h0 : val32 x.data = 0 := by rw [hnil, val32_nil]
    rw [hneg, if_pos h0, if_pos (by simp [hnil] : x.data.length = 0)]
    simp
  · have hpos : 0 < val32 x.data := val32_pos_of_last hc.1 hnil
    rw [if_neg (by omega : ¬ val32 x.data = 0),
      if_neg (fun h0 => hnil (List.length_eq_zero.mp h0)),
      List.length_append, List.length_reverse, List.length_map]
    have hlt : val32 x.data < 10 ^ (10 * x.data.length) := by
      have h1 : val32 x.data < 4294967296 ^ x.data.length := val32_lt _ hwf
      have h2 : (4294967296 : Nat) ^ x.data.length ≤ 10 ^ (10 * x.data.length) := by
        rw [pow_mul]
        exact Nat.pow_le_pow_left (by norm_num) _
      omega
    have hdl : (Nat.digits 10 (val32 x.data)).length ≤ 10 * x.data.length :=
      digits_len_le_of_lt_pow hlt
    cases hb : x.negative
    all_goals simp
    all_goals omega

theorem tostring_length_bound_witness :
    (bigint_tostring ⟨[12345], true⟩).length ≤ bigint_max_stringlen ⟨[12345], true⟩ :=
  tostring_length_bound ⟨[12345], true⟩ (by intro d hd; simp at hd; omega) (by decide)

/-! ## The decimal round trip -/

theorem decVal_eq_ofDigits : ∀ s : List Char,
    decVal s = Nat.ofDigits 10 (s.reverse.map (fun c => c.toNat - 48)) := by
  intro s
  induction s with
  | nil => rfl
  | cons c rest ih =>
    show (c.toNat - 48) * 10 ^ rest.length + decVal rest = _
    rw [List.reverse_cons, List.map_append, Nat.ofDigits_append, ih,
      List.length_map, List.length_reverse]
    simp only [List.map_cons, List.map_nil, Nat.ofDigits_cons, Nat.ofDigits_nil]
    push_cast
    ring

/-- A digit string with a nonzero leading digit is the base-10 digit
expansion of its value. -/
theorem digits_decVal (s : List Char) (hne : s ≠ [])
    (hdig : ∀ c ∈ s, 48 ≤ c.toNat ∧ c.toNat ≤ 57) (hhead : s.head? ≠ some '0') :
    Nat.digits 10 (decVal s) = s.reverse.map (fun c => c.toNat - 48) := by
  rw [decVal_eq_ofDigits]
  refine Nat.digits_ofDigits 10 (by norm_num) _ ?_ ?_
  · intro l hl
    obtain ⟨c, hc, rfl⟩ := List.mem_map.mp hl
    have h2 := hdig c (List.mem_reverse.mp hc)
    omega
  · intro hne2
    rcases s with _ | ⟨c, rest⟩
    · exact absurd rfl hne
    · have hc0 : c ≠ '0' := by
        intro he
        exact hhead (by rw [he]; rfl)
      have hcd := hdig c (by simp)
      have hc48 : c.toNat ≠ 48 := by
        intro he
        refine hc0 ?_
        have h2 := Char.ofNat_toNat c
        rw [he] at h2
        exact h2.symm
      have h1 : (c :: rest).reverse.map (fun c => c.toNat - 48)
          = rest.reverse.map (fun c => c.toNat - 48) ++ [c.toNat - 48] := by
        rw [List.reverse_cons, List.map_append]
        rfl
      have h2 : ((c :: rest).reverse.map (fun c => c.toNat - 48)).getLast?
          = some (c.toNat - 48) := by
        rw [h1]
        simp
      have h3 := List.getLast?_eq_getLast
        ((c :: rest).reverse.map (fun c => c.toNat - 48)) hne2
      rw [h2] at h3
      have h4 := Option.some.inj h3
      rw [← h4]
      omega

theorem decVal_pos (s : List Char) (hne : s ≠ [])
    (hdig : ∀ c ∈ s, 48 ≤ c.toNat ∧ c.toNat ≤ 57) (hhead : s.head? ≠ some '0') :
    0 < decVal s := by
  rcases s with _ | ⟨c, rest⟩
  · exact absurd rfl hne
  · have hcd := hdig c (by simp)
    have hc0 : c ≠ '0' := by
      intro he
      exact hhead (by rw [he]; rfl)
    have hc48 : c.toNat ≠ 48 := by
      intro he
      refine hc0 ?_
      have h2 := Char.ofNat_toNat c
      rw [he] at h2
      exact h2.symm
    show 0 < (c.toNat - 48) * 10 ^ rest.length + decVal rest
    have hp : 0 < (10 : Nat) ^ rest.length := Nat.pos_pow_of_pos _ (by omega)
    have h1 : 1 * 1 ≤ (c.toNat - 48) * 10 ^ rest.length :=
      Nat.mul_le_mul (by omega) (by omega)
    omega

/-- A decimal string accepted by the round-trip claim: decimal digits only,
no leading zero unless the string is exactly `"0"`, an optional leading
minus, and no `"-0"`. -/
def ValidDecimal (s : List Char) : Prop :=
  (s ≠ [] ∧ (∀ c ∈ s, 48 ≤ c.toNat ∧ c.toNat ≤ 57) ∧ (s.head? = some '0' → s = ['0']))
  ∨ (∃ ds, s = '-' :: ds ∧ ds ≠ [] ∧ (∀ c ∈ ds, 48 ≤ c.toNat ∧ c.toNat ≤ 57)
      ∧ ds.head? ≠ some '0')

theorem bigint_create_str_eq (s : List Char) :
    bigint_create_str s
      = if s.head? = some '-' then bigint_create (from_string s.tail) true
        else bigint_create (from_string s) false := rfl

theorem bigint_create_false_negative (u : List Nat) :
    (bigint_create u false).negative = false := by
  rw [bigint_create_eq]
  split <;> rfl

theorem bigint_create_negative_of_ne {u : List Nat} (b : Bool)
    (h : stripTrail u ≠ []) : (bigint_create u b).negative = b := by
  rw [bigint_create_eq, if_neg h]

set_option maxHeartbeats 800000 in
/-- C5: for every decimal string matching `[-]?[0-9]+` without leading zeros
(except `"0"` itself) and different from `"-0"`, converting to a bigint with
`bigint_create_str` and back with `bigint_tostring` reproduces the string
character for character. -/
theorem decimal_round_trip (s : List Char) (h : ValidDecimal s) :
    bigint_tostring (bigint_create_str s) = s := by
  rcases h with ⟨hne, hdig, hzero⟩ | ⟨ds, rfl, hdne, hdig, hhead⟩
  · have hheadm : ¬ s.head? = some '-' := by
      rcases s with _ | ⟨c, rest⟩
      · simp
      · have hc := hdig c (by simp)
        intro he
        have hc2 : c = '-' := Option.some.inj he
        rw [hc2] at hc
        have h45 : ('-').toNat = 45 := rfl
        omega
    have hcs : bigint_create_str s = bigint_create (from_string s) false := by
      rw [bigint_create_str_eq, if_neg hheadm]
    obtain ⟨hval, hwf⟩ := from_string_val s hne hdig
    by_cases h0 : decVal s = 0
    · have hs0 : s = ['0'] := by
        rcases s with _ | ⟨c, rest⟩
        · exact absurd rfl hne
        · by_cases hc0 : c = '0'
          · exact hzero (by rw [hc0]; rfl)
          · have hh : (c :: rest).head? ≠ some '0' := by
              intro he
              exact hc0 (Option.some.inj he)
            have hp := decVal_pos (c :: rest) (by simp) hdig hh
            omega
      subst hs0
      decide
    · have hhead0 : s.head? ≠ some '0' := by
        intro he
        have h1 := hzero he
        rw [h1] at h0
        exact h0 rfl
      have hdata : (bigint_create_str s).data = stripTrail (from_string s) := by
        rw [hcs, bigint_create_data]
      have hneg : (bigint_create_str s).negative = false := by
        rw [hcs]
        exact bigint_create_false_negative _
      rw [bigint_tostring_eq, hneg, hdata]
      have hwf2 : wf32 (stripTrail (from_string s)) := stripTrail_wf hwf
      have hval2 : val32 (stripTrail (from_string s)) = decVal s := by
        rw [stripTrail_val, hval]
      rw [to_string_digits _ hwf2, hval2, if_neg h0,
        digits_decVal s hne hdig hhead0]
      have hmap : (s.reverse.map (fun c => c.toNat - 48)).map digitChar
          = s.reverse := by
        rw [List.map_map]
        have hid : ∀ c ∈ s.reverse, (digitChar ∘ fun c => c.toNat - 48) c = c := by
          intro c hc
          have hd := hdig c (List.mem_reverse.mp hc)
          show Char.ofNat (48 + (c.toNat - 48)) = c
          rw [(by omega : 48 + (c.toNat - 48) = c.toNat), Char.ofNat_toNat]
        rw [List.map_congr_left hid]
        simp
      rw [hmap, List.reverse_reverse]
      rfl
  · have hh : ('-' :: ds).head? = some '-' := rfl
    have hcs : bigint_create_str ('-' :: ds) = bigint_create (from_string ds) true := by
      rw [bigint_create_str_eq, if_pos hh]
      rfl
    obtain ⟨hval, hwf⟩ := from_string_val ds hdne hdig
    have hp : 0 < decVal ds := decVal_pos ds hdne hdig hhead
    have hst : stripTrail (from_string ds) ≠ [] := by
      intro he
      have h1 := stripTrail_val (from_string ds)
      rw [he, val32_nil] at h1
      rw [hval] at h1
      omega
    have hdata : (bigint_create_str ('-' :: ds)).data
        = stripTrail (from_string ds) := by
      rw [hcs, bigint_create_data]
    have hneg : (bigint_create_str ('-' :: ds)).negative = true := by
      rw [hcs]
      exact bigint_create_negative_of_ne true hst
    rw [bigint_tostring_eq, hneg, hdata]
    have hwf2 : wf32 (stripTrail (from_string ds)) := stripTrail_wf hwf
    have hval2 : val32 (stripTrail (from_string ds)) = decVal ds := by
      rw [stripTrail_val, hval]
    rw [to_string_digits _ hwf2, hval2, if_neg (by omega : ¬ decVal ds = 0),
      digits_decVal ds hdne hdig hhead]
    have hmap : (ds.reverse.map (fun c => c.toNat - 48)).map digitChar
        = ds.reverse := by
      rw [List.map_map]
      have hid : ∀ c ∈ ds.reverse, (digitChar ∘ fun c => c.toNat - 48) c = c := by
        intro c hc
        have hd := hdig c (List.mem_reverse.mp hc)
        show Char.ofNat (48 + (c.toNat - 48)) = c
        rw [(by omega : 48 + (c.toNat - 48) = c.toNat), Char.ofNat_toNat]
      rw [List.map_congr_left hid]
      simp
    rw [hmap, List.reverse_reverse]
    rfl

theorem decimal_round_trip_witness :
    bigint_tostring (bigint_create_str ['-', '1', '7']) = ['-', '1', '7'] :=
  decimal_round_trip ['-', '1', '7']
    (Or.inr ⟨['1', '7'], rfl, by decide, by decide, by decide⟩)

end LLCalc
